import Mathlib

/-!
Verification development for the `yamlparser` C++ library (arabnejad/yamlparser).

This file gives a shallow embedding, in Lean, of the library's structural
parsing engine (`YamlParser.cpp`), its helper functions
(`YamlHelperFunctions.cpp`), its value model (`YamlElement`) and its printer
(`YamlPrinter.cpp`), and proves properties of the embedded definitions.

Modelling conventions:
* C++ `std::string` is modelled as `List Char` (`Str`).  The sources only
  manipulate strings bytewise over ASCII, where byte order and code-point
  order agree, so `std::string` comparison is modelled by code-point
  comparison.
* `std::map<std::string, YamlItem>` is modelled as a key-sorted association
  list; `operator[]`-assignment is `mapSet` (sorted insert-or-assign), and
  iteration order of the model list equals `std::map`'s sorted iteration
  order.
* The mutable cursor `size_t &idx` is modelled by explicit cursor passing:
  each parsing function returns the advanced cursor.
* C++ exceptions are modelled with `Except YamlError`; the member state
  `m_anchors` is threaded through the parsing functions.
* The recursion of `parseMap`/`parseSeq`/`parseAnchor` is modelled with an
  explicit fuel parameter; fuel exhaustion yields the artificial error
  `YamlError.fuelErr`, which is never produced when the fuel exceeds the
  number of loop iterations of the source program (the top-level wrapper
  supplies ample fuel).
-/

namespace Yaml

/-- C++ `std::string`, modelled as a list of characters. -/
abbrev Str := List Char

/-- Embed a Lean string literal as a `Str`. -/
def lit (s : String) : Str := s.data

/-- The character class of `" \t"`, used by `find_first_not_of(" \t")` and
`trim` throughout the source. -/
def isSpaceTab (c : Char) : Bool := c = ' ' || c = '\t'

/-- C `isspace` in the default locale, used by `isInlineSeq`. -/
def isCppSpace (c : Char) : Bool :=
  c = ' ' || c = '\t' || c = '\n' || c = '\x0b' || c = '\x0c' || c = '\r'

/-- Index of the first character satisfying `p`, or `none`
(C++ functions returning `npos` are modelled with `Option Nat`). -/
def findIdxOf (p : Char → Bool) : Str → Option Nat
  | [] => Option.none
  | c :: t => if p c then some 0 else (findIdxOf p t).map (· + 1)

/-- C++ `s.find_first_not_of(" \t")`. -/
def findFirstNotOf (l : Str) : Option Nat := findIdxOf (fun c => !isSpaceTab c) l

/-- C++ `s.find(c)` for a single character `c`. -/
def findCharIdx (l : Str) (c : Char) : Option Nat := findIdxOf (fun d => d = c) l

/-- Drop trailing characters satisfying `p`. -/
def dropTrailWhile (p : Char → Bool) (l : Str) : Str :=
  (l.reverse.dropWhile p).reverse

/-- `trim` from `YamlHelperFunctions.cpp`: remove leading and trailing
`' '`/`'\t'`; a string that is all whitespace trims to the empty string.
(`substr(first_not, last_not - first_not + 1)` is exactly dropping the
leading and trailing runs of `" \t"` characters.) -/
def trim (s : Str) : Str := dropTrailWhile isSpaceTab (s.dropWhile isSpaceTab)

/-- `isMultilineLiteral`: value starts with `'|'` or `'>'`. -/
def isMultilineLiteral (value : Str) : Bool :=
  match value with
  | c :: _ => c = '|' || c = '>'
  | [] => false

/-- `isAnchor`: value starts with `'&'`. -/
def isAnchor (value : Str) : Bool :=
  match value with
  | c :: _ => c = '&'
  | [] => false

/-- `isAlias`: value starts with `'*'`. -/
def isAlias (value : Str) : Bool :=
  match value with
  | c :: _ => c = '*'
  | [] => false

/-- `isInlineSeq`: at least 3 characters, bracketed by `[` and `]`, with at
least one non-whitespace (C `isspace`) character between the brackets. -/
def isInlineSeq (value : Str) : Bool :=
  if value.length < 3 then false
  else if !(value.head? == some '[') || !(value.getLast? == some ']') then false
  else ((value.drop 1).dropLast).any (fun c => !isCppSpace c)

/-- `isMergeKey`: key is literally `<<` and value starts with `'*'`. -/
def isMergeKey (key value : Str) : Bool :=
  key == lit "<<" && isAlias value

/-- The value model of `YamlElement.hpp`: a tagged variant over null, string,
double, int, bool, sequence and mapping.  `YamlItem` is a transparent wrapper
around `YamlElement` in the source and is collapsed here.  The payload of the
`DOUBLE` variant is modelled by the raw token that `std::stod` converted
(no IEEE-754 value model); no claim in this development compares double
payloads, only the variant tag. -/
inductive YamlElement where
  | nullv
  | str (s : Str)
  | dbl (raw : Str)
  | intv (i : Int)
  | boolv (b : Bool)
  | seqv (xs : List YamlElement)
  | mapv (m : List (Str × YamlElement))

/-- `std::map<std::string, YamlItem>`: a key-sorted association list. -/
abbrev YamlMap := List (Str × YamlElement)

/-- Variant tag of an element, as an index (NONE, STRING, DOUBLE, INT, BOOL,
SEQ, MAP).  Used to state "same variant kind" properties. -/
def ekind : YamlElement → Nat
  | .nullv => 0
  | .str _ => 1
  | .dbl _ => 2
  | .intv _ => 3
  | .boolv _ => 4
  | .seqv _ => 5
  | .mapv _ => 6

/-- `YamlElement::isMap`. -/
def isMapE : YamlElement → Bool
  | .mapv _ => true
  | _ => false

/-- `YamlElement::isString`. -/
def isStringE : YamlElement → Bool
  | .str _ => true
  | _ => false

/-- Lexicographic order on strings by character code: the comparison used by
`std::map<std::string, _>` (bytewise; identical to code-point order on the
ASCII data the source manipulates). -/
def strLt : Str → Str → Bool
  | [], [] => false
  | [], _ :: _ => true
  | _ :: _, [] => false
  | a :: s, b :: t =>
    if a.toNat < b.toNat then true
    else if b.toNat < a.toNat then false
    else strLt s t

/-- `std::map::find`, as an association-list lookup. -/
def mapFind (m : YamlMap) (k : Str) : Option YamlElement :=
  match m with
  | [] => Option.none
  | (k', v) :: t => if k' = k then some v else mapFind t k

/-- `std::map::operator[]` followed by assignment: insert in key order, or
replace the value when the key is already present. -/
def mapSet (m : YamlMap) (k : Str) (v : YamlElement) : YamlMap :=
  match m with
  | [] => [(k, v)]
  | (k', v') :: t =>
    if strLt k k' then (k, v) :: (k', v') :: t
    else if k' = k then (k, v) :: t
    else (k', v') :: mapSet t k v

/-- The error taxonomy.  `YamlException.hpp` itself is not among the provided
sources, so the shape of the exception classes is
Modelled from the spec: `StructuralError` (C++ `SyntaxException`) carries a
message and, when the throw site passes one, a 1-based line number
(`structErr msg (some n)`); a throw site that passes only a message carries
no line number (`structErr msg none`).  `KeyException`, `TypeException`,
`ConversionException` carry the strings their throw sites pass.  `rangeErr`
models a `std::out_of_range` escaping from `substr` called with `npos`.
`fuelErr` is an artifact of the fuel-indexed embedding, not a source error. -/
inductive YamlError where
  | structErr (msg : Str) (line : Option Nat)
  | keyErr (key : Str)
  | typeErr (msg : Str)
  | convErr (value target : Str)
  | rangeErr (what : Str)
  | fuelErr
deriving DecidableEq

/-! ## Scalar Inference Engine (`YamlParser::parseScalar` and helpers) -/

/-- Recognizer for `int_re = ^-?\d+$`. -/
def matchIntRe : Str → Bool
  | [] => false
  | c :: t => if c = '-' then !t.isEmpty && t.all Char.isDigit
              else (c :: t).all Char.isDigit

/-- Trailing part `(?:[eE][+-]?\d+)?$` of `double_re`. -/
def matchExpPart : Str → Bool
  | [] => true
  | e :: t =>
    if e = 'e' || e = 'E' then
      match t with
      | [] => false
      | c :: u =>
        if c = '+' || c = '-' then !u.isEmpty && u.all Char.isDigit
        else !(c :: u).isEmpty && (c :: u).all Char.isDigit
    else false

/-- Body of `double_re` after the optional sign:
`(?:\d+\.\d*|\.\d+|\d+)(?:[eE][+-]?\d+)?$`.  Since the exponent part cannot
begin with a digit or a dot, maximal-munch scanning recognizes exactly the
regex's language. -/
def matchDoubleCore (l : Str) : Bool :=
  let ds := l.takeWhile Char.isDigit
  let rest := l.dropWhile Char.isDigit
  if ds.isEmpty then
    match rest with
    | [] => false
    | c :: t =>
      if c = '.' then
        !(t.takeWhile Char.isDigit).isEmpty && matchExpPart (t.dropWhile Char.isDigit)
      else false
  else
    match rest with
    | [] => matchExpPart rest
    | c :: t => if c = '.' then matchExpPart (t.dropWhile Char.isDigit) else matchExpPart rest

/-- Recognizer for `double_re = ^-?(?:\d+\.\d*|\.\d+|\d+)(?:[eE][+-]?\d+)?$`. -/
def matchDoubleRe : Str → Bool
  | [] => false
  | c :: t => if c = '-' then matchDoubleCore t else matchDoubleCore (c :: t)

/-- Numeric value of a digit string (used to model `std::stoi`). -/
def digitsToNat (l : Str) : Nat :=
  l.foldl (fun a c => a * 10 + (c.toNat - '0'.toNat)) 0

/-- `std::stoi` on a token already known to match `int_re`. -/
def stoiModel (s : Str) : Int :=
  match s with
  | [] => (digitsToNat [] : Int)
  | c :: t => if c = '-' then -(digitsToNat t : Int) else (digitsToNat (c :: t) : Int)

/-- `YamlParser::parseNumericValue`: try `int_re` (with the 32-bit range
check of `std::stoi`), then `double_re` (`std::stod`; the converted payload
is modelled by the raw token and the out-of-double-range throw of `stod` is
not modelled — no claim depends on it), else return the token as a string. -/
def parseNumericValue (value : Str) : Except YamlError YamlElement :=
  if matchIntRe value then
    let i := stoiModel value
    if i < -(2 ^ 31) || i > 2 ^ 31 - 1 then
      .error (.convErr value (lit "integer (value out of range)"))
    else .ok (.intv i)
  else if matchDoubleRe value then
    .ok (.dbl value)
  else .ok (.str value)

/-- `YamlParser::preprocessScalarValue`: trim; quoted tokens are left intact,
otherwise the trailing `#` comment is cut and the result trimmed again. -/
def preprocessScalarValue (value : Str) : Str :=
  let s := trim value
  match s with
  | [] => []
  | c :: _ =>
    if c = '\x27' || c = '"' then s
    else
      match findCharIdx s '#' with
      | some h => trim (s.take h)
      | Option.none => trim s

/-- `YamlParser::tryParsePrimitive`: the lowercase literals `true`/`false`,
then numeric parsing. -/
def tryParsePrimitive (cleanValue : Str) : Except YamlError YamlElement :=
  if cleanValue = lit "true" then .ok (.boolv true)
  else if cleanValue = lit "false" then .ok (.boolv false)
  else parseNumericValue cleanValue

/-- `YamlParser::processQuotedString`: strip exactly one layer of matching
single or double quotes. -/
def processQuotedString (value : Str) : Str :=
  if value.length ≥ 2 &&
      ((value.head? == some '\x27' && value.getLast? == some '\x27') ||
        (value.head? == some '"' && value.getLast? == some '"')) then
    (value.drop 1).dropLast
  else value

/-- `YamlParser::parseScalar`: preprocess, try primitives, and fall back to
(possibly quote-stripped) string. -/
def parseScalar (value : Str) : Except YamlError YamlElement := do
  let cleanValue := preprocessScalarValue value
  let primitiveResult ← tryParsePrimitive cleanValue
  match primitiveResult with
  | .str _ => .ok (.str (processQuotedString cleanValue))
  | r => .ok r

/-! ## Block-scalar, inline-sequence, alias and merge helpers
(`YamlHelperFunctions.cpp`) -/

/-- A single line continues a block scalar introduced at indentation
`curIndent`: it is not all-whitespace and its first significant character
sits strictly deeper than `curIndent`. -/
def blockContinues (curIndent : Nat) (l : Str) : Bool :=
  match findFirstNotOf l with
  | Option.none => false
  | some p => p > curIndent

/-- The `continues` predicate of `parseMultilineLiteral`: line `i` exists
and continues the block. -/
def multilineContinues (lines : List Str) (curIndent : Nat) (i : Nat) : Bool :=
  match lines[i]? with
  | Option.none => false
  | some l => blockContinues curIndent l

/-- The run of lines a block scalar introduced on line `idx` at indentation
`curIndent` consumes: the maximal prefix of the following lines that are
strictly more indented than the introducer. -/
def blockLines (lines : List Str) (idx curIndent : Nat) : List Str :=
  (lines.drop (idx + 1)).takeWhile (blockContinues curIndent)

/-- The consumption loop of `parseMultilineLiteral`: append
`trim(line) ++ sep` while `continues` holds.  Structural recursion on a fuel
that the wrapper instantiates with `lines.length + 1`, enough for any run. -/
def parseMultilineAcc (lines : List Str) (curIndent : Nat) (sep : Char) :
    Nat → Nat → Str × Nat
  | 0, i => ([], i)
  | fuel + 1, i =>
    if multilineContinues lines curIndent i then
      let rest := parseMultilineAcc lines curIndent sep fuel (i + 1)
      (trim (lines.getD i []) ++ [sep] ++ rest.1, rest.2)
    else ([], i)

/-- `parseMultilineLiteral` (the definition consistent with the rest of the
parser): skip the introducer line, consume the strictly-deeper lines; literal
style `'|'` joins with `'\n'`, folded style joins with `' '` and pops the
trailing space. -/
def parseMultilineLiteral (lines : List Str) (idx : Nat) (curIndent : Nat)
    (style : Char) : Str × Nat :=
  if style = '|' then
    parseMultilineAcc lines curIndent '\n' (lines.length + 1) (idx + 1)
  else
    let r := parseMultilineAcc lines curIndent ' ' (lines.length + 1) (idx + 1)
    (if r.1.getLast? = some ' ' then r.1.dropLast else r.1, r.2)

/-- The comma-splitting state of `parseInlineSeq` (quote toggles and the
bracket-nesting counter). -/
structure InlineState where
  items : List Str
  current : Str
  inSingle : Bool
  inDouble : Bool
  depth : Int

/-- One character step of the `parseInlineSeq` splitting loop. -/
def inlineStep (st : InlineState) (c : Char) : InlineState :=
  if c = '\x27' && !st.inDouble then
    { st with inSingle := !st.inSingle, current := st.current ++ [c] }
  else if c = '"' && !st.inSingle then
    { st with inDouble := !st.inDouble, current := st.current ++ [c] }
  else if !st.inSingle && !st.inDouble then
    if c = '[' then { st with depth := st.depth + 1, current := st.current ++ [c] }
    else if c = ']' then { st with depth := st.depth - 1, current := st.current ++ [c] }
    else if c = ',' && st.depth = 0 then
      { st with items := st.items ++ [trim st.current], current := [] }
    else { st with current := st.current ++ [c] }
  else { st with current := st.current ++ [c] }

/-- Split the bracket-stripped content of an inline sequence at top-level,
unquoted commas; a non-empty remainder is appended as the last item. -/
def splitInline (content : Str) : List Str :=
  let st := content.foldl inlineStep ⟨[], [], false, false, 0⟩
  if st.current.isEmpty then st.items else st.items ++ [trim st.current]

/-- `parseInlineSeq`, fuel-indexed for the recursion into nested inline
sequences (each nested item is strictly shorter than its parent, so
`value.length + 1` fuel always suffices). -/
def parseInlineSeqF : Nat → Str → Except YamlError YamlElement
  | 0, _ => .error .fuelErr
  | fuel + 1, value =>
    if value.length < 2 || !(value.head? == some '[') || !(value.getLast? == some ']') then
      .error (.structErr (lit "Malformed inline sequence: missing brackets") Option.none)
    else do
      let items := splitInline ((value.drop 1).dropLast)
      let xs ← items.mapM (fun it =>
        if !it.isEmpty && it.head? == some '[' && it.getLast? == some ']' then
          parseInlineSeqF fuel it
        else parseScalar it)
      .ok (.seqv xs)

/-- `parseInlineSeq`. -/
def parseInlineSeq (value : Str) : Except YamlError YamlElement :=
  parseInlineSeqF (value.length + 1) value

/-- `parseAlias` (the throwing definition consistent with the rest of the
parser): look the name up in the anchor table, failing with `KeyException`
when absent. -/
def parseAlias (value : Str) (anchors : YamlMap) : Except YamlError YamlElement :=
  let aliasName := value.drop 1
  match mapFind anchors aliasName with
  | Option.none => .error (.keyErr ('*' :: aliasName))
  | some v => .ok v

/-- One step of the merge loop of `parseMergeKey`: insert the entry only if
its key is not already present. -/
def mergeStep (acc : YamlMap) (kv : Str × YamlElement) : YamlMap :=
  if (mapFind acc kv.1).isNone then mapSet acc kv.1 kv.2 else acc

/-- One step of the item-map merge loop of `parseSeqElement`:
`itemMap[pair.first] = pair.second`. -/
def assignStep (acc : YamlMap) (kv : Str × YamlElement) : YamlMap :=
  mapSet acc kv.1 kv.2

/-- `parseMergeKey` (the throwing definition consistent with the rest of the
parser): resolve the alias, require a mapping, and insert every key of the
merged mapping that is not already present in the current map. -/
def parseMergeKey (value : Str) (m : YamlMap) (anchors : YamlMap) :
    Except YamlError YamlMap :=
  let aliasName := value.drop 1
  match mapFind anchors aliasName with
  | Option.none => .error (.keyErr ('*' :: aliasName))
  | some v =>
    match v with
    | .mapv merged => .ok (merged.foldl mergeStep m)
    | _ =>
      .error (.typeErr
        (lit "Merge target is not a mapping: \x27*" ++ aliasName ++ lit "\x27"))

/-- `YamlParser::validateMapStructure`: split at the first `':'`, trim key
and value, reject a missing `':'` or an empty key with a `SyntaxException`
carrying the 1-based line number. -/
def validateMapStructure (line : Str) (lineNumber : Nat) :
    Except YamlError (Str × Str) :=
  match findCharIdx line ':' with
  | Option.none =>
    .error (.structErr
      (lit "Missing \x27:\x27 in key-value pair: \x27" ++ line ++ lit "\x27")
      (some (lineNumber + 1)))
  | some pos =>
    let key := trim (line.take pos)
    let value := trim (line.drop (pos + 1))
    if key.isEmpty then
      .error (.structErr (lit "Empty key in key-value pair") (some (lineNumber + 1)))
    else .ok (key, value)

/-! ## The Structural Recursive Descent Parser
(`YamlParser::parseMap`, `YamlParser::parseSeq`/`parseSeqElement`,
`parseAnchor`), as mutually recursive fuel-indexed functions.  Each function
takes and returns the cursor and the anchor table; one unit of fuel is spent
per loop iteration. -/

mutual

/-- The loop body of `YamlParser::parseMap` (the version with explicit-key
tracking): `map` and `ek` accumulate the partial mapping and the explicitly
defined keys of this block. -/
def parseMapGo : Nat → List Str → Nat → Nat → YamlMap → List Str → YamlMap →
    Except YamlError (YamlMap × Nat × YamlMap)
  | 0, _, _, _, _, _, _ => .error .fuelErr
  | fuel + 1, lines, idx, indent, map, ek, anchors =>
    if h : idx < lines.length then
      let line := lines.get ⟨idx, h⟩
      match findFirstNotOf line with
      | Option.none =>
        -- empty or all-whitespace line: skip
        parseMapGo fuel lines (idx + 1) indent map ek anchors
      | some curIndent =>
        if (trim line).head? == some '#' then
          -- comment line: skip
          parseMapGo fuel lines (idx + 1) indent map ek anchors
        else if curIndent < indent then
          -- indentation underflow: return control to the caller
          .ok (map, idx, anchors)
        else
          let processedLine := line.drop curIndent
          if processedLine.head? == some '-' then
            -- sequence lines within a map: keyed by the previous line's key;
            -- after the branch the source does `idx++` unconditionally
            if idx > 0 then
              match findFirstNotOf (lines.getD (idx - 1) []) with
              | Option.none =>
                -- prev line all-whitespace: substr(npos) throws out_of_range
                .error (.rangeErr (lit "substr"))
              | some p =>
                let prevLine := (lines.getD (idx - 1) []).drop p
                match findCharIdx prevLine ':' with
                | some pos =>
                  let key := trim (prevLine.take pos)
                  if (mapFind map key).isNone then do
                    let r ← parseSeqGo fuel lines idx curIndent [] anchors
                    parseMapGo fuel lines (r.2.1 + 1) indent
                      (mapSet map key (.seqv r.1)) (key :: ek) r.2.2
                  else
                    parseMapGo fuel lines (idx + 1) indent map ek anchors
                | Option.none => parseMapGo fuel lines (idx + 1) indent map ek anchors
            else
              parseMapGo fuel lines (idx + 1) indent map ek anchors
          else do
            let kv ← validateMapStructure processedLine idx
            let key := kv.1
            let value := kv.2
            if ek.contains key then
              .error (.structErr
                (lit "Duplicate mapping key: \x27" ++ key ++ lit "\x27")
                (some (idx + 1)))
            else if value.isEmpty then
              -- empty value: look ahead for nested content
              if hl : idx + 1 < lines.length then
                let nextLine := lines.get ⟨idx + 1, hl⟩
                -- npos > curIndent is true in the source comparison
                let deeper := match findFirstNotOf nextLine with
                  | Option.none => true
                  | some n => n > curIndent
                if deeper then
                  match findFirstNotOf nextLine with
                  | Option.none =>
                    -- blank lookahead line: substr(npos) throws out_of_range
                    .error (.rangeErr (lit "substr"))
                  | some nextIndent =>
                    let nextContent := nextLine.drop nextIndent
                    if nextContent.head? == some '-' then do
                      let r ← parseSeqGo fuel lines (idx + 1) nextIndent [] anchors
                      parseMapGo fuel lines r.2.1 indent
                        (mapSet map key (.seqv r.1)) (key :: ek) r.2.2
                    else do
                      let r ← parseMapGo fuel lines (idx + 1) nextIndent [] [] anchors
                      parseMapGo fuel lines r.2.1 indent
                        (mapSet map key (.mapv r.1)) (key :: ek) r.2.2
                else
                  parseMapGo fuel lines (idx + 1) indent
                    (mapSet map key (.str [])) (key :: ek) anchors
              else
                parseMapGo fuel lines (idx + 1) indent
                  (mapSet map key (.str [])) (key :: ek) anchors
            else if isMultilineLiteral value then
              let r := parseMultilineLiteral lines idx curIndent (value.headD ' ')
              parseMapGo fuel lines r.2 indent
                (mapSet map key (.str r.1)) (key :: ek) anchors
            else if isAnchor value then do
              let r ← parseAnchorGo fuel value lines idx anchors
              parseMapGo fuel lines r.2.1 indent
                (mapSet map key r.1) (key :: ek) r.2.2
            else if isMergeKey key value then do
              let map' ← parseMergeKey value map anchors
              -- the merge key itself is not added to explicitKeys
              parseMapGo fuel lines (idx + 1) indent map' ek anchors
            else if isAlias value then do
              let node ← parseAlias value anchors
              parseMapGo fuel lines (idx + 1) indent
                (mapSet map key node) (key :: ek) anchors
            else if isInlineSeq value then do
              let node ← parseInlineSeq value
              parseMapGo fuel lines (idx + 1) indent
                (mapSet map key node) (key :: ek) anchors
            else if value.head? == some '[' && !(value.getLast? == some ']') then
              .error (.structErr
                (lit "Malformed inline sequence: missing closing bracket") Option.none)
            else do
              let node ← parseScalar value
              parseMapGo fuel lines (idx + 1) indent
                (mapSet map key node) (key :: ek) anchors
    else .ok (map, idx, anchors)

/-- The loop of `YamlParser::parseSeq` with `parseSeqElement` inlined:
accumulates sequence elements until indentation underflow or a non-`-` line. -/
def parseSeqGo : Nat → List Str → Nat → Nat → List YamlElement → YamlMap →
    Except YamlError (List YamlElement × Nat × YamlMap)
  | 0, _, _, _, _, _ => .error .fuelErr
  | fuel + 1, lines, idx, indent, seq, anchors =>
    if h : idx < lines.length then
      let line := lines.get ⟨idx, h⟩
      match findFirstNotOf line with
      | Option.none => parseSeqGo fuel lines (idx + 1) indent seq anchors
      | some curIndent =>
        if (trim line).head? == some '#' then
          parseSeqGo fuel lines (idx + 1) indent seq anchors
        else if curIndent < indent then
          .ok (seq, idx, anchors)
        else
          let processedLine := line.drop curIndent
          if !(processedLine.head? == some '-') then
            -- not a sequence line: break
            .ok (seq, idx, anchors)
          else
            let value := trim (processedLine.drop 1)
            -- mapping-block lookahead: next line deeper than the dash's line
            let deeper := match lines[idx + 1]? with
              | Option.none => false
              | some nextLine =>
                match findFirstNotOf nextLine with
                | Option.none => false
                | some n => n > curIndent
            if deeper then do
              let nextIndent :=
                match lines[idx + 1]? with
                | Option.none => 0   -- unreachable: deeper forces a next line
                | some nextLine => (findFirstNotOf nextLine).getD 0
              let itemMap ←
                if !value.isEmpty then
                  match findCharIdx value ':' with
                  | some pos => do
                    let k := trim (value.take pos)
                    let v := trim (value.drop (pos + 1))
                    let sc ← parseScalar v
                    pure (mapSet [] k sc)
                  | Option.none => pure ([] : YamlMap)
                else pure ([] : YamlMap)
              let r ← parseMapGo fuel lines (idx + 1) nextIndent [] [] anchors
              let merged := r.1.foldl assignStep itemMap
              parseSeqGo fuel lines r.2.1 indent (seq ++ [.mapv merged]) r.2.2
            else
              -- scalar or inline-sequence element
              if !value.isEmpty then
                if isInlineSeq value then do
                  let node ← parseInlineSeq value
                  parseSeqGo fuel lines (idx + 1) indent (seq ++ [node]) anchors
                else do
                  let node ← parseScalar value
                  parseSeqGo fuel lines (idx + 1) indent (seq ++ [node]) anchors
              else
                parseSeqGo fuel lines (idx + 1) indent (seq ++ [.str []]) anchors
    else .ok (seq, idx, anchors)

/-- `parseAnchor` (the definition whose signature matches the call in
`parseMap`): move past the anchor line, recurse into the following block
(sequence or mapping, decided by the first token of the next line), store
the node in the anchor table, and return it; with no indented content the
anchor resolves to an empty-string scalar. -/
def parseAnchorGo : Nat → Str → List Str → Nat → YamlMap →
    Except YamlError (YamlElement × Nat × YamlMap)
  | 0, _, _, _, _ => .error .fuelErr
  | fuel + 1, value, lines, idx, anchors =>
    let anchorName := value.drop 1
    let j := idx + 1
    if h : j < lines.length then
      match findFirstNotOf (lines.get ⟨j, h⟩) with
      | some nextIndentPos =>
        let next := (lines.get ⟨j, h⟩).drop nextIndentPos
        if next.head? == some '-' then do
          let r ← parseSeqGo fuel lines j nextIndentPos [] anchors
          let node := YamlElement.seqv r.1
          .ok (node, r.2.1, mapSet r.2.2 anchorName node)
        else do
          let r ← parseMapGo fuel lines j nextIndentPos [] [] anchors
          let node := YamlElement.mapv r.1
          .ok (node, r.2.1, mapSet r.2.2 anchorName node)
      | Option.none =>
        let node := YamlElement.str []
        .ok (node, j, mapSet anchors anchorName node)
    else
      let node := YamlElement.str []
      .ok (node, j, mapSet anchors anchorName node)
termination_by structural fuel => fuel

end

/-- The parse result: a root sequence or a root mapping, with the anchor
table accumulated during the parse. -/
inductive YamlDoc where
  | seqRoot (s : List YamlElement) (anchors : YamlMap)
  | mapRoot (m : YamlMap) (anchors : YamlMap)

/-- Root-kind detection of `YamlParser::parse`: the first non-blank,
non-comment line decides (sequence iff it begins with `'-'`). -/
def detectSeqRoot : List Str → Bool
  | [] => false
  | l :: t =>
    let trimmed := trim l
    if trimmed.isEmpty then detectSeqRoot t
    else if trimmed.head? == some '#' then detectSeqRoot t
    else trimmed.head? == some '-'

/-- Fuel supplied by the top-level driver; ample for any input (the loops of
the source advance the cursor on every iteration). -/
def parseFuel (lines : List Str) : Nat := 4 * lines.length + 16

/-- `YamlParser::parse`, minus the file I/O that the spec assigns to an
external collaborator: detect the root kind, then run exactly one of the two
entry points at indentation floor 0 and cursor 0. -/
def parseLines (lines : List Str) : Except YamlError YamlDoc :=
  if detectSeqRoot lines then
    (parseSeqGo (parseFuel lines) lines 0 0 [] []).map (fun r => .seqRoot r.1 r.2.2)
  else
    (parseMapGo (parseFuel lines) lines 0 0 [] [] []).map (fun r => .mapRoot r.1 r.2.2)

/-! ## Auxiliary definitions used by the statements of the theorems -/

/-- A canonical mapping line `key: value`, as assembled character-wise. -/
def stdLine (k v : Str) : Str := k ++ ':' :: ' ' :: v

/-- Hypotheses under which a string behaves as a mapping key on a line:
non-empty, free of whitespace and of `':'`, and not starting like a comment
or a sequence indicator.  (Satisfied by ordinary identifiers and by `<<`.) -/
def KeyTok (k : Str) : Prop :=
  k ≠ [] ∧ (∀ c ∈ k, isSpaceTab c = false) ∧ ':' ∉ k ∧
    k.head? ≠ some '#' ∧ k.head? ≠ some '-'

/-- Characters of ordinary plain scalars and keys: ASCII letters, digits and
underscore. -/
def plainChar (c : Char) : Bool := c.isAlpha || c.isDigit || c = '_'

/-- Hypotheses under which a value token is dispatched to the Scalar
Inference Engine by `parseMap`: non-empty, trim-invariant, and not starting
with one of the characters that select the block-scalar, anchor, alias,
merge or inline-sequence branches. -/
def ScalarTok (v : Str) : Prop :=
  trim v = v ∧ v ≠ [] ∧
    (v.head?.all fun c =>
      !(c = '|' || c = '>' || c = '&' || c = '*' || c = '[')) = true

/-- A line of a block at indentation `n`: `n` spaces followed by content. -/
def indLine (n : Nat) (content : Str) : Str := List.replicate n ' ' ++ content

/-- A `-`-prefixed line whose indentation is at least `n1`: the shape of the
lines of a nested block sequence. -/
def dashLineAt (n1 : Nat) (l : Str) : Bool :=
  match findFirstNotOf l with
  | Option.none => false
  | some p => n1 ≤ p && ((l.drop p).head? == some '-')

/-- Value lookup inside a block-parse result: `some (mapFind m k)` on
success, `none` on error.  Used to state properties of the finished
mapping of a block. -/
def resFind (r : Except YamlError (YamlMap × Nat × YamlMap)) (k : Str) :
    Option (Option YamlElement) :=
  match r with
  | .ok x => some (mapFind x.1 k)
  | .error _ => Option.none

/-- Whether a block-parse result is a success. -/
def resOk (r : Except YamlError (YamlMap × Nat × YamlMap)) : Bool :=
  match r with
  | .ok _ => true
  | .error _ => false

/-! ## The serializer (`YamlPrinter.cpp`) -/

/-- The special-character set of `needsQuoting`:
`s.find_first_of(":#{}[],&*!?|>'\"%@`")`. -/
def printerSpecials : Str := lit ":#\x7b\x7d[],&*!?|>\x27\"%@`"

/-- `needsQuoting` of `YamlPrinter.cpp`: empty strings, a leading or trailing
space, a leading `-`/`?`/`:`, or any occurrence of a special character force
single-quoting. -/
def needsQuoting (s : Str) : Bool :=
  if s.isEmpty then true
  else if s.head? == some ' ' || s.getLast? == some ' ' then true
  else if s.head? == some '-' || s.head? == some '?' || s.head? == some ':' then true
  else s.any fun c => printerSpecials.contains c

/-- `quoteIfNeeded`: wrap in single quotes, doubling interior single
quotes. -/
def quoteIfNeeded (s : Str) : Str :=
  if !needsQuoting s then s
  else '\x27' :: (s.flatMap fun c => if c = '\x27' then [c, c] else [c]) ++ ['\x27']

/-- A decimal digit character (the digit alphabet of `ostream` integer
formatting). -/
def digitChar (n : Nat) : Char :=
  if n = 0 then '0' else if n = 1 then '1' else if n = 2 then '2'
  else if n = 3 then '3' else if n = 4 then '4' else if n = 5 then '5'
  else if n = 6 then '6' else if n = 7 then '7' else if n = 8 then '8' else '9'

/-- Decimal digits of a natural number, most significant first; fuel-indexed
for structural recursion (the wrapper supplies ample fuel). -/
def natDigitsGo : Nat → Nat → Str
  | 0, _ => []
  | fuel + 1, n =>
    if n < 10 then [digitChar n]
    else natDigitsGo fuel (n / 10) ++ [digitChar (n % 10)]

/-- Decimal rendering of a natural number. -/
def natToStr (n : Nat) : Str := natDigitsGo (n + 1) n

/-- `ostream << int`: optional sign, then decimal digits. -/
def intToStr (i : Int) : Str :=
  if i < 0 then '-' :: natToStr i.natAbs else natToStr i.natAbs

mutual

/-- `YamlPrinter::print(const YamlItem&, ostream&, int)`: scalars print
inline followed by a newline (`std::endl`); sequences and mappings print a
newline and then their block two columns deeper.  The `ostream` is modelled
as the string written to it and `std::endl` as `'\n'`; for a DOUBLE element
the embedding prints the raw token carried by `dbl` (ostream float
formatting is not modelled — no claim depends on it). -/
def printItem : YamlElement → Nat → Str
  | .str s, _ => quoteIfNeeded s ++ ['\n']
  | .dbl raw, _ => raw ++ ['\n']
  | .intv i, _ => intToStr i ++ ['\n']
  | .boolv b, _ => (if b then lit "true" else lit "false") ++ ['\n']
  | .seqv xs, indent => '\n' :: printSeq xs (indent + 2)
  | .mapv m, indent => '\n' :: printMap m (indent + 2)
  | .nullv, _ => lit "null" ++ ['\n']

/-- `YamlPrinter::print(const YamlMap&, ostream&, int)`: per entry, the
indentation, the (possibly quoted) key, `": "`, then `null` for an empty
string or NONE value and otherwise the item two columns deeper. -/
def printMap : YamlMap → Nat → Str
  | [], _ => []
  | (k, v) :: rest, indent =>
    List.replicate indent ' ' ++ quoteIfNeeded k ++ [':', ' '] ++
      (match v with
       | .str [] => lit "null" ++ ['\n']
       | .nullv => lit "null" ++ ['\n']
       | _ => printItem v (indent + 2)) ++
      printMap rest indent

/-- `YamlPrinter::print(const YamlSeq&, ostream&, int)`: per item, the
indentation, `"- "`, then the item two columns deeper. -/
def printSeq : List YamlElement → Nat → Str
  | [], _ => []
  | x :: rest, indent =>
    List.replicate indent ' ' ++ ['-', ' '] ++ printItem x (indent + 2) ++
      printSeq rest indent

end

/-- The `std::getline` loop of `YamlParser::parse`, reading the serialized
text back as a list of lines: split on `'\n'`, no line for the text after a
trailing `'\n'`. -/
def splitLines : Str → List Str
  | [] => []
  | c :: t =>
    if c = '\n' then [] :: splitLines t
    else
      match splitLines t with
      | [] => [[c]]
      | l :: ls => (c :: l) :: ls

/-! ## The safe round-trip document class (statement auxiliaries for the
serialize-then-parse property) -/

/-- A key that prints bare and parses back as the same key: non-empty and
made of plain characters. -/
def safeKey (k : Str) : Bool := !k.isEmpty && k.all plainChar

/-- A text scalar that prints bare and parses back as the same Text: plain
characters, not starting with a digit, and not a boolean literal. -/
def safeText (s : Str) : Bool :=
  !s.isEmpty && s.all plainChar && (s.head?.all fun c => !c.isDigit) &&
    !(s == lit "true") && !(s == lit "false")

/-- Scalars that survive the print/parse round trip: safe texts, booleans,
and 32-bit integers. -/
def safeScalar : YamlElement → Bool
  | .str s => safeText s
  | .boolv _ => true
  | .intv i => decide (-(2 ^ 31) ≤ i) && decide (i ≤ 2 ^ 31 - 1)
  | _ => false

/-- Keys in strictly increasing `std::map` order (the invariant of every
`YamlMap` built by the source through `operator[]`). -/
def SortedKeys (m : YamlMap) : Prop :=
  List.Pairwise (fun a b => strLt a.1 b.1 = true) m

/-- A safe top-level entry: a safe key whose value is a safe scalar, a
non-empty mapping of safe keys to safe scalars, or a non-empty sequence of
safe scalars. -/
def SafeEntry : Str × YamlElement → Prop := fun kv =>
  safeKey kv.1 = true ∧
  match kv.2 with
  | .mapv inner => inner.isEmpty = false ∧ SortedKeys inner ∧
      ∀ kv2 ∈ inner, safeKey kv2.1 = true ∧ safeScalar kv2.2 = true
  | .seqv xs => xs.isEmpty = false ∧ ∀ x ∈ xs, safeScalar x = true
  | e => safeScalar e = true

instance : Decidable (SortedKeys m) :=
  inferInstanceAs
    (Decidable (List.Pairwise
      (fun a b : Str × YamlElement => strLt a.1 b.1 = true) m))

instance : DecidablePred SafeEntry := fun kv =>
  match kv with
  | (k, .nullv) =>
    inferInstanceAs (Decidable (safeKey k = true ∧ safeScalar .nullv = true))
  | (k, .str s) =>
    inferInstanceAs (Decidable (safeKey k = true ∧ safeScalar (.str s) = true))
  | (k, .dbl r) =>
    inferInstanceAs (Decidable (safeKey k = true ∧ safeScalar (.dbl r) = true))
  | (k, .intv i) =>
    inferInstanceAs (Decidable (safeKey k = true ∧ safeScalar (.intv i) = true))
  | (k, .boolv b) =>
    inferInstanceAs (Decidable (safeKey k = true ∧ safeScalar (.boolv b) = true))
  | (k, .seqv xs) =>
    inferInstanceAs (Decidable (safeKey k = true ∧
      (xs.isEmpty = false ∧ ∀ x ∈ xs, safeScalar x = true)))
  | (k, .mapv inner) =>
    inferInstanceAs (Decidable (safeKey k = true ∧
      (inner.isEmpty = false ∧ SortedKeys inner ∧
        ∀ kv2 ∈ inner, safeKey kv2.1 = true ∧ safeScalar kv2.2 = true)))

/-- The safe document class of the amended round-trip property: a non-empty
root mapping, keys sorted, every entry safe. -/
def SafeDoc (m : YamlMap) : Prop :=
  m.isEmpty = false ∧ SortedKeys m ∧ ∀ kv ∈ m, SafeEntry kv

instance : Decidable (SafeDoc m) :=
  inferInstanceAs
    (Decidable (m.isEmpty = false ∧ SortedKeys m ∧ ∀ kv ∈ m, SafeEntry kv))

/-- The bare token a safe scalar prints as. -/
def scalarTok : YamlElement → Str
  | .str s => s
  | .boolv true => lit "true"
  | .boolv false => lit "false"
  | .intv i => intToStr i
  | .dbl raw => raw
  | _ => []

/-- The lines a safe top-level entry serializes to: one `key: token` line
for a scalar, or a `key: ` introducer followed by the nested block at
indentation 4. -/
def entryLines : Str × YamlElement → List Str := fun kv =>
  match kv.2 with
  | .mapv inner =>
    stdLine kv.1 [] ::
      inner.map (fun kv2 => indLine 4 (stdLine kv2.1 (scalarTok kv2.2)))
  | .seqv xs =>
    stdLine kv.1 [] :: xs.map (fun x => indLine 4 ('-' :: ' ' :: scalarTok x))
  | e => [stdLine kv.1 (scalarTok e)]

/-- The full line list a safe document serializes to. -/
def topLines (m : YamlMap) : List Str := m.flatMap entryLines

-- ### End of definitions (theorems follow)

/-! ## Lemmas about the character-level utilities -/

theorem findIdxOf_cons_true {p : Char → Bool} {c : Char} {t : Str}
    (h : p c = true) : findIdxOf p (c :: t) = some 0 := by
  simp [findIdxOf, h]

theorem findIdxOf_eq_none {p : Char → Bool} {l : Str}
    (h : ∀ c ∈ l, p c = false) : findIdxOf p l = Option.none := by
  induction l with
  | nil => rfl
  | cons c t ih =>
    have hc := h c (List.mem_cons_self _ _)
    have ht := ih (fun d hd => h d (List.mem_cons_of_mem _ hd))
    simp [findIdxOf, hc, ht]

theorem findIdxOf_append_none {p : Char → Bool} {a b : Str}
    (h : findIdxOf p a = Option.none) :
    findIdxOf p (a ++ b) = (findIdxOf p b).map (· + a.length) := by
  induction a with
  | nil =>
    simp only [List.nil_append, List.length_nil]
    cases h' : findIdxOf p b <;> simp [h']
  | cons c t ih =>
    have hc : p c = false := by
      cases hpc : p c
      · rfl
      · simp [findIdxOf, hpc] at h
    have ht : findIdxOf p t = Option.none := by
      simp [findIdxOf, hc] at h
      exact h
    have hrec := ih ht
    have hstep : findIdxOf p ((c :: t) ++ b) = (findIdxOf p (t ++ b)).map (· + 1) := by
      simp [findIdxOf, hc]
    rw [hstep, hrec]
    cases h' : findIdxOf p b with
    | none => rfl
    | some v => simp [Nat.add_assoc]

theorem findFirstNotOf_cons_sig {c : Char} {t : Str} (h : isSpaceTab c = false) :
    findFirstNotOf (c :: t) = some 0 := by
  apply findIdxOf_cons_true; simp [h]

theorem findCharIdx_first {k r : Str} {c : Char} (h : c ∉ k) :
    findCharIdx (k ++ c :: r) c = some k.length := by
  have hk : findIdxOf (fun d => d = c) k = Option.none := by
    apply findIdxOf_eq_none
    intro d hd
    by_cases hdc : d = c
    · exact absurd (hdc ▸ hd) h
    · simp [hdc]
  have := findIdxOf_append_none (b := c :: r) hk
  rw [findCharIdx, this, findIdxOf_cons_true (by simp)]
  simp

theorem dropWhile_cons_neg {p : Char → Bool} {c : Char} {t : Str}
    (h : p c = false) : (c :: t).dropWhile p = c :: t := by
  simp [List.dropWhile, h]

theorem dropWhile_append_split {p : Char → Bool} (a b : Str) :
    (a ++ b).dropWhile p =
      if (a.dropWhile p).isEmpty then b.dropWhile p else a.dropWhile p ++ b := by
  induction a with
  | nil => simp
  | cons c t ih =>
    by_cases hc : p c = true
    · simp [List.dropWhile, hc, ih]
    · have hc' : p c = false := by
        cases hpc : p c
        · rfl
        · exact absurd hpc hc
      simp [List.dropWhile, hc']

theorem dropTrailWhile_eq_self_of_getLast {p : Char → Bool} {l : Str}
    (h : ∀ c, l.getLast? = some c → p c = false) : dropTrailWhile p l = l := by
  unfold dropTrailWhile
  cases hrev : l.reverse with
  | nil =>
    have : l = [] := by
      have := congrArg List.reverse hrev
      simpa using this
    simp [this]
  | cons d r =>
    have hd : l.getLast? = some d := by
      rw [← List.head?_reverse, hrev]; rfl
    rw [dropWhile_cons_neg (h d hd), ← hrev, List.reverse_reverse]

theorem trim_eq_self_of_ends {l : Str}
    (h1 : ∀ c, l.head? = some c → isSpaceTab c = false)
    (h2 : ∀ c, l.getLast? = some c → isSpaceTab c = false) : trim l = l := by
  unfold trim
  cases l with
  | nil => rfl
  | cons c t =>
    rw [dropWhile_cons_neg (h1 c rfl)]
    exact dropTrailWhile_eq_self_of_getLast h2

theorem mem_of_getLast?_eq {l : Str} {c : Char} (h : l.getLast? = some c) :
    c ∈ l := by
  rw [← List.head?_reverse] at h
  have : c ∈ l.reverse := by
    cases hrev : l.reverse with
    | nil => rw [hrev] at h; exact absurd h (by simp)
    | cons d r =>
      rw [hrev] at h
      have hd : d = c := by simpa using h
      rw [hd]
      exact List.mem_cons_self _ _
  exact List.mem_reverse.mp this

theorem trim_eq_self_of_all {l : Str}
    (h : ∀ c ∈ l, isSpaceTab c = false) : trim l = l := by
  apply trim_eq_self_of_ends
  · intro c hc
    exact h c (by cases l with
      | nil => simp at hc
      | cons a t => simp at hc; simp [hc])
  · intro c hc
    exact h c (mem_of_getLast?_eq hc)

theorem trim_cons_space {v : Str} : trim (' ' :: v) = trim v := by
  unfold trim
  rw [show (' ' :: v).dropWhile isSpaceTab = v.dropWhile isSpaceTab by
    simp [List.dropWhile, isSpaceTab]]

theorem take_len_append (a b : Str) : (a ++ b).take a.length = a := by
  induction a with
  | nil => simp
  | cons c t ih => simp [ih]

theorem drop_len_append (a b : Str) : (a ++ b).drop a.length = b := by
  induction a with
  | nil => simp
  | cons c t ih => simp [ih]

theorem ne_of_head?_ne {l m : Str} (h : l.head? ≠ m.head?) : l ≠ m := by
  intro he; exact h (he ▸ rfl)

/-! ## Lemmas about the association-map model -/

theorem strLt_irrefl (k : Str) : strLt k k = false := by
  induction k with
  | nil => rfl
  | cons c t ih => simp [strLt, ih]

theorem mapFind_mapSet_self (m : YamlMap) (k : Str) (v : YamlElement) :
    mapFind (mapSet m k v) k = some v := by
  induction m with
  | nil => simp [mapSet, mapFind]
  | cons kv t ih =>
    by_cases hlt : strLt k kv.1 = true
    · simp [mapSet, hlt, mapFind]
    · by_cases he : kv.1 = k
      · subst he
        simp [mapSet, hlt, strLt_irrefl, mapFind]
      · simp [mapSet, hlt, he, mapFind, ih]

theorem mapFind_mapSet_ne {k' k : Str} (m : YamlMap) (v : YamlElement)
    (h : k' ≠ k) : mapFind (mapSet m k v) k' = mapFind m k' := by
  have hk : ¬(k = k') := fun he => h he.symm
  induction m with
  | nil => simp [mapSet, mapFind, hk]
  | cons kv t ih =>
    by_cases hlt : strLt k kv.1 = true
    · simp [mapSet, hlt, mapFind, hk]
    · by_cases he : kv.1 = k
      · subst he
        simp [mapSet, hlt, strLt_irrefl, mapFind, hk]
      · simp [mapSet, hlt, he, mapFind, ih]

theorem mapFind_eq_none_iff {m : YamlMap} {k : Str} :
    mapFind m k = Option.none ↔ ∀ p ∈ m, p.1 ≠ k := by
  induction m with
  | nil => simp [mapFind]
  | cons kv t ih =>
    obtain ⟨a, b⟩ := kv
    by_cases he : a = k
    · subst he
      simp only [mapFind, if_pos rfl]
      constructor
      · intro h
        exact absurd h (by simp)
      · intro h
        exact absurd rfl (h (a, b) (List.mem_cons_self _ _))
    · rw [show mapFind ((a, b) :: t) k = mapFind t k from by simp [mapFind, he]]
      rw [ih]
      constructor
      · intro h p hp
        rcases List.mem_cons.mp hp with hpe | hpt
        · rw [hpe]; exact he
        · exact h p hpt
      · intro h p hp
        exact h p (List.mem_cons_of_mem _ hp)

theorem foldl_mergeStep_present {M : YamlMap} {m : YamlMap} {k : Str}
    {v : YamlElement} (h : mapFind m k = some v) :
    mapFind (M.foldl mergeStep m) k = some v := by
  induction M generalizing m with
  | nil => simpa
  | cons kv t ih =>
    apply ih
    unfold mergeStep
    by_cases he : kv.1 = k
    · simp [he, h]
    · by_cases habs : (mapFind m kv.1).isNone = true
      · rw [if_pos habs, mapFind_mapSet_ne _ _ (fun hx => he hx.symm)]
        exact h
      · rw [if_neg habs]
        exact h

theorem foldl_mergeStep_absent {M : YamlMap} {m : YamlMap} {k : Str}
    (h : mapFind m k = Option.none) (hM : ∀ p ∈ M, p.1 ≠ k) :
    mapFind (M.foldl mergeStep m) k = Option.none := by
  induction M generalizing m with
  | nil => simpa
  | cons kv t ih =>
    apply ih
    · unfold mergeStep
      by_cases habs : (mapFind m kv.1).isNone = true
      · have hne : kv.1 ≠ k := hM kv (List.mem_cons_self _ _)
        rw [if_pos habs, mapFind_mapSet_ne _ _ (fun hx => hne hx.symm)]
        exact h
      · rw [if_neg habs]
        exact h
    · exact fun p hp => hM p (List.mem_cons_of_mem _ hp)

/-! ## Routing lemmas: how a `key: value` line travels through `parseMap` -/

theorem dropTrailWhile_cons_neg {p : Char → Bool} {c : Char} {t : Str}
    (h : p c = false) : dropTrailWhile p (c :: t) = c :: dropTrailWhile p t := by
  unfold dropTrailWhile
  rw [show (c :: t).reverse = t.reverse ++ [c] by simp]
  rw [dropWhile_append_split]
  by_cases he : (t.reverse.dropWhile p).isEmpty = true
  · rw [if_pos he, dropWhile_cons_neg h]
    have hnil : t.reverse.dropWhile p = [] := by simpa using he
    simp [hnil]
  · rw [if_neg he]
    simp

theorem trim_cons_head {c : Char} {t : Str} (h : isSpaceTab c = false) :
    (trim (c :: t)).head? = some c := by
  unfold trim
  rw [dropWhile_cons_neg h, dropTrailWhile_cons_neg h]
  rfl

theorem stdLine_cons (c : Char) (t v : Str) :
    stdLine (c :: t) v = c :: (t ++ ':' :: ' ' :: v) := by
  simp [stdLine]

theorem except_bind_ok {α β : Type} (a : α) (f : α → Except YamlError β) :
    (Except.ok a >>= f) = f a := rfl

theorem except_bind_err {α β : Type} (e : YamlError) (f : α → Except YamlError β) :
    ((Except.error e : Except YamlError α) >>= f) = Except.error e := rfl

theorem validate_stdLine {k : Str} (v : Str) (n : Nat) (hk : KeyTok k) :
    validateMapStructure (stdLine k v) n = .ok (k, trim v) := by
  obtain ⟨hne, hws, hcol, -, -⟩ := hk
  have hdrop : (k ++ ':' :: ' ' :: v).drop (k.length + 1) = ' ' :: v := by
    rw [show k ++ ':' :: ' ' :: v = (k ++ [':']) ++ (' ' :: v) by simp]
    rw [show k.length + 1 = (k ++ [':']).length by simp]
    exact drop_len_append _ _
  have hie : k.isEmpty = false := by
    cases k
    · exact absurd rfl hne
    · rfl
  unfold validateMapStructure stdLine
  rw [findCharIdx_first hcol]
  simp only [take_len_append, hdrop, trim_eq_self_of_all hws, trim_cons_space, hie,
    Bool.false_eq_true, if_false]

theorem isMultilineLiteral_false {v : Str} {c : Char} (hv : v.head? = some c)
    (h1 : c ≠ '|') (h2 : c ≠ '>') : isMultilineLiteral v = false := by
  cases v with
  | nil => rfl
  | cons d t =>
    have : d = c := by simpa using hv
    subst this
    simp [isMultilineLiteral, h1, h2]

theorem isAnchor_false {v : Str} {c : Char} (hv : v.head? = some c)
    (h : c ≠ '&') : isAnchor v = false := by
  cases v with
  | nil => rfl
  | cons d t =>
    have : d = c := by simpa using hv
    subst this
    simp [isAnchor, h]

theorem isAlias_false {v : Str} {c : Char} (hv : v.head? = some c)
    (h : c ≠ '*') : isAlias v = false := by
  cases v with
  | nil => rfl
  | cons d t =>
    have : d = c := by simpa using hv
    subst this
    simp [isAlias, h]

theorem isMergeKey_false_of_value {k v : Str} {c : Char} (hv : v.head? = some c)
    (h : c ≠ '*') : isMergeKey k v = false := by
  simp [isMergeKey, isAlias_false hv h]

/-! ## Scalar-engine lemmas for plain (non-numeric, unquoted) tokens -/

theorem matchIntRe_false {v : Str} {c : Char} (hv : v.head? = some c)
    (h1 : c.isDigit = false) (h2 : c ≠ '-') : matchIntRe v = false := by
  cases v with
  | nil => rfl
  | cons d t =>
    have hd : d = c := by simpa using hv
    subst hd
    simp only [matchIntRe]
    rw [if_neg h2]
    simp [h1]

theorem matchDoubleCore_false {v : Str} {c : Char} (hv : v.head? = some c)
    (h1 : c.isDigit = false) (h3 : c ≠ '.') : matchDoubleCore v = false := by
  cases v with
  | nil => rfl
  | cons d t =>
    have hd : d = c := by simpa using hv
    subst hd
    unfold matchDoubleCore
    have htake : (d :: t).takeWhile Char.isDigit = [] := by
      simp [List.takeWhile_cons, h1]
    have hdrop : (d :: t).dropWhile Char.isDigit = d :: t := dropWhile_cons_neg h1
    simp only [htake, hdrop, List.isEmpty_nil, if_true]
    rw [if_neg h3]

theorem matchDoubleRe_false {v : Str} {c : Char} (hv : v.head? = some c)
    (h1 : c.isDigit = false) (h2 : c ≠ '-') (h3 : c ≠ '.') :
    matchDoubleRe v = false := by
  cases v with
  | nil => rfl
  | cons d t =>
    have hd : d = c := by simpa using hv
    subst hd
    simp only [matchDoubleRe]
    rw [if_neg h2]
    exact matchDoubleCore_false hv h1 h3

theorem tryParsePrimitive_str {v : Str} (h1 : v ≠ lit "true") (h2 : v ≠ lit "false")
    (h3 : matchIntRe v = false) (h4 : matchDoubleRe v = false) :
    tryParsePrimitive v = .ok (.str v) := by
  unfold tryParsePrimitive parseNumericValue
  rw [if_neg h1, if_neg h2, h3, h4]
  simp

theorem processQuotedString_id {v : Str} {c : Char} (hv : v.head? = some c)
    (hq1 : c ≠ '\x27') (hq2 : c ≠ '"') : processQuotedString v = v := by
  unfold processQuotedString
  rw [if_neg]
  simp [hv, hq1, hq2]

theorem preprocess_id {v : Str} {c : Char} (hv : v.head? = some c)
    (htr : trim v = v) (hq1 : c ≠ '\x27') (hq2 : c ≠ '"')
    (hh : findCharIdx v '#' = Option.none) : preprocessScalarValue v = v := by
  cases v with
  | nil => rfl
  | cons d t =>
    have hd : d = c := by simpa using hv
    subst hd
    unfold preprocessScalarValue
    simp only [htr, hh]
    rw [if_neg (by simp [hq1, hq2])]

theorem parseScalar_str_of {v : Str} (hpre : preprocessScalarValue v = v)
    (htp : tryParsePrimitive v = .ok (.str v)) (hpq : processQuotedString v = v) :
    parseScalar v = .ok (.str v) := by
  unfold parseScalar
  rw [hpre]
  simp only [htp, except_bind_ok, hpq]

/-- A plain unquoted token: non-empty, trim-invariant, head not one of the
characters that route the value away from the plain-string branch of the
Scalar Inference Engine, no comment character, and not a boolean literal. -/
theorem parseScalar_plain {v : Str} {c : Char} (hv : v.head? = some c)
    (htr : trim v = v) (hq1 : c ≠ '\x27') (hq2 : c ≠ '"')
    (hh : findCharIdx v '#' = Option.none)
    (h1 : v ≠ lit "true") (h2 : v ≠ lit "false")
    (hd : c.isDigit = false) (hm : c ≠ '-') (hdot : c ≠ '.') :
    parseScalar v = .ok (.str v) :=
  parseScalar_str_of (preprocess_id hv htr hq1 hq2 hh)
    (tryParsePrimitive_str h1 h2 (matchIntRe_false hv hd hm) (matchDoubleRe_false hv hd hm hdot))
    (processQuotedString_id hv hq1 hq2)

/-! ## Indented-line lemmas and single-iteration step lemmas for `parseMap` -/

theorem findFirstNotOf_indLine {c : Char} (n : Nat) (t : Str)
    (hc : isSpaceTab c = false) :
    findFirstNotOf (indLine n (c :: t)) = some n := by
  unfold indLine findFirstNotOf
  have hrep : findIdxOf (fun c => !isSpaceTab c) (List.replicate n ' ') = Option.none := by
    apply findIdxOf_eq_none
    intro d hd
    have : d = ' ' := List.eq_of_mem_replicate hd
    simp [this, isSpaceTab]
  rw [findIdxOf_append_none hrep, findIdxOf_cons_true (by simp [hc])]
  simp

theorem dropWhile_replicate_space (n : Nat) (x : Str) :
    (List.replicate n ' ' ++ x).dropWhile isSpaceTab = x.dropWhile isSpaceTab := by
  induction n with
  | zero => simp
  | succ m ih =>
    rw [List.replicate_succ, List.cons_append]
    rw [show (' ' :: (List.replicate m ' ' ++ x)).dropWhile isSpaceTab =
        (List.replicate m ' ' ++ x).dropWhile isSpaceTab by
      simp [List.dropWhile, isSpaceTab]]
    exact ih

theorem trim_indLine (n : Nat) (x : Str) : trim (indLine n x) = trim x := by
  unfold trim indLine
  rw [dropWhile_replicate_space]

theorem drop_indLine (n : Nat) (x : Str) : (indLine n x).drop n = x := by
  have h := drop_len_append (List.replicate n ' ') x
  simpa [indLine] using h

theorem isInlineSeq_false_head {v : Str} {d : Char} (hv : v.head? = some d)
    (h : d ≠ '[') : isInlineSeq v = false := by
  unfold isInlineSeq
  by_cases hlen : v.length < 3
  · simp [hlen]
  · rw [if_neg hlen, if_pos (by simp [hv, h])]

/-- One `parseMap` loop iteration over a plain `key: value` line whose value
is dispatched to the Scalar Inference Engine. -/
theorem parseMapGo_scalar_step (fuel : Nat) (lines : List Str)
    (idx n indent : Nat) (m : YamlMap) (ek : List Str) (A : YamlMap)
    (k v : Str) (e : YamlElement) (hidx : idx < lines.length)
    (hline : lines.get ⟨idx, hidx⟩ = indLine n (stdLine k v))
    (hind : indent ≤ n) (hk : KeyTok k) (hv : ScalarTok v)
    (he : parseScalar v = .ok e) (hek : ek.contains k = false) :
    parseMapGo (fuel + 1) lines idx indent m ek A =
      parseMapGo fuel lines (idx + 1) indent (mapSet m k e) (k :: ek) A := by
  obtain ⟨hne, hws, hcol, hhash, hdash⟩ := hk
  obtain ⟨htrv, hvne, hvhead⟩ := hv
  obtain ⟨c, t, rfl⟩ : ∃ c t, k = c :: t := by
    cases k with
    | nil => exact absurd rfl hne
    | cons c t => exact ⟨c, t, rfl⟩
  obtain ⟨d, u, rfl⟩ : ∃ d u, v = d :: u := by
    cases v with
    | nil => exact absurd rfl hvne
    | cons d u => exact ⟨d, u, rfl⟩
  simp only [List.head?_cons, Option.all_some] at hvhead
  have hvfacts : (((¬d = '|' ∧ ¬d = '>') ∧ ¬d = '&') ∧ ¬d = '*') ∧ ¬d = '[' := by
    simpa using hvhead
  obtain ⟨⟨⟨⟨hd1, hd2⟩, hd3⟩, hd4⟩, hd5⟩ := hvfacts
  have hcsig : isSpaceTab c = false := hws c (List.mem_cons_self _ _)
  have hchash : c ≠ '#' := fun hcc => hhash (by simp [hcc])
  have hcdash : c ≠ '-' := fun hcc => hdash (by simp [hcc])
  rw [parseMapGo, dif_pos hidx]
  simp only [hline]
  rw [show indLine n (stdLine (c :: t) (d :: u)) =
      indLine n (c :: (t ++ ':' :: ' ' :: (d :: u))) by rw [stdLine_cons]]
  rw [findFirstNotOf_indLine n _ hcsig]
  simp only [← stdLine_cons]
  rw [show ((trim (indLine n (stdLine (c :: t) (d :: u)))).head? == some '#') = false by
    rw [trim_indLine, stdLine_cons, trim_cons_head hcsig]
    simp [hchash]]
  simp only [Bool.false_eq_true, if_false]
  rw [if_neg (by omega)]
  rw [drop_indLine]
  rw [show ((stdLine (c :: t) (d :: u)).head? == some '-') = false by
    rw [stdLine_cons]
    simp [hcdash]]
  simp only [Bool.false_eq_true, if_false]
  rw [validate_stdLine (d :: u) idx ⟨hne, hws, hcol, hhash, hdash⟩]
  rw [htrv, except_bind_ok]
  simp only [hek, Bool.false_eq_true, if_false]
  rw [show (d :: u).isEmpty = false from rfl]
  rw [isMultilineLiteral_false (show (d :: u).head? = some d from rfl) hd1 hd2]
  rw [isAnchor_false (show (d :: u).head? = some d from rfl) hd3]
  rw [isMergeKey_false_of_value (show (d :: u).head? = some d from rfl) hd4]
  rw [isAlias_false (show (d :: u).head? = some d from rfl) hd4]
  rw [isInlineSeq_false_head (show (d :: u).head? = some d from rfl) hd5]
  simp only [Bool.false_eq_true, if_false]
  rw [show ((d :: u).head? == some '[' && !((d :: u).getLast? == some ']')) = false by
    simp [hd5]]
  simp only [Bool.false_eq_true, if_false]
  rw [he, except_bind_ok]

/-- One `parseMap` loop iteration over a `<<: *name` merge line whose alias
resolves to an anchored mapping `M`: the entries of `M` are merged without
overwriting, the merge key is not recorded as an explicit key. -/
theorem parseMapGo_merge_step (fuel : Nat) (lines : List Str)
    (idx n indent : Nat) (m : YamlMap) (ek : List Str) (A : YamlMap)
    (name : Str) (M : YamlMap) (hidx : idx < lines.length)
    (hline : lines.get ⟨idx, hidx⟩ = indLine n (stdLine (lit "<<") ('*' :: name)))
    (hind : indent ≤ n) (hname : ∀ c ∈ name, isSpaceTab c = false)
    (hek : ek.contains (lit "<<") = false)
    (hA : mapFind A name = some (.mapv M)) :
    parseMapGo (fuel + 1) lines idx indent m ek A =
      parseMapGo fuel lines (idx + 1) indent (M.foldl mergeStep m) ek A := by
  have hkt : KeyTok (lit "<<") := by
    refine ⟨by decide, by decide, by decide, by decide, by decide⟩
  have htrv : trim ('*' :: name) = '*' :: name := by
    apply trim_eq_self_of_ends
    · intro c hc
      have : '*' = c := by simpa using hc
      subst this
      decide
    · intro c hc
      cases name with
      | nil =>
        have : '*' = c := by simpa using hc
        subst this
        decide
      | cons a b =>
        have hmem : c ∈ a :: b := mem_of_getLast?_eq (by simpa using hc)
        exact hname c hmem
  rw [parseMapGo, dif_pos hidx]
  simp only [hline]
  rw [show indLine n (stdLine (lit "<<") ('*' :: name)) =
      indLine n ('<' :: ('<' :: ':' :: ' ' :: ('*' :: name))) by rw [stdLine]; rfl]
  rw [findFirstNotOf_indLine n _ (by decide)]
  rw [show indLine n ('<' :: ('<' :: ':' :: ' ' :: ('*' :: name))) =
      indLine n (stdLine (lit "<<") ('*' :: name)) by rw [stdLine]; rfl]
  rw [show ((trim (indLine n (stdLine (lit "<<") ('*' :: name)))).head? == some '#') = false by
    rw [trim_indLine]
    rw [show stdLine (lit "<<") ('*' :: name) = '<' :: ('<' :: ':' :: ' ' :: ('*' :: name)) by
      rw [stdLine]; rfl]
    rw [trim_cons_head (by decide)]
    decide]
  simp only [Bool.false_eq_true, if_false]
  rw [if_neg (by omega)]
  rw [drop_indLine]
  rw [show ((stdLine (lit "<<") ('*' :: name)).head? == some '-') = false by
    rw [stdLine]; rfl]
  simp only [Bool.false_eq_true, if_false]
  rw [validate_stdLine ('*' :: name) idx hkt]
  rw [htrv, except_bind_ok]
  simp only [hek, Bool.false_eq_true, if_false]
  rw [show ('*' :: name).isEmpty = false from rfl]
  rw [isMultilineLiteral_false (show ('*' :: name).head? = some '*' from rfl)
    (by decide) (by decide)]
  rw [isAnchor_false (show ('*' :: name).head? = some '*' from rfl) (by decide)]
  rw [show isMergeKey (lit "<<") ('*' :: name) = true by
    simp [isMergeKey, isAlias]]
  simp only [Bool.false_eq_true, if_false, if_true]
  rw [show parseMergeKey ('*' :: name) m A = .ok (M.foldl mergeStep m) by
    unfold parseMergeKey
    simp only [List.drop_one, List.tail_cons, hA]]
  rw [except_bind_ok]

/-- One `parseMap` loop iteration over a `key: *name` alias line whose name
is not in the anchor table: the parse fails with `KeyException` (the
`AnchorNotFound` error kind), never substituting a default. -/
theorem parseMapGo_alias_err_step (fuel : Nat) (lines : List Str)
    (idx n indent : Nat) (m : YamlMap) (ek : List Str) (A : YamlMap)
    (k name : Str) (hidx : idx < lines.length)
    (hline : lines.get ⟨idx, hidx⟩ = indLine n (stdLine k ('*' :: name)))
    (hind : indent ≤ n) (hk : KeyTok k) (hkm : k ≠ lit "<<")
    (hname : ∀ c ∈ name, isSpaceTab c = false)
    (hek : ek.contains k = false)
    (hA : mapFind A name = Option.none) :
    parseMapGo (fuel + 1) lines idx indent m ek A =
      .error (.keyErr ('*' :: name)) := by
  obtain ⟨hne, hws, hcol, hhash, hdash⟩ := hk
  obtain ⟨c, t, rfl⟩ : ∃ c t, k = c :: t := by
    cases k with
    | nil => exact absurd rfl hne
    | cons c t => exact ⟨c, t, rfl⟩
  have hcsig : isSpaceTab c = false := hws c (List.mem_cons_self _ _)
  have hchash : c ≠ '#' := fun hcc => hhash (by simp [hcc])
  have hcdash : c ≠ '-' := fun hcc => hdash (by simp [hcc])
  have htrv : trim ('*' :: name) = '*' :: name := by
    apply trim_eq_self_of_ends
    · intro d hd
      have : '*' = d := by simpa using hd
      subst this
      decide
    · intro d hd
      cases name with
      | nil =>
        have : '*' = d := by simpa using hd
        subst this
        decide
      | cons a b =>
        have hmem : d ∈ a :: b := mem_of_getLast?_eq (by simpa using hd)
        exact hname d hmem
  rw [parseMapGo, dif_pos hidx]
  simp only [hline]
  rw [show indLine n (stdLine (c :: t) ('*' :: name)) =
      indLine n (c :: (t ++ ':' :: ' ' :: ('*' :: name))) by rw [stdLine_cons]]
  rw [findFirstNotOf_indLine n _ hcsig]
  simp only [← stdLine_cons]
  rw [show ((trim (indLine n (stdLine (c :: t) ('*' :: name)))).head? == some '#') = false by
    rw [trim_indLine, stdLine_cons, trim_cons_head hcsig]
    simp [hchash]]
  simp only [Bool.false_eq_true, if_false]
  rw [if_neg (by omega)]
  rw [drop_indLine]
  rw [show ((stdLine (c :: t) ('*' :: name)).head? == some '-') = false by
    rw [stdLine_cons]
    simp [hcdash]]
  simp only [Bool.false_eq_true, if_false]
  rw [validate_stdLine ('*' :: name) idx ⟨hne, hws, hcol, hhash, hdash⟩]
  rw [htrv, except_bind_ok]
  simp only [hek, Bool.false_eq_true, if_false]
  rw [show ('*' :: name).isEmpty = false from rfl]
  rw [isMultilineLiteral_false (show ('*' :: name).head? = some '*' from rfl)
    (by decide) (by decide)]
  rw [isAnchor_false (show ('*' :: name).head? = some '*' from rfl) (by decide)]
  rw [show isMergeKey (c :: t) ('*' :: name) = false by
    simp [isMergeKey]
    intro hcontra
    exact absurd hcontra hkm]
  simp only [Bool.false_eq_true, if_false]
  rw [show isAlias ('*' :: name) = true from rfl]
  simp only [if_true]
  rw [show parseAlias ('*' :: name) A = .error (.keyErr ('*' :: name)) by
    unfold parseAlias
    simp only [List.drop_one, List.tail_cons, hA]]
  rw [except_bind_err]

/-- One `parseMap` loop iteration over a `key: value` line whose key was
already explicitly defined in this block: the duplicate-key structural error,
naming the key and carrying the 1-based line number. -/
theorem parseMapGo_dup_step (fuel : Nat) (lines : List Str)
    (idx n indent : Nat) (m : YamlMap) (ek : List Str) (A : YamlMap)
    (k v : Str) (hidx : idx < lines.length)
    (hline : lines.get ⟨idx, hidx⟩ = indLine n (stdLine k v))
    (hind : indent ≤ n) (hk : KeyTok k) (hek : ek.contains k = true) :
    parseMapGo (fuel + 1) lines idx indent m ek A =
      .error (.structErr (lit "Duplicate mapping key: \x27" ++ k ++ lit "\x27")
        (some (idx + 1))) := by
  obtain ⟨hne, hws, hcol, hhash, hdash⟩ := hk
  obtain ⟨c, t, rfl⟩ : ∃ c t, k = c :: t := by
    cases k with
    | nil => exact absurd rfl hne
    | cons c t => exact ⟨c, t, rfl⟩
  have hcsig : isSpaceTab c = false := hws c (List.mem_cons_self _ _)
  have hchash : c ≠ '#' := fun hcc => hhash (by simp [hcc])
  have hcdash : c ≠ '-' := fun hcc => hdash (by simp [hcc])
  rw [parseMapGo, dif_pos hidx]
  simp only [hline]
  rw [show indLine n (stdLine (c :: t) v) =
      indLine n (c :: (t ++ ':' :: ' ' :: v)) by rw [stdLine_cons]]
  rw [findFirstNotOf_indLine n _ hcsig]
  simp only [← stdLine_cons]
  rw [show ((trim (indLine n (stdLine (c :: t) v))).head? == some '#') = false by
    rw [trim_indLine, stdLine_cons, trim_cons_head hcsig]
    simp [hchash]]
  simp only [Bool.false_eq_true, if_false]
  rw [if_neg (by omega)]
  rw [drop_indLine]
  rw [show ((stdLine (c :: t) v).head? == some '-') = false by
    rw [stdLine_cons]
    simp [hcdash]]
  simp only [Bool.false_eq_true, if_false]
  rw [validate_stdLine v idx ⟨hne, hws, hcol, hhash, hdash⟩]
  rw [except_bind_ok]
  simp only [hek, if_true]

/-- End of input: the `parseMap` loop returns the accumulated mapping and
the cursor unchanged. -/
theorem parseMapGo_end (fuel : Nat) (lines : List Str) (idx indent : Nat)
    (m : YamlMap) (ek : List Str) (A : YamlMap) (h : lines.length ≤ idx) :
    parseMapGo (fuel + 1) lines idx indent m ek A = .ok (m, idx, A) := by
  rw [parseMapGo, dif_neg (by omega)]

/-- Indentation underflow: a non-blank, non-comment line shallower than the
floor stops the `parseMap` loop without consuming it. -/
theorem parseMapGo_stop (fuel : Nat) (lines : List Str)
    (idx n indent : Nat) (m : YamlMap) (ek : List Str) (A : YamlMap)
    {c : Char} (t : Str) (hidx : idx < lines.length)
    (hline : lines.get ⟨idx, hidx⟩ = indLine n (c :: t))
    (hsig : isSpaceTab c = false) (hcom : c ≠ '#') (hlt : n < indent) :
    parseMapGo (fuel + 1) lines idx indent m ek A = .ok (m, idx, A) := by
  rw [parseMapGo, dif_pos hidx]
  simp only [hline]
  rw [findFirstNotOf_indLine n _ hsig]
  rw [show ((trim (indLine n (c :: t))).head? == some '#') = false by
    rw [trim_indLine, trim_cons_head hsig]
    simp [hcom]]
  simp only [Bool.false_eq_true, if_false]
  rw [if_pos hlt]

/-! ## C3: scientific notation without a decimal point -/

/-- C3: evaluation of the Scalar Inference Engine at the failing input `1e5`.
The claim (and the library's own `limitation.md` and the doc comment of
`parseScalar`) says such tokens are NOT matched by the numeric rules and fall
through to a Text value; but `double_re`'s third alternative `\d+` combined
with the optional exponent suffix matches `1e5`, so the engine produces a
DOUBLE value (`std::stod("1e5")`), not a Text value. -/
theorem c3_scientific_no_dot_is_double :
    parseScalar (lit "1e5") = .ok (.dbl (lit "1e5")) ∧
      isStringE (.dbl (lit "1e5")) = false := by
  exact ⟨rfl, rfl⟩

/-! ## C10: `[]`-like tokens (whitespace-only bracket interior) -/

/-- C10: a mapping value token consisting of `[`, only whitespace, and `]`
(such as `[]` or `[ ]`) is not an inline sequence (`isInlineSeq` requires a
non-whitespace interior), triggers no error (the unterminated-bracket check
requires the token not to end in `]`), and lands in the Scalar Inference
Engine, which returns the token itself as a Text value. -/
theorem c10_whitespace_bracket_token_is_text (fuel : Nat) (k inner : Str)
    (A : YamlMap) (hk : KeyTok k) (hin : ∀ c ∈ inner, isCppSpace c = true) :
    parseMapGo (fuel + 2) [stdLine k ('[' :: (inner ++ [']']))] 0 0 [] [] A =
      .ok ([(k, .str ('[' :: (inner ++ [']'])))], 1, A) := by
  obtain ⟨hne, hws, hcol, hhash, hdash⟩ := hk
  obtain ⟨c, t, rfl⟩ : ∃ c t, k = c :: t := by
    cases k with
    | nil => exact absurd rfl hne
    | cons c t => exact ⟨c, t, rfl⟩
  have hcsig : isSpaceTab c = false := hws c (List.mem_cons_self _ _)
  have hchash : c ≠ '#' := fun he => hhash (by simp [he])
  have hcdash : c ≠ '-' := fun he => hdash (by simp [he])
  set v : Str := '[' :: (inner ++ [']']) with hv
  have hvhead : v.head? = some '[' := rfl
  have hvlast : v.getLast? = some ']' := by
    rw [hv, show '[' :: (inner ++ [']']) = ('[' :: inner) ++ [']'] by simp]
    exact List.getLast?_concat _
  have htrimv : trim v = v := by
    apply trim_eq_self_of_ends
    · intro d hd
      rw [hvhead] at hd
      have hde : '[' = d := by simpa using hd
      subst hde
      decide
    · intro d hd
      rw [hvlast] at hd
      have hde : ']' = d := by simpa using hd
      subst hde
      decide
  -- first loop iteration: the key-value line
  rw [show fuel + 2 = (fuel + 1) + 1 from rfl]
  rw [parseMapGo]
  rw [dif_pos (by simp)]
  simp only [List.get, stdLine_cons]
  rw [findFirstNotOf_cons_sig hcsig]
  simp only [← stdLine_cons]
  rw [show ((trim (stdLine (c :: t) v)).head? == some '#') = false by
    rw [stdLine_cons, trim_cons_head hcsig]
    simp [hchash]]
  simp only [Bool.false_eq_true, if_false, List.drop_zero]
  rw [if_neg (by omega)]
  rw [show ((stdLine (c :: t) v).head? == some '-') = false by
    rw [stdLine_cons]
    simp [hcdash]]
  simp only [Bool.false_eq_true, if_false]
  rw [validate_stdLine v 0 ⟨hne, hws, hcol, hhash, hdash⟩]
  rw [htrimv, except_bind_ok]
  simp only [List.contains, List.elem, Bool.false_eq_true, if_false]
  rw [show v.isEmpty = false from rfl]
  rw [isMultilineLiteral_false hvhead (by decide) (by decide)]
  rw [isAnchor_false hvhead (by decide)]
  rw [isMergeKey_false_of_value hvhead (by decide)]
  rw [isAlias_false hvhead (by decide)]
  rw [show isInlineSeq v = false by
    unfold isInlineSeq
    by_cases hlen : v.length < 3
    · simp [hlen]
    · rw [if_neg (by simpa using hlen)]
      rw [show (!(v.head? == some '[') || !(v.getLast? == some ']')) = false by
        simp [hvhead, hvlast]]
      simp only [Bool.false_eq_true, if_false]
      rw [show (v.drop 1).dropLast = inner by
        rw [hv]
        simp]
      rw [List.any_eq_false]
      intro d hd
      simp [hin d hd]]
  simp only [Bool.false_eq_true, if_false]
  rw [show (v.head? == some '[' && !(v.getLast? == some ']')) = false by
    simp [hvhead, hvlast]]
  simp only [Bool.false_eq_true, if_false]
  have hhashfree : findCharIdx v '#' = Option.none := by
    apply findIdxOf_eq_none
    intro d hd
    rw [hv] at hd
    rcases List.mem_cons.mp hd with he | hm
    · simp [he]
    · rcases List.mem_append.mp hm with hi | hr
      · have := hin d hi
        simp only [isCppSpace] at this
        rcases Bool.or_eq_true_iff.mp this with h | h
        · rcases Bool.or_eq_true_iff.mp h with h | h
          · rcases Bool.or_eq_true_iff.mp h with h | h
            · rcases Bool.or_eq_true_iff.mp h with h | h
              · rcases Bool.or_eq_true_iff.mp h with h | h <;>
                  simp_all
              · simp_all
            · simp_all
          · simp_all
        · simp_all
      · have : d = ']' := by simpa using hr
        simp [this]
  rw [parseScalar_plain hvhead htrimv (by decide) (by decide) hhashfree
    (ne_of_head?_ne (by rw [hvhead]; decide)) (ne_of_head?_ne (by rw [hvhead]; decide))
    (by decide) (by decide) (by decide)]
  rw [except_bind_ok]
  -- second loop iteration: end of input
  rw [parseMapGo]
  rw [dif_neg (by simp)]
  rfl

/-- Witness for C10 at the concrete input `g: [ ]`. -/
theorem c10_witness :
    parseMapGo 2 [stdLine (lit "g") ('[' :: ([' '] ++ [']']))] 0 0 [] [] [] =
      .ok ([(lit "g", .str ('[' :: ([' '] ++ [']'])))], 1, []) :=
  c10_whitespace_bracket_token_is_text 0 (lit "g") [' '] []
    (by constructor
        · decide
        · refine ⟨?_, ?_, ?_, ?_⟩ <;> decide)
    (by decide)

/-! ## C6: undefined alias -/

/-- C6: an alias value `*name` whose name is not in the anchor table makes
the parse of the mapping block fail with `KeyException` (the
`AnchorNotFound` error kind, carrying the alias text), never substituting a
default value. -/
theorem c6_alias_not_found_fails (fuel : Nat) (k name : Str) (A : YamlMap)
    (hk : KeyTok k) (hkm : k ≠ lit "<<")
    (hname : ∀ c ∈ name, isSpaceTab c = false)
    (hA : mapFind A name = Option.none) :
    parseMapGo (fuel + 1) [stdLine k ('*' :: name)] 0 0 [] [] A =
      .error (.keyErr ('*' :: name)) :=
  parseMapGo_alias_err_step fuel [stdLine k ('*' :: name)] 0 0 0 [] [] A k name
    (by simp) (by simp [indLine]) (Nat.le_refl 0) hk hkm hname rfl hA

/-- Witness for C6 at the concrete input `x: *nope` with an empty anchor
table. -/
theorem c6_witness :
    parseMapGo 1 [stdLine (lit "x") ('*' :: lit "nope")] 0 0 [] [] [] =
      .error (.keyErr ('*' :: lit "nope")) :=
  c6_alias_not_found_fails 0 (lit "x") (lit "nope") []
    (by refine ⟨?_, ?_, ?_, ?_, ?_⟩ <;> decide) (by decide) (by decide) rfl

/-! ## C5: unterminated inline-sequence bracket -/

theorem isInlineSeq_false_last {v : Str} (h : v.getLast? ≠ some ']') :
    isInlineSeq v = false := by
  unfold isInlineSeq
  by_cases hlen : v.length < 3
  · simp [hlen]
  · rw [if_neg hlen, if_pos (by simp [h])]

set_option maxRecDepth 100000 in
/-- C5 counterexample: at the spec's own scenario input
`a: [1, 2, 3` / `b: x`, the parse fails with the unterminated-bracket
`SyntaxException`, but that exception is constructed WITHOUT a line number
(the only `SyntaxException` throw sites without one), so the error does not
carry the 1-based line number of the offending line as the claim states. -/
theorem c5_counterexample :
    parseLines [lit "a: [1, 2, 3", lit "b: x"] =
      .error (.structErr (lit "Malformed inline sequence: missing closing bracket")
        Option.none) ∧
    ∀ msg ln, parseLines [lit "a: [1, 2, 3", lit "b: x"] ≠
      .error (.structErr msg (some ln)) := by
  have hmain : parseLines [lit "a: [1, 2, 3", lit "b: x"] =
      .error (.structErr (lit "Malformed inline sequence: missing closing bracket")
        Option.none) := by rfl
  refine ⟨hmain, ?_⟩
  intro msg ln h
  have h2 := hmain.symm.trans h
  simp at h2

/-- C5 amended: for every mapping value token that begins with `[` and does
not end with `]`, the parse of the block fails with the unterminated-bracket
`StructuralError`; that error carries no line number (the throw site passes
only a message). -/
theorem c5_unterminated_bracket_error (fuel : Nat) (k tok : Str) (A : YamlMap)
    (hk : KeyTok k) (htok : trim tok = tok)
    (hhead : tok.head? = some '[') (hlast : tok.getLast? ≠ some ']') :
    parseMapGo (fuel + 1) [stdLine k tok] 0 0 [] [] A =
      .error (.structErr (lit "Malformed inline sequence: missing closing bracket")
        Option.none) := by
  obtain ⟨hne, hws, hcol, hhash, hdash⟩ := hk
  obtain ⟨c, t, rfl⟩ : ∃ c t, k = c :: t := by
    cases k with
    | nil => exact absurd rfl hne
    | cons c t => exact ⟨c, t, rfl⟩
  obtain ⟨u, rfl⟩ : ∃ u, tok = '[' :: u := by
    cases tok with
    | nil => simp at hhead
    | cons d u =>
      have : d = '[' := by simpa using hhead
      exact ⟨u, by rw [this]⟩
  have hcsig : isSpaceTab c = false := hws c (List.mem_cons_self _ _)
  have hchash : c ≠ '#' := fun hcc => hhash (by simp [hcc])
  have hcdash : c ≠ '-' := fun hcc => hdash (by simp [hcc])
  have hidx : 0 < [stdLine (c :: t) ('[' :: u)].length := by simp
  rw [parseMapGo, dif_pos hidx]
  simp only [show [stdLine (c :: t) ('[' :: u)].get ⟨0, hidx⟩ =
    indLine 0 (stdLine (c :: t) ('[' :: u)) by simp [indLine]]
  rw [show indLine 0 (stdLine (c :: t) ('[' :: u)) =
      indLine 0 (c :: (t ++ ':' :: ' ' :: ('[' :: u))) by rw [stdLine_cons]]
  rw [findFirstNotOf_indLine 0 _ hcsig]
  simp only [← stdLine_cons]
  rw [show ((trim (indLine 0 (stdLine (c :: t) ('[' :: u)))).head? == some '#') = false by
    rw [trim_indLine, stdLine_cons, trim_cons_head hcsig]
    simp [hchash]]
  simp only [Bool.false_eq_true, if_false]
  rw [if_neg (by omega)]
  rw [drop_indLine]
  rw [show ((stdLine (c :: t) ('[' :: u)).head? == some '-') = false by
    rw [stdLine_cons]
    simp [hcdash]]
  simp only [Bool.false_eq_true, if_false]
  rw [validate_stdLine ('[' :: u) 0 ⟨hne, hws, hcol, hhash, hdash⟩]
  rw [htok, except_bind_ok]
  simp only [List.contains, List.elem, Bool.false_eq_true, if_false]
  rw [show ('[' :: u).isEmpty = false from rfl]
  rw [isMultilineLiteral_false (show ('[' :: u).head? = some '[' from rfl)
    (by decide) (by decide)]
  rw [isAnchor_false (show ('[' :: u).head? = some '[' from rfl) (by decide)]
  rw [isMergeKey_false_of_value (show ('[' :: u).head? = some '[' from rfl) (by decide)]
  rw [isAlias_false (show ('[' :: u).head? = some '[' from rfl) (by decide)]
  rw [isInlineSeq_false_last hlast]
  simp only [Bool.false_eq_true, if_false]
  rw [show (('[' :: u).head? == some '[' && !(('[' :: u).getLast? == some ']')) = true by
    simp [hlast]]
  simp only [if_true]

/-- Witness for the amended C5 at the concrete token `[1, 2, 3`. -/
theorem c5_witness :
    parseMapGo 1 [stdLine (lit "a") (lit "[1, 2, 3")] 0 0 [] [] [] =
      .error (.structErr (lit "Malformed inline sequence: missing closing bracket")
        Option.none) :=
  c5_unterminated_bracket_error 0 (lit "a") (lit "[1, 2, 3") []
    (by refine ⟨?_, ?_, ?_, ?_, ?_⟩ <;> decide) (by decide) (by decide) (by decide)

/-! ## C4: duplicate explicit keys; merge-introduced keys are not duplicates -/

/-- C4: (a) a second explicit occurrence of a key already explicitly set in
the same block raises the duplicate-key structural error immediately, naming
the key and the 1-based line number; (b) a key introduced into the block only
via a `<<` merge (the anchored mapping `M` defines `k`) does not trigger the
duplicate-key error when it later appears explicitly: that parse succeeds. -/
theorem c4_duplicate_key (fuel : Nat) (k v w name : Str) (A M : YamlMap)
    (e ew e0 : YamlElement)
    (hk : KeyTok k) (hkm : k ≠ lit "<<")
    (hv : ScalarTok v) (he : parseScalar v = .ok e)
    (hw : ScalarTok w) (hew : parseScalar w = .ok ew)
    (hname : ∀ c ∈ name, isSpaceTab c = false)
    (hA : mapFind A name = some (.mapv M))
    (hM : mapFind M k = some e0) :
    parseMapGo (fuel + 2) [stdLine k v, stdLine k w] 0 0 [] [] A =
      .error (.structErr (lit "Duplicate mapping key: \x27" ++ k ++ lit "\x27")
        (some 2)) ∧
    resOk (parseMapGo (fuel + 3)
      [stdLine (lit "<<") ('*' :: name), stdLine k w] 0 0 [] [] A) = true := by
  constructor
  · rw [show fuel + 2 = (fuel + 1) + 1 from rfl]
    rw [parseMapGo_scalar_step (fuel + 1) _ 0 0 0 [] [] A k v e (by simp)
      (by simp [indLine]) (Nat.le_refl 0) hk hv he rfl]
    rw [parseMapGo_dup_step fuel _ 1 0 0 _ _ A k w (by simp)
      (by simp [indLine]) (Nat.le_refl 0) hk (by simp)]
  · rw [show fuel + 3 = (fuel + 2) + 1 from rfl]
    rw [parseMapGo_merge_step (fuel + 2) _ 0 0 0 [] [] A name M (by simp)
      (by simp [indLine]) (Nat.le_refl 0) hname rfl hA]
    rw [show fuel + 2 = (fuel + 1) + 1 from rfl]
    rw [parseMapGo_scalar_step (fuel + 1) _ 1 0 0 (M.foldl mergeStep []) [] A k w ew
      (by simp) (by simp [indLine]) (Nat.le_refl 0) hk hw hew rfl]
    rw [parseMapGo_end fuel _ 2 0 _ _ A (by simp)]
    rfl

/-- Witness for C4 at the concrete inputs `k: v1`/`k: v1` (duplicate) and
`<<: *d` then `k: x60` with the anchor `d` bound to a mapping defining `k`. -/
theorem c4_witness :
    parseMapGo 2 [stdLine (lit "k") (lit "v1"), stdLine (lit "k") (lit "w2")]
        0 0 [] [] [(lit "d", .mapv [(lit "k", .intv 30)])] =
      .error (.structErr (lit "Duplicate mapping key: \x27" ++ lit "k" ++ lit "\x27")
        (some 2)) ∧
    resOk (parseMapGo 3
      [stdLine (lit "<<") ('*' :: lit "d"), stdLine (lit "k") (lit "w2")] 0 0 [] []
      [(lit "d", .mapv [(lit "k", .intv 30)])]) = true :=
  c4_duplicate_key 0 (lit "k") (lit "v1") (lit "w2") (lit "d")
    [(lit "d", .mapv [(lit "k", .intv 30)])] [(lit "k", .intv 30)]
    (.str (lit "v1")) (.str (lit "w2")) (.intv 30)
    (by refine ⟨?_, ?_, ?_, ?_, ?_⟩ <;> decide) (by decide)
    (by refine ⟨?_, ?_, ?_⟩ <;> decide) rfl
    (by refine ⟨?_, ?_, ?_⟩ <;> decide) rfl
    (by decide) rfl rfl

/-! ## C1: merge precedence, and the `<<` key itself -/

set_option maxRecDepth 400000 in
/-- C1 counterexample: the claim also asserts that the key `<<` itself never
appears as a key of the finished mapping.  But when the anchored mapping
itself contains a literal `<<` entry (created by a `<<:` line whose value is
not an alias, so `isMergeKey` is false and `<<` is inserted as an ordinary
key), `parseMergeKey` copies that entry into the merging block.  In this
document, `svc` is a mapping block with an explicit key `k` and a `<<` merge
referencing the anchored mapping that also defines `k`, and the finished
`svc` mapping contains the key `<<`.  (The merge-precedence half of the
claim does hold: `svc`'s `k` is the explicit `2`, not the merged `1`.) -/
theorem c1_counterexample :
    parseLines [lit "defaults: &d", lit "  <<: foo", lit "  k: 1",
        lit "svc:", lit "  <<: *d", lit "  k: 2"] =
      .ok (.mapRoot
        [(lit "defaults", .mapv [(lit "<<", .str (lit "foo")), (lit "k", .intv 1)]),
         (lit "svc", .mapv [(lit "<<", .str (lit "foo")), (lit "k", .intv 2)])]
        [(lit "d", .mapv [(lit "<<", .str (lit "foo")), (lit "k", .intv 1)])]) ∧
    mapFind [(lit "<<", YamlElement.str (lit "foo")), (lit "k", YamlElement.intv 2)]
      (lit "<<") = some (.str (lit "foo")) ∧
    mapFind [(lit "<<", YamlElement.str (lit "foo")), (lit "k", YamlElement.intv 1)]
      (lit "k") = some (.intv 1) := by
  refine ⟨by rfl, by rfl, by rfl⟩

/-- C1 amended: for every mapping block containing an explicit key `k` and a
`<<` merge referencing an anchored mapping `M` that also defines `k`, and
whose anchored mapping does NOT itself contain a literal `<<` key, the
finished mapping's `k` is the explicitly-set value (never the merged one)
for both orderings of the explicit entry and the merge line, and the key
`<<` does not appear in the finished mapping. -/
theorem c1_merge_precedence (fuel : Nat) (k v name : Str) (A M : YamlMap)
    (e e0 : YamlElement)
    (hk : KeyTok k) (hkm : k ≠ lit "<<")
    (hv : ScalarTok v) (he : parseScalar v = .ok e)
    (hname : ∀ c ∈ name, isSpaceTab c = false)
    (hA : mapFind A name = some (.mapv M))
    (hM : mapFind M k = some e0)
    (hMm : mapFind M (lit "<<") = Option.none) :
    (resFind (parseMapGo (fuel + 3)
        [stdLine (lit "<<") ('*' :: name), stdLine k v] 0 0 [] [] A) k =
          some (some e) ∧
     resFind (parseMapGo (fuel + 3)
        [stdLine (lit "<<") ('*' :: name), stdLine k v] 0 0 [] [] A)
          (lit "<<") = some Option.none) ∧
    (resFind (parseMapGo (fuel + 3)
        [stdLine k v, stdLine (lit "<<") ('*' :: name)] 0 0 [] [] A) k =
          some (some e) ∧
     resFind (parseMapGo (fuel + 3)
        [stdLine k v, stdLine (lit "<<") ('*' :: name)] 0 0 [] [] A)
          (lit "<<") = some Option.none) := by
  have hmm : lit "<<" ≠ k := fun h => hkm h.symm
  have hMkeys : ∀ p ∈ M, p.1 ≠ lit "<<" := mapFind_eq_none_iff.mp hMm
  have horder1 : parseMapGo (fuel + 3)
      [stdLine (lit "<<") ('*' :: name), stdLine k v] 0 0 [] [] A =
      .ok (mapSet (M.foldl mergeStep []) k e, 2, A) := by
    rw [show fuel + 3 = (fuel + 2) + 1 from rfl]
    rw [parseMapGo_merge_step (fuel + 2) _ 0 0 0 [] [] A name M (by simp)
      (by simp [indLine]) (Nat.le_refl 0) hname rfl hA]
    rw [show fuel + 2 = (fuel + 1) + 1 from rfl]
    rw [parseMapGo_scalar_step (fuel + 1) _ 1 0 0 (M.foldl mergeStep []) [] A k v e
      (by simp) (by simp [indLine]) (Nat.le_refl 0) hk hv he rfl]
    rw [parseMapGo_end fuel _ 2 0 _ _ A (by simp)]
  have horder2 : parseMapGo (fuel + 3)
      [stdLine k v, stdLine (lit "<<") ('*' :: name)] 0 0 [] [] A =
      .ok (M.foldl mergeStep (mapSet [] k e), 2, A) := by
    rw [show fuel + 3 = (fuel + 2) + 1 from rfl]
    rw [parseMapGo_scalar_step (fuel + 2) _ 0 0 0 [] [] A k v e (by simp)
      (by simp [indLine]) (Nat.le_refl 0) hk hv he rfl]
    rw [show fuel + 2 = (fuel + 1) + 1 from rfl]
    rw [parseMapGo_merge_step (fuel + 1) _ 1 0 0 _ _ A name M (by simp)
      (by simp [indLine]) (Nat.le_refl 0) hname
      (by
        have hb : (lit "<<" == k) = false := by
          rw [beq_eq_false_iff_ne]
          exact hmm
        simp [List.contains, List.elem, hb]) hA]
    rw [parseMapGo_end fuel _ 2 0 _ _ A (by simp)]
  refine ⟨⟨?_, ?_⟩, ?_, ?_⟩
  · rw [horder1]
    show some (mapFind (mapSet (M.foldl mergeStep []) k e) k) = some (some e)
    rw [mapFind_mapSet_self]
  · rw [horder1]
    show some (mapFind (mapSet (M.foldl mergeStep []) k e) (lit "<<")) =
      some Option.none
    rw [mapFind_mapSet_ne _ _ hmm]
    rw [foldl_mergeStep_absent (show mapFind [] (lit "<<") = Option.none from rfl) hMkeys]
  · rw [horder2]
    show some (mapFind (M.foldl mergeStep (mapSet [] k e)) k) = some (some e)
    rw [foldl_mergeStep_present (mapFind_mapSet_self [] k e)]
  · rw [horder2]
    show some (mapFind (M.foldl mergeStep (mapSet [] k e)) (lit "<<")) =
      some Option.none
    rw [foldl_mergeStep_absent (by simp [mapSet, mapFind, hkm]) hMkeys]

/-- Witness for the amended C1 at the spec's scenario: anchor `d` bound to
`{timeout: 30}`, explicit `timeout: 60`, both orderings. -/
theorem c1_witness :
    (resFind (parseMapGo 3
        [stdLine (lit "<<") ('*' :: lit "d"), stdLine (lit "timeout") (lit "60")]
        0 0 [] [] [(lit "d", .mapv [(lit "timeout", .intv 30)])]) (lit "timeout") =
          some (some (.intv 60)) ∧
     resFind (parseMapGo 3
        [stdLine (lit "<<") ('*' :: lit "d"), stdLine (lit "timeout") (lit "60")]
        0 0 [] [] [(lit "d", .mapv [(lit "timeout", .intv 30)])]) (lit "<<") =
          some Option.none) ∧
    (resFind (parseMapGo 3
        [stdLine (lit "timeout") (lit "60"), stdLine (lit "<<") ('*' :: lit "d")]
        0 0 [] [] [(lit "d", .mapv [(lit "timeout", .intv 30)])]) (lit "timeout") =
          some (some (.intv 60)) ∧
     resFind (parseMapGo 3
        [stdLine (lit "timeout") (lit "60"), stdLine (lit "<<") ('*' :: lit "d")]
        0 0 [] [] [(lit "d", .mapv [(lit "timeout", .intv 30)])]) (lit "<<") =
          some Option.none) :=
  c1_merge_precedence 0 (lit "timeout") (lit "60") (lit "d")
    [(lit "d", .mapv [(lit "timeout", .intv 30)])] [(lit "timeout", .intv 30)]
    (.intv 60) (.intv 30)
    (by refine ⟨?_, ?_, ?_, ?_, ?_⟩ <;> decide) (by decide)
    (by refine ⟨?_, ?_, ?_⟩ <;> decide) rfl
    (by decide) rfl rfl rfl

/-! ## C7: block scalars -/

theorem parseMultilineAcc_spec (lines : List Str) (cI : Nat) (sep : Char) :
    ∀ fuel i, lines.length + 1 - i ≤ fuel →
    parseMultilineAcc lines cI sep fuel i =
      ((((lines.drop i).takeWhile (blockContinues cI)).map
          (fun l => trim l ++ [sep])).flatten,
        i + ((lines.drop i).takeWhile (blockContinues cI)).length) := by
  intro fuel
  induction fuel with
  | zero =>
    intro i hle
    have hge : lines.length + 1 ≤ i := by omega
    have hdrop : lines.drop i = [] := List.drop_eq_nil_of_le (by omega)
    simp [parseMultilineAcc, hdrop]
  | succ f ih =>
    intro i hle
    by_cases hc : multilineContinues lines cI i = true
    · have hlt : i < lines.length := by
        by_contra hback
        have : lines[i]? = Option.none := by
          rw [List.getElem?_eq_none]
          omega
        rw [multilineContinues, this] at hc
        simp at hc
      have hline : lines[i]? = some lines[i] := List.getElem?_eq_getElem hlt
      have hbc : blockContinues cI lines[i] = true := by
        rw [multilineContinues, hline] at hc
        exact hc
      have hdrop : lines.drop i = lines[i] :: lines.drop (i + 1) :=
        List.drop_eq_getElem_cons hlt
      have hgd : lines.getD i [] = lines[i] := by
        rw [List.getD_eq_getElem?_getD, hline]
        rfl
      rw [parseMultilineAcc, if_pos hc, ih (i + 1) (by omega), hdrop,
        List.takeWhile_cons, if_pos hbc, hgd]
      simp [Nat.add_assoc, Nat.add_comm 1]
    · have hc' : multilineContinues lines cI i = false := by
        cases hx : multilineContinues lines cI i
        · rfl
        · exact absurd hx hc
      rw [parseMultilineAcc, if_neg (by simp [hc'])]
      by_cases hlt : i < lines.length
      · have hline : lines[i]? = some lines[i] := List.getElem?_eq_getElem hlt
        have hbc : blockContinues cI lines[i] = false := by
          rw [multilineContinues, hline] at hc'
          exact hc'
        have hdrop : lines.drop i = lines[i] :: lines.drop (i + 1) :=
          List.drop_eq_getElem_cons hlt
        rw [hdrop, List.takeWhile_cons, if_neg (by simp [hbc])]
        simp
      · have hdrop : lines.drop i = [] := List.drop_eq_nil_of_le (by omega)
        simp [hdrop]

theorem intercalate_cons_cons_eq (s x y : Str) (u : List Str) :
    List.intercalate s (x :: y :: u) = x ++ s ++ List.intercalate s (y :: u) := by
  rw [List.intercalate, List.intersperse_cons_cons, List.flatten_cons, List.flatten_cons,
    ← List.intercalate]
  simp

theorem join_sep_dropLast (xs : List Str) (hne : xs ≠ []) :
    ((xs.map (fun x => x ++ [' '])).flatten).dropLast =
      List.intercalate [' '] xs := by
  induction xs with
  | nil => exact absurd rfl hne
  | cons x t ih =>
    cases t with
    | nil => simp [List.intercalate]
    | cons y u =>
      have hrec := ih (by simp)
      have hjoin_ne : (((y :: u).map (fun x => x ++ [' '])).flatten) ≠ [] := by
        simp
      rw [List.map_cons, List.flatten_cons]
      rw [show (x ++ [' ']) ++ (((y :: u).map (fun x => x ++ [' '])).flatten) =
          x ++ (' ' :: ((y :: u).map (fun x => x ++ [' '])).flatten) by simp]
      rw [List.dropLast_append_of_ne_nil x
        (show (' ' :: ((y :: u).map (fun x => x ++ [' '])).flatten) ≠ [] by simp)]
      rw [show (' ' :: ((y :: u).map (fun x => x ++ [' '])).flatten).dropLast =
          ' ' :: (((y :: u).map (fun x => x ++ [' '])).flatten).dropLast by
        rw [List.dropLast_cons_of_ne_nil hjoin_ne]]
      rw [hrec, intercalate_cons_cons_eq]
      simp

theorem join_sep_getLast (xs : List Str) (hne : xs ≠ []) :
    ((xs.map (fun x => x ++ [' '])).flatten).getLast? = some ' ' := by
  induction xs with
  | nil => exact absurd rfl hne
  | cons x t ih =>
    cases t with
    | nil => simp
    | cons y u =>
      rw [List.map_cons, List.flatten_cons, List.getLast?_append_of_ne_nil
        (x ++ [' ']) (show ((y :: u).map (fun x => x ++ [' '])).flatten ≠ [] by simp)]
      exact ih (by simp)

/-- C7 counterexample: for the literal block scalar
`k: |` / `␣␣a` / `␣␣␣␣b`, the claim (each consumed line only right-trimmed,
leading whitespace beyond the block indentation preserved) prescribes the
value `a\n  b\n`; the code trims each consumed line on BOTH ends (the shared
`trim` helper), producing `a\nb\n`. -/
theorem c7_counterexample :
    parseLines [lit "k: |", lit "  a", lit "    b"] =
      .ok (.mapRoot [(lit "k", .str (lit "a\nb\n"))] []) ∧
    lit "a\nb\n" ≠ lit "a\n  b\n" := by
  refine ⟨by rfl, by decide⟩

/-- C7 amended: a block scalar consumes exactly the maximal run of
subsequent lines strictly more indented than the introducer line's own
indentation; the literal style `|` joins the consumed lines, each trimmed of
BOTH leading and trailing whitespace, with newline separators and a trailing
newline; the folded style `>` joins them, trimmed the same way, with single
spaces and no trailing separator. -/
theorem c7_block_scalar (lines : List Str) (idx curIndent : Nat) :
    parseMultilineLiteral lines idx curIndent '|' =
      (((blockLines lines idx curIndent).map (fun l => trim l ++ ['\n'])).flatten,
        idx + 1 + (blockLines lines idx curIndent).length) ∧
    parseMultilineLiteral lines idx curIndent '>' =
      (List.intercalate [' '] ((blockLines lines idx curIndent).map trim),
        idx + 1 + (blockLines lines idx curIndent).length) := by
  have hspec := parseMultilineAcc_spec lines curIndent
  constructor
  · rw [parseMultilineLiteral, if_pos rfl]
    rw [hspec '\n' (lines.length + 1) (idx + 1) (by omega)]
    rw [blockLines]
  · rw [parseMultilineLiteral, if_neg (by decide)]
    rw [hspec ' ' (lines.length + 1) (idx + 1) (by omega)]
    rw [blockLines]
    by_cases hne : (lines.drop (idx + 1)).takeWhile (blockContinues curIndent) = []
    · simp [hne, List.intercalate]
    · have hfuse : ((lines.drop (idx + 1)).takeWhile (blockContinues curIndent)).map
          (fun l => trim l ++ [' ']) =
          (((lines.drop (idx + 1)).takeWhile (blockContinues curIndent)).map trim).map
            (fun x => x ++ [' ']) := by
        rw [List.map_map]
        rfl
      have hlast := join_sep_getLast
        (((lines.drop (idx + 1)).takeWhile (blockContinues curIndent)).map trim)
        (by simp [hne])
      have hdrop := join_sep_dropLast
        (((lines.drop (idx + 1)).takeWhile (blockContinues curIndent)).map trim)
        (by simp [hne])
      simp only [hfuse, hlast, hdrop, if_true]

/-! ## C8: nested block sequences become empty mappings -/

theorem dropWhile_eq_drop_of_findIdxOf {p : Char → Bool} {l : Str} {i : Nat}
    (h : findIdxOf (fun c => !p c) l = some i) : l.dropWhile p = l.drop i := by
  induction l generalizing i with
  | nil => simp [findIdxOf] at h
  | cons c t ih =>
    by_cases hc : p c = true
    · rw [findIdxOf, if_neg (by simp [hc])] at h
      cases hj : findIdxOf (fun c => !p c) t with
      | none => rw [hj] at h; simp at h
      | some j =>
        rw [hj] at h
        have hi : j + 1 = i := by simpa using h
        rw [← hi]
        rw [show (c :: t).dropWhile p = t.dropWhile p by simp [List.dropWhile_cons, hc]]
        rw [show (c :: t).drop (j + 1) = t.drop j from rfl]
        exact ih hj
    · have hc' : p c = false := by
        cases hpc : p c
        · rfl
        · exact absurd hpc hc
      rw [findIdxOf, if_pos (by simp [hc'])] at h
      have hi : (0 : Nat) = i := by simpa using h
      rw [← hi, dropWhile_cons_neg hc']
      rfl

theorem findIdxOf_head {q : Char → Bool} {l : Str} {i : Nat}
    (h : findIdxOf q l = some i) :
    ∃ c, (l.drop i).head? = some c ∧ q c = true := by
  induction l generalizing i with
  | nil => simp [findIdxOf] at h
  | cons c t ih =>
    by_cases hc : q c = true
    · rw [findIdxOf, if_pos hc] at h
      have hi : (0 : Nat) = i := by simpa using h
      rw [← hi]
      exact ⟨c, rfl, hc⟩
    · rw [findIdxOf, if_neg hc] at h
      cases hj : findIdxOf q t with
      | none => rw [hj] at h; simp at h
      | some j =>
        rw [hj] at h
        have hi : j + 1 = i := by simpa using h
        obtain ⟨d, hd, hq⟩ := ih hj
        refine ⟨d, ?_, hq⟩
        rw [← hi]
        exact hd

theorem trim_head_of_findFirstNotOf {l : Str} {p : Nat}
    (h : findFirstNotOf l = some p) : (trim l).head? = (l.drop p).head? := by
  have h' : findIdxOf (fun c => !isSpaceTab c) l = some p := h
  obtain ⟨c, hc, hq⟩ := findIdxOf_head h'
  have hsig : isSpaceTab c = false := by simpa using hq
  have hdw : l.dropWhile isSpaceTab = l.drop p := dropWhile_eq_drop_of_findIdxOf h'
  obtain ⟨rest, hrest⟩ : ∃ rest, l.drop p = c :: rest := by
    cases hdrop : l.drop p with
    | nil => rw [hdrop] at hc; simp at hc
    | cons d r =>
      rw [hdrop] at hc
      have hdc : d = c := by simpa using hc
      exact ⟨r, by rw [hdc]⟩
  unfold trim
  rw [hdw, hrest, dropTrailWhile_cons_neg hsig]
  rfl

theorem mem_trim {l : Str} {c : Char} (h : c ∈ trim l) : c ∈ l := by
  unfold trim dropTrailWhile at h
  rw [List.mem_reverse] at h
  have h2 := (List.dropWhile_sublist _).subset h
  rw [List.mem_reverse] at h2
  exact (List.dropWhile_sublist _).subset h2

/-- End of input for the `parseSeq` loop. -/
theorem parseSeqGo_end (fuel : Nat) (lines : List Str) (idx indent : Nat)
    (seq : List YamlElement) (A : YamlMap) (h : lines.length ≤ idx) :
    parseSeqGo (fuel + 1) lines idx indent seq A = .ok (seq, idx, A) := by
  rw [parseSeqGo, dif_neg (by omega)]

/-- The mapping-detection pass over a run of `-`-prefixed, `:`-free lines:
every line takes the `processedLine[0] == '-'` branch of `parseMap`, the
previous line is non-blank and bears no `:`, so nothing is extracted and the
loop runs to the end of input returning the accumulated map unchanged. -/
theorem parseMapGo_skipDash (lines : List Str) (n1 : Nat) :
    ∀ fuel j m ek A, 1 ≤ j → j ≤ lines.length →
      lines.length - j < fuel →
      (∀ i (h : i < lines.length), j ≤ i →
        dashLineAt n1 (lines.get ⟨i, h⟩) = true ∧ ':' ∉ lines.get ⟨i, h⟩) →
      (∀ i (h : i < lines.length), j - 1 ≤ i →
        (findFirstNotOf (lines.get ⟨i, h⟩)).isSome = true ∧ ':' ∉ lines.get ⟨i, h⟩) →
      parseMapGo fuel lines j n1 m ek A = .ok (m, lines.length, A) := by
  intro fuel
  induction fuel with
  | zero =>
    intro j m ek A hj1 hj2 hfuel hdash hprev
    exact absurd hfuel (by omega)
  | succ f ih =>
    intro j m ek A hj1 hj2 hfuel hdash hprev
    by_cases hlt : j < lines.length
    · obtain ⟨hdl, hcol⟩ := hdash j hlt (Nat.le_refl j)
      unfold dashLineAt at hdl
      cases hfp : findFirstNotOf (lines.get ⟨j, hlt⟩) with
      | none => rw [hfp] at hdl; simp at hdl
      | some p =>
        rw [hfp] at hdl
        have hdl2 := hdl
        simp only [Bool.and_eq_true, decide_eq_true_eq, beq_iff_eq] at hdl2
        obtain ⟨hp1, hp2⟩ := hdl2
        have hth : (trim (lines.get ⟨j, hlt⟩)).head? = some '-' := by
          rw [trim_head_of_findFirstNotOf hfp, hp2]
        have hjm1 : j - 1 < lines.length := by omega
        obtain ⟨hps, hpcol⟩ := hprev (j - 1) hjm1 (Nat.le_refl _)
        cases hq : findFirstNotOf (lines.get ⟨j - 1, hjm1⟩) with
        | none => rw [hq] at hps; simp at hps
        | some q =>
          have hnocol :
              findCharIdx ((lines.get ⟨j - 1, hjm1⟩).drop q) ':' = Option.none := by
            apply findIdxOf_eq_none
            intro d hd
            have hdm : d ∈ lines.get ⟨j - 1, hjm1⟩ := List.drop_subset _ _ hd
            by_cases hdc : d = ':'
            · exact absurd (hdc ▸ hdm) hpcol
            · simp [hdc]
          rw [parseMapGo, dif_pos hlt]
          simp only [hfp]
          rw [show ((trim (lines.get ⟨j, hlt⟩)).head? == some '#') = false by
            rw [hth]; decide]
          simp only [Bool.false_eq_true, if_false]
          rw [if_neg (show ¬ p < n1 by omega)]
          rw [if_pos (show (((lines.get ⟨j, hlt⟩).drop p).head? == some '-') = true by
            rw [hp2]; decide)]
          rw [if_pos (show j > 0 by omega)]
          rw [show lines.getD (j - 1) [] = lines.get ⟨j - 1, hjm1⟩ by
            rw [List.getD_eq_getElem?_getD, List.getElem?_eq_getElem hjm1]
            rfl]
          simp only [hq, hnocol]
          apply ih (j + 1) m ek A (by omega) (by omega) (by omega)
          · intro i h hi
            exact hdash i h (by omega)
          · intro i h hi
            by_cases hij : j ≤ i
            · obtain ⟨hd, hc⟩ := hdash i h hij
              unfold dashLineAt at hd
              refine ⟨?_, hc⟩
              cases hfx : findFirstNotOf (lines.get ⟨i, h⟩) with
              | none => rw [hfx] at hd; simp at hd
              | some x => simp
            · exact hprev i h (by omega)
    · have hje : j = lines.length := by omega
      subst hje
      exact parseMapGo_end f lines lines.length n1 m ek A (Nat.le_refl _)

set_option maxRecDepth 100000 in
/-- C8: a sequence item whose line is `-` (with any trailing content free of
`:`) followed by a nested block of deeper `-`-prefixed, `:`-free lines is
parsed as an EMPTY Mapping element — the nested lines contribute nothing —
and the parse succeeds, consuming every line. -/
theorem c8_nested_seq_is_empty_map (fuel : Nat) (iRest : Str) (c n1 indent : Nat)
    (bLines : List Str) (A : YamlMap)
    (hind : indent ≤ c)
    (hiCol : ':' ∉ iRest)
    (hbne : bLines ≠ [])
    (hhead : findFirstNotOf (bLines.headD []) = some n1)
    (hn1 : n1 > c)
    (hbAll : ∀ i (h : i < bLines.length),
      dashLineAt n1 (bLines.get ⟨i, h⟩) = true ∧ ':' ∉ bLines.get ⟨i, h⟩) :
    parseSeqGo (fuel + bLines.length + 2) (indLine c ('-' :: iRest) :: bLines)
        0 indent [] A =
      .ok ([.mapv []], bLines.length + 1, A) := by
  obtain ⟨b0, brest, rfl⟩ : ∃ b0 brest, bLines = b0 :: brest := by
    cases bLines with
    | nil => exact absurd rfl hbne
    | cons b0 brest => exact ⟨b0, brest, rfl⟩
  rw [show (b0 :: brest).headD [] = b0 from rfl] at hhead
  have hiColFull : ':' ∉ indLine c ('-' :: iRest) := by
    intro hmem
    unfold indLine at hmem
    rcases List.mem_append.mp hmem with hrep | hcons
    · have := List.eq_of_mem_replicate hrep
      simp at this
    · rcases List.mem_cons.mp hcons with hh | ht
      · simp at hh
      · exact hiCol ht
  set lines : List Str := indLine c ('-' :: iRest) :: b0 :: brest with hlines
  have hlen' : lines.length = (b0 :: brest).length + 1 := by rw [hlines]; rfl
  have hidx0 : 0 < lines.length := by omega
  rw [show fuel + (b0 :: brest).length + 2 = (fuel + (b0 :: brest).length + 1) + 1
    from rfl]
  rw [parseSeqGo, dif_pos hidx0]
  have hline0 : lines.get ⟨0, hidx0⟩ = indLine c ('-' :: iRest) := rfl
  have hfnf : findFirstNotOf (indLine c ('-' :: iRest)) = some c :=
    findFirstNotOf_indLine c iRest (by decide)
  simp only [hline0, hfnf]
  rw [show ((trim (indLine c ('-' :: iRest))).head? == some '#') = false by
    rw [trim_indLine, trim_cons_head (show isSpaceTab '-' = false by decide)]
    decide]
  simp only [Bool.false_eq_true, if_false]
  rw [if_neg (show ¬ c < indent by omega)]
  rw [drop_indLine]
  rw [show (!(('-' :: iRest).head? == some '-')) = false from rfl]
  simp only [Bool.false_eq_true, if_false]
  have hnext : lines[0 + 1]? = some b0 := by
    rw [hlines, List.getElem?_cons_succ, List.getElem?_cons_zero]
  simp only [hnext, hhead, Option.getD_some]
  rw [if_pos (show decide (n1 > c) = true by simpa using hn1)]
  rw [show ('-' :: iRest).drop 1 = iRest from rfl]
  have hfc : findCharIdx (trim iRest) ':' = Option.none := by
    apply findIdxOf_eq_none
    intro d hd
    by_cases hdc : d = ':'
    · exact absurd (hdc ▸ (mem_trim hd)) hiCol
    · simp [hdc]
  simp only [hfc, ite_self]
  rw [parseMapGo_skipDash lines n1 (fuel + (b0 :: brest).length + 1) (0 + 1) [] [] A
    (by omega) (by omega) (by omega)
    (by
      intro i h hi
      obtain ⟨i', rfl⟩ : ∃ i', i = i' + 1 := ⟨i - 1, by omega⟩
      have h' : i' < (b0 :: brest).length := by omega
      rw [show lines.get ⟨i' + 1, h⟩ = (b0 :: brest).get ⟨i', h'⟩ from rfl]
      exact hbAll i' h')
    (by
      intro i h hi
      by_cases hiz : i = 0
      · subst hiz
        refine ⟨?_, hiColFull⟩
        rw [show lines.get ⟨0, h⟩ = indLine c ('-' :: iRest) from rfl, hfnf]
        rfl
      · obtain ⟨i', rfl⟩ : ∃ i', i = i' + 1 := ⟨i - 1, by omega⟩
        have h' : i' < (b0 :: brest).length := by omega
        obtain ⟨hd, hc⟩ := hbAll i' h'
        rw [show lines.get ⟨i' + 1, h⟩ = (b0 :: brest).get ⟨i', h'⟩ from rfl]
        refine ⟨?_, hc⟩
        unfold dashLineAt at hd
        cases hfx : findFirstNotOf ((b0 :: brest).get ⟨i', h'⟩) with
        | none => rw [hfx] at hd; simp at hd
        | some x => simp)]
  rw [show (pure ([] : YamlMap) : Except YamlError YamlMap) = Except.ok [] from rfl]
  simp only [except_bind_ok, List.foldl_nil, List.nil_append]
  rw [← hlen']
  exact parseSeqGo_end (fuel + (b0 :: brest).length) lines lines.length indent
    [.mapv []] A (Nat.le_refl _)

/-! ## C9: indentation-floor confinement -/

set_option maxRecDepth 400000 in
/-- Counterexamples to both clauses of C9.  No-shallow-content: parsing
`"  a: &x" / "b: 1"` with indentation floor 2 succeeds, and the value
returned for `a` is the mapping `{b: 1}` built from the line `b: 1` whose
indentation 0 is strictly below the floor: the anchor path re-parses the
following block at the NEXT line's own indentation, ignoring the floor.
Cursor-at-or-past-the-first-shallower-line: the sequence-block parse of
`"  - a" / "  x: 1" / "b"` at floor 2 succeeds and returns cursor 1,
sitting on `"  x: 1"` whose indentation 2 is NOT below the floor — strictly
before the first shallower line `"b"` at index 2 (indentation 0). -/
theorem c9_counterexample :
    (parseMapGo 10 [lit "  a: &x", lit "b: 1"] 0 2 [] [] [] =
      .ok ([(lit "a", .mapv [(lit "b", .intv 1)])], 2,
           [(lit "x", .mapv [(lit "b", .intv 1)])])) ∧
    (parseSeqGo 10 [lit "  - a", lit "  x: 1", lit "b"] 0 2 [] [] =
      .ok ([.str (lit "a")], 1, []) ∧
     findFirstNotOf (lit "  x: 1") = some 2 ∧
     findFirstNotOf (lit "b") = some 0) :=
  ⟨by rfl, by rfl, by rfl, by rfl⟩

theorem parseMultilineAcc_cursor (lines : List Str) (curIndent : Nat) (sep : Char) :
    ∀ fuel i, i ≤ (parseMultilineAcc lines curIndent sep fuel i).2 := by
  intro fuel
  induction fuel with
  | zero => intro i; exact Nat.le_refl i
  | succ f ih =>
    intro i
    rw [parseMultilineAcc]
    by_cases hc : multilineContinues lines curIndent i = true
    · rw [if_pos hc]
      exact Nat.le_trans (Nat.le_succ i) (ih (i + 1))
    · rw [if_neg hc]

theorem parseMultilineLiteral_cursor (lines : List Str) (idx curIndent : Nat)
    (style : Char) : idx + 1 ≤ (parseMultilineLiteral lines idx curIndent style).2 := by
  unfold parseMultilineLiteral
  by_cases h : style = '|'
  · rw [if_pos h]
    exact parseMultilineAcc_cursor lines curIndent '\n' (lines.length + 1) (idx + 1)
  · rw [if_neg h]
    exact parseMultilineAcc_cursor lines curIndent ' ' (lines.length + 1) (idx + 1)

theorem except_ok_of_bind {α β : Type} {e : Except YamlError α}
    {f : α → Except YamlError β} {b : β} (h : (e >>= f) = .ok b) :
    ∃ a, e = .ok a ∧ f a = .ok b := by
  cases e with
  | ok a =>
    rw [except_bind_ok] at h
    exact ⟨a, rfl, h⟩
  | error err =>
    rw [except_bind_err] at h
    exact Except.noConfusion h

/-- Cursor invariant of the block parsers, by mutual induction on fuel: a
successful `parseMap` call returns a cursor that moved forward and that sits
either past the end of input or exactly on a non-blank, non-comment line
whose indentation is strictly below the indentation floor; `parseSeq` and
`parseAnchor` move the cursor forward. -/
theorem parse_cursor_inv :
    ∀ fuel : Nat,
      (∀ lines idx indent m ek A res,
        parseMapGo fuel lines idx indent m ek A = .ok res →
          idx ≤ res.2.1 ∧
          (lines.length ≤ res.2.1 ∨
            ∃ hl : res.2.1 < lines.length, ∃ p,
              findFirstNotOf (lines.get ⟨res.2.1, hl⟩) = some p ∧
              ((trim (lines.get ⟨res.2.1, hl⟩)).head? == some '#') = false ∧
              p < indent)) ∧
      (∀ lines idx indent seq A res,
        parseSeqGo fuel lines idx indent seq A = .ok res → idx ≤ res.2.1) ∧
      (∀ value lines idx A res,
        parseAnchorGo fuel value lines idx A = .ok res → idx ≤ res.2.1) := by
  intro fuel
  induction fuel with
  | zero =>
    refine ⟨fun lines idx indent m ek A res h => ?_,
            fun lines idx indent seq A res h => ?_,
            fun value lines idx A res h => ?_⟩
    · rw [parseMapGo] at h; exact Except.noConfusion h
    · rw [parseSeqGo] at h; exact Except.noConfusion h
    · rw [parseAnchorGo] at h; exact Except.noConfusion h
  | succ f ih =>
    obtain ⟨ihm, ihs, iha⟩ := ih
    refine ⟨fun lines idx indent m ek A res h => ?_,
            fun lines idx indent seq A res h => ?_,
            fun value lines idx A res h => ?_⟩
    · -- parseMap
      by_cases hidx : idx < lines.length
      case neg =>
        rw [parseMapGo, dif_neg hidx] at h
        injection h with h2
        subst h2
        exact ⟨Nat.le_refl idx, Or.inl (show lines.length ≤ idx by omega)⟩
      case pos =>
      rw [parseMapGo, dif_pos hidx] at h
      cases hfnf : findFirstNotOf (lines.get ⟨idx, hidx⟩) with
      | none =>
        simp only [hfnf] at h
        obtain ⟨h1, h2⟩ := ihm lines (idx + 1) indent m ek A res h
        exact ⟨by omega, h2⟩
      | some curIndent =>
        simp only [hfnf] at h
        by_cases hcmt : ((trim (lines.get ⟨idx, hidx⟩)).head? == some '#') = true
        · rw [if_pos hcmt] at h
          obtain ⟨h1, h2⟩ := ihm lines (idx + 1) indent m ek A res h
          exact ⟨by omega, h2⟩
        · rw [if_neg hcmt] at h
          by_cases hlt : curIndent < indent
          · rw [if_pos hlt] at h
            injection h with h2
            subst h2
            exact ⟨Nat.le_refl idx,
              Or.inr ⟨hidx, curIndent, hfnf, (by simpa using hcmt), hlt⟩⟩
          · rw [if_neg hlt] at h
            by_cases hdash :
                (((lines.get ⟨idx, hidx⟩).drop curIndent).head? == some '-') = true
            · rw [if_pos hdash] at h
              by_cases hpos : idx > 0
              · rw [if_pos hpos] at h
                cases hprev : findFirstNotOf (lines.getD (idx - 1) []) with
                | none =>
                  simp only [hprev] at h
                  exact Except.noConfusion h
                | some p =>
                  simp only [hprev] at h
                  cases hcol : findCharIdx ((lines.getD (idx - 1) []).drop p) ':' with
                  | none =>
                    simp only [hcol] at h
                    obtain ⟨h1, h2⟩ := ihm lines (idx + 1) indent m ek A res h
                    exact ⟨by omega, h2⟩
                  | some pos =>
                    simp only [hcol] at h
                    by_cases hfind : (mapFind m
                        (trim (((lines.getD (idx - 1) []).drop p).take pos))).isNone = true
                    · rw [if_pos hfind] at h
                      obtain ⟨r, hr, h⟩ := except_ok_of_bind h
                      have h1 := ihs lines idx curIndent [] A r hr
                      obtain ⟨h2, h3⟩ := ihm lines (r.2.1 + 1) indent _ _ _ res h
                      exact ⟨by omega, h3⟩
                    · rw [if_neg hfind] at h
                      obtain ⟨h1, h2⟩ := ihm lines (idx + 1) indent m ek A res h
                      exact ⟨by omega, h2⟩
              · rw [if_neg hpos] at h
                obtain ⟨h1, h2⟩ := ihm lines (idx + 1) indent m ek A res h
                exact ⟨by omega, h2⟩
            · rw [if_neg hdash] at h
              obtain ⟨kv, hkv, h⟩ := except_ok_of_bind h
              conv at h => lhs; zeta
              by_cases hek : ek.contains kv.1 = true
              · rw [if_pos hek] at h
                exact Except.noConfusion h
              · rw [if_neg hek] at h
                by_cases hemp : kv.2.isEmpty = true
                · rw [if_pos hemp] at h
                  by_cases hl : idx + 1 < lines.length
                  · rw [dif_pos hl] at h
                    cases hnext : findFirstNotOf (lines.get ⟨idx + 1, hl⟩) with
                    | none =>
                      simp only [hnext] at h
                      exact Except.noConfusion h
                    | some n =>
                      simp only [hnext] at h
                      by_cases hgt : n > curIndent
                      · rw [if_pos (decide_eq_true hgt)] at h
                        by_cases hnc :
                            (((lines.get ⟨idx + 1, hl⟩).drop n).head? == some '-') = true
                        · rw [if_pos hnc] at h
                          obtain ⟨r, hr, h⟩ := except_ok_of_bind h
                          have h1 := ihs lines (idx + 1) n [] A r hr
                          obtain ⟨h2, h3⟩ := ihm lines r.2.1 indent _ _ _ res h
                          exact ⟨by omega, h3⟩
                        · rw [if_neg hnc] at h
                          obtain ⟨r, hr, h⟩ := except_ok_of_bind h
                          have h1 := (ihm lines (idx + 1) n [] [] A r hr).1
                          obtain ⟨h2, h3⟩ := ihm lines r.2.1 indent _ _ _ res h
                          exact ⟨by omega, h3⟩
                      · rw [if_neg (by simpa using hgt)] at h
                        obtain ⟨h1, h2⟩ := ihm lines (idx + 1) indent _ _ _ res h
                        exact ⟨by omega, h2⟩
                  · rw [dif_neg hl] at h
                    obtain ⟨h1, h2⟩ := ihm lines (idx + 1) indent _ _ _ res h
                    exact ⟨by omega, h2⟩
                · rw [if_neg hemp] at h
                  by_cases hml : isMultilineLiteral kv.2 = true
                  · rw [if_pos hml] at h
                    have h1 := parseMultilineLiteral_cursor lines idx curIndent
                      (kv.2.headD ' ')
                    obtain ⟨h2, h3⟩ := ihm lines _ indent _ _ _ res h
                    exact ⟨by omega, h3⟩
                  · rw [if_neg hml] at h
                    by_cases han : isAnchor kv.2 = true
                    · rw [if_pos han] at h
                      obtain ⟨r, hr, h⟩ := except_ok_of_bind h
                      have h1 := iha kv.2 lines idx A r hr
                      obtain ⟨h2, h3⟩ := ihm lines r.2.1 indent _ _ _ res h
                      exact ⟨by omega, h3⟩
                    · rw [if_neg han] at h
                      by_cases hmg : isMergeKey kv.1 kv.2 = true
                      · rw [if_pos hmg] at h
                        obtain ⟨m2, hm2, h⟩ := except_ok_of_bind h
                        obtain ⟨h1, h2⟩ := ihm lines (idx + 1) indent m2 ek A res h
                        exact ⟨by omega, h2⟩
                      · rw [if_neg hmg] at h
                        by_cases hal : isAlias kv.2 = true
                        · rw [if_pos hal] at h
                          obtain ⟨node, hnode, h⟩ := except_ok_of_bind h
                          obtain ⟨h1, h2⟩ := ihm lines (idx + 1) indent _ _ _ res h
                          exact ⟨by omega, h2⟩
                        · rw [if_neg hal] at h
                          by_cases hil : isInlineSeq kv.2 = true
                          · rw [if_pos hil] at h
                            obtain ⟨node, hnode, h⟩ := except_ok_of_bind h
                            obtain ⟨h1, h2⟩ := ihm lines (idx + 1) indent _ _ _ res h
                            exact ⟨by omega, h2⟩
                          · rw [if_neg hil] at h
                            by_cases hbr :
                                (kv.2.head? == some '[' && !(kv.2.getLast? == some ']')) = true
                            · rw [if_pos hbr] at h
                              exact Except.noConfusion h
                            · rw [if_neg hbr] at h
                              obtain ⟨node, hnode, h⟩ := except_ok_of_bind h
                              obtain ⟨h1, h2⟩ := ihm lines (idx + 1) indent _ _ _ res h
                              exact ⟨by omega, h2⟩
    · -- parseSeq
      by_cases hidx : idx < lines.length
      case neg =>
        rw [parseSeqGo, dif_neg hidx] at h
        injection h with h2
        subst h2
        exact Nat.le_refl idx
      case pos =>
      rw [parseSeqGo, dif_pos hidx] at h
      cases hfnf : findFirstNotOf (lines.get ⟨idx, hidx⟩) with
      | none =>
        simp only [hfnf] at h
        exact Nat.le_trans (Nat.le_succ idx) (ihs lines (idx + 1) indent seq A res h)
      | some curIndent =>
        simp only [hfnf] at h
        by_cases hcmt : ((trim (lines.get ⟨idx, hidx⟩)).head? == some '#') = true
        · rw [if_pos hcmt] at h
          exact Nat.le_trans (Nat.le_succ idx) (ihs lines (idx + 1) indent seq A res h)
        · rw [if_neg hcmt] at h
          by_cases hlt : curIndent < indent
          · rw [if_pos hlt] at h
            injection h with h2
            subst h2
            exact Nat.le_refl idx
          · rw [if_neg hlt] at h
            by_cases hnd :
                (!(((lines.get ⟨idx, hidx⟩).drop curIndent).head? == some '-')) = true
            · rw [if_pos hnd] at h
              injection h with h2
              subst h2
              exact Nat.le_refl idx
            · rw [if_neg hnd] at h
              cases hn1 : lines[idx + 1]? with
              | none =>
                simp only [hn1] at h
                rw [if_neg Bool.false_ne_true] at h
                by_cases hie : (!(trim (((lines.get ⟨idx, hidx⟩).drop
                    curIndent).drop 1)).isEmpty) = true
                · rw [if_pos hie] at h
                  by_cases hil : isInlineSeq (trim (((lines.get ⟨idx, hidx⟩).drop
                      curIndent).drop 1)) = true
                  · rw [if_pos hil] at h
                    obtain ⟨node, hnode, h⟩ := except_ok_of_bind h
                    exact Nat.le_trans (Nat.le_succ idx)
                      (ihs lines (idx + 1) indent _ A res h)
                  · rw [if_neg hil] at h
                    obtain ⟨node, hnode, h⟩ := except_ok_of_bind h
                    exact Nat.le_trans (Nat.le_succ idx)
                      (ihs lines (idx + 1) indent _ A res h)
                · rw [if_neg hie] at h
                  exact Nat.le_trans (Nat.le_succ idx)
                    (ihs lines (idx + 1) indent _ A res h)
              | some nl =>
                simp only [hn1] at h
                cases hn2 : findFirstNotOf nl with
                | none =>
                  simp only [hn2] at h
                  rw [if_neg Bool.false_ne_true] at h
                  by_cases hie : (!(trim (((lines.get ⟨idx, hidx⟩).drop
                      curIndent).drop 1)).isEmpty) = true
                  · rw [if_pos hie] at h
                    by_cases hil : isInlineSeq (trim (((lines.get ⟨idx, hidx⟩).drop
                        curIndent).drop 1)) = true
                    · rw [if_pos hil] at h
                      obtain ⟨node, hnode, h⟩ := except_ok_of_bind h
                      exact Nat.le_trans (Nat.le_succ idx)
                        (ihs lines (idx + 1) indent _ A res h)
                    · rw [if_neg hil] at h
                      obtain ⟨node, hnode, h⟩ := except_ok_of_bind h
                      exact Nat.le_trans (Nat.le_succ idx)
                        (ihs lines (idx + 1) indent _ A res h)
                  · rw [if_neg hie] at h
                    exact Nat.le_trans (Nat.le_succ idx)
                      (ihs lines (idx + 1) indent _ A res h)
                | some n =>
                  simp only [hn2] at h
                  by_cases hgt : n > curIndent
                  · rw [if_pos (decide_eq_true hgt)] at h
                    by_cases hie : (!(trim (((lines.get ⟨idx, hidx⟩).drop
                        curIndent).drop 1)).isEmpty) = true
                    · rw [if_pos hie] at h
                      cases hfc : findCharIdx (trim (((lines.get ⟨idx, hidx⟩).drop
                          curIndent).drop 1)) ':' with
                      | some pos =>
                        simp only [hfc] at h
                        obtain ⟨sc, hsc, h⟩ := except_ok_of_bind h
                        obtain ⟨y, hy, h⟩ := except_ok_of_bind h
                        obtain ⟨r, hr, h⟩ := except_ok_of_bind h
                        have h1 := (ihm lines (idx + 1) _ [] [] A r hr).1
                        have h2 := ihs lines r.2.1 indent _ _ res h
                        omega
                      | none =>
                        simp only [hfc] at h
                        obtain ⟨y, hy, h⟩ := except_ok_of_bind h
                        obtain ⟨r, hr, h⟩ := except_ok_of_bind h
                        have h1 := (ihm lines (idx + 1) _ [] [] A r hr).1
                        have h2 := ihs lines r.2.1 indent _ _ res h
                        omega
                    · rw [if_neg hie] at h
                      obtain ⟨y, hy, h⟩ := except_ok_of_bind h
                      obtain ⟨r, hr, h⟩ := except_ok_of_bind h
                      have h1 := (ihm lines (idx + 1) _ [] [] A r hr).1
                      have h2 := ihs lines r.2.1 indent _ _ res h
                      omega
                  · rw [if_neg (by simpa using hgt)] at h
                    by_cases hie : (!(trim (((lines.get ⟨idx, hidx⟩).drop
                        curIndent).drop 1)).isEmpty) = true
                    · rw [if_pos hie] at h
                      by_cases hil : isInlineSeq (trim (((lines.get ⟨idx, hidx⟩).drop
                          curIndent).drop 1)) = true
                      · rw [if_pos hil] at h
                        obtain ⟨node, hnode, h⟩ := except_ok_of_bind h
                        exact Nat.le_trans (Nat.le_succ idx)
                          (ihs lines (idx + 1) indent _ A res h)
                      · rw [if_neg hil] at h
                        obtain ⟨node, hnode, h⟩ := except_ok_of_bind h
                        exact Nat.le_trans (Nat.le_succ idx)
                          (ihs lines (idx + 1) indent _ A res h)
                    · rw [if_neg hie] at h
                      exact Nat.le_trans (Nat.le_succ idx)
                        (ihs lines (idx + 1) indent _ A res h)
    · -- parseAnchor
      rw [parseAnchorGo] at h
      conv at h => lhs; zeta
      by_cases hj : idx + 1 < lines.length
      · rw [dif_pos hj] at h
        cases hni : findFirstNotOf (lines.get ⟨idx + 1, hj⟩) with
        | some nextIndentPos =>
          simp only [hni] at h
          by_cases hd :
              (((lines.get ⟨idx + 1, hj⟩).drop nextIndentPos).head? == some '-') = true
          · rw [if_pos hd] at h
            obtain ⟨r, hr, h⟩ := except_ok_of_bind h
            have h1 := ihs lines (idx + 1) nextIndentPos [] A r hr
            injection h with h2
            subst h2
            exact Nat.le_trans (Nat.le_succ idx) h1
          · rw [if_neg hd] at h
            obtain ⟨r, hr, h⟩ := except_ok_of_bind h
            have h1 := (ihm lines (idx + 1) nextIndentPos [] [] A r hr).1
            injection h with h2
            subst h2
            exact Nat.le_trans (Nat.le_succ idx) h1
        | none =>
          simp only [hni] at h
          injection h with h2
          subst h2
          exact Nat.le_succ idx
      · rw [dif_neg hj] at h
        injection h with h2
        subst h2
        exact Nat.le_succ idx



/-- C9, amended, per parser: a successful mapping-block parse moved the
cursor forward to a position either past the end of input or exactly on a
non-blank, non-comment line whose indentation is strictly below the floor —
in particular at or past the FIRST such shallower line; a successful
sequence-block parse guarantees only forward cursor movement, because it
also stops on the first line that does not begin with `-` even when that
line's indentation is at or above the floor, possibly strictly before the
first shallower line. -/
theorem c9_cursor_boundary (fuel : Nat) (lines : List Str)
    (idx indent : Nat) (m : YamlMap) (ek : List Str) (A : YamlMap)
    (seq : List YamlElement) (m' : YamlMap) (idx' : Nat) (A' : YamlMap)
    (seq' : List YamlElement) (idxs : Nat) (As : YamlMap) :
    (parseMapGo fuel lines idx indent m ek A = .ok (m', idx', A') →
      idx ≤ idx' ∧
      (lines.length ≤ idx' ∨ ∃ hl : idx' < lines.length, ∃ p,
        findFirstNotOf (lines.get ⟨idx', hl⟩) = some p ∧
        ((trim (lines.get ⟨idx', hl⟩)).head? == some '#') = false ∧
        p < indent)) ∧
    (parseSeqGo fuel lines idx indent seq A = .ok (seq', idxs, As) →
      idx ≤ idxs) :=
  ⟨fun h => (parse_cursor_inv fuel).1 lines idx indent m ek A (m', idx', A') h,
   fun h => (parse_cursor_inv fuel).2.1 lines idx indent seq A (seq', idxs, As) h⟩

set_option maxRecDepth 400000 in
/-- Witness for C9: the mapping parse of `["  x: 1", "b"]` at floor 2 stops
exactly on the shallower line `b`, and the sequence parse of
`["  - a", "  x: 1", "b"]` at floor 2 moved its cursor forward. -/
theorem c9_witness :
    ((0 : Nat) ≤ 1 ∧
      ([lit "  x: 1", lit "b"].length ≤ 1 ∨ ∃ hl : 1 < [lit "  x: 1", lit "b"].length,
        ∃ p, findFirstNotOf ([lit "  x: 1", lit "b"].get ⟨1, hl⟩) = some p ∧
        ((trim ([lit "  x: 1", lit "b"].get ⟨1, hl⟩)).head? == some '#') = false ∧
        p < 2)) ∧
    (0 : Nat) ≤ 1 :=
  ⟨(c9_cursor_boundary 5 [lit "  x: 1", lit "b"] 0 2 [] [] [] []
      [(lit "x", .intv 1)] 1 [] [] 1 []).1 (by rfl),
   (c9_cursor_boundary 10 [lit "  - a", lit "  x: 1", lit "b"] 0 2 [] [] []
      [] [] 0 [] [.str (lit "a")] 1 []).2 (by rfl)⟩

/-- Witness for C8 at the concrete document `"  -" / "    - a" / "    - b"`:
the item becomes an empty Mapping and the whole input is consumed. -/
theorem c8_witness :
    parseSeqGo 4 (indLine 2 ['-'] :: [lit "    - a", lit "    - b"]) 0 0 [] [] =
      .ok ([.mapv []], 3, []) :=
  c8_nested_seq_is_empty_map 0 [] 2 4 0 [lit "    - a", lit "    - b"] []
    (by decide) (by decide) (by decide) (by decide) (by decide) (by decide)

/-! ## C2: the serialize-then-parse round trip.
Character, token and number lemmas. -/

theorem plainChar_ne {c : Char} (h : plainChar c = true) :
    ∀ d : Char, plainChar d = false → c ≠ d :=
  fun _ hd hcd => absurd (hcd ▸ h) (by simp [hd])

theorem plainChar_not_special {c : Char} (h : plainChar c = true) :
    printerSpecials.contains c = false := by
  cases hc : printerSpecials.contains c
  · rfl
  · exfalso
    have hall : printerSpecials.all (fun d => !plainChar d) = true := by decide
    have hmem : c ∈ printerSpecials := List.mem_of_elem_eq_true hc
    have := List.all_eq_true.mp hall c hmem
    simp [h] at this

theorem plainChar_spacetab {c : Char} (h : plainChar c = true) :
    isSpaceTab c = false := by
  unfold isSpaceTab
  simp [plainChar_ne h ' ' (by decide), plainChar_ne h '\t' (by decide)]

theorem safeText_spec {s : Str} (h : safeText s = true) :
    s ≠ [] ∧ (∀ c ∈ s, plainChar c = true) ∧
      (s.head?.all fun c => !c.isDigit) = true ∧
      s ≠ lit "true" ∧ s ≠ lit "false" := by
  unfold safeText at h
  simp only [Bool.and_eq_true, Bool.not_eq_true', beq_eq_false_iff_ne, ne_eq,
    List.all_eq_true] at h
  obtain ⟨⟨⟨⟨hne, hall⟩, hhd⟩, h1⟩, h2⟩ := h
  refine ⟨?_, hall, hhd, h1, h2⟩
  cases s
  · simp at hne
  · simp

theorem safeKey_spec {k : Str} (h : safeKey k = true) :
    k ≠ [] ∧ ∀ c ∈ k, plainChar c = true := by
  unfold safeKey at h
  simp only [Bool.and_eq_true, List.all_eq_true] at h
  obtain ⟨hne, hall⟩ := h
  refine ⟨?_, hall⟩
  cases k
  · simp at hne
  · simp

/-- A safe key satisfies the parser-side key hypotheses. -/
theorem safeKey_KeyTok {k : Str} (h : safeKey k = true) : KeyTok k := by
  obtain ⟨hne, hall⟩ := safeKey_spec h
  refine ⟨hne, fun c hc => plainChar_spacetab (hall c hc), ?_, ?_, ?_⟩
  · intro hc
    exact plainChar_ne (hall ':' hc) ':' (by decide) rfl
  · intro hh
    cases k with
    | nil => exact hne rfl
    | cons c t =>
      have hc : c = '#' := by simpa using hh
      exact plainChar_ne (hall c (List.mem_cons_self _ _)) '#' (by decide) hc
  · intro hh
    cases k with
    | nil => exact hne rfl
    | cons c t =>
      have hc : c = '-' := by simpa using hh
      exact plainChar_ne (hall c (List.mem_cons_self _ _)) '-' (by decide) hc

theorem needsQuoting_safe {s : Str} (hne : s ≠ [])
    (hall : ∀ c ∈ s, plainChar c = true) : needsQuoting s = false := by
  obtain ⟨c, t, rfl⟩ : ∃ c t, s = c :: t := by
    cases s with
    | nil => exact absurd rfl hne
    | cons c t => exact ⟨c, t, rfl⟩
  have hc := hall c (List.mem_cons_self _ _)
  obtain ⟨d, hd⟩ : ∃ d, (c :: t).getLast? = some d := ⟨(c :: t).getLast (by simp),
    List.getLast?_eq_getLast _ (by simp)⟩
  have hdm : d ∈ c :: t := mem_of_getLast?_eq hd
  have hdp := hall d hdm
  unfold needsQuoting
  rw [if_neg (by simp)]
  rw [if_neg (by
    simp only [List.head?_cons, hd, Bool.or_eq_true, beq_iff_eq, Option.some_inj]
    push_neg
    exact ⟨fun hc' => plainChar_ne hc ' ' (by decide) hc',
           fun hd' => plainChar_ne hdp ' ' (by decide) hd'⟩)]
  rw [if_neg (by
    simp only [List.head?_cons, Bool.or_eq_true, beq_iff_eq, Option.some_inj]
    push_neg
    exact ⟨⟨fun h' => plainChar_ne hc '-' (by decide) h',
            fun h' => plainChar_ne hc '?' (by decide) h'⟩,
           fun h' => plainChar_ne hc ':' (by decide) h'⟩)]
  rw [List.any_eq_false]
  intro d' hd'
  simp only [Bool.not_eq_true]
  cases hcc : printerSpecials.contains d'
  · rfl
  · exfalso
    have hmem : d' ∈ printerSpecials := List.mem_of_elem_eq_true hcc
    have h2 : printerSpecials.contains d' = false :=
      plainChar_not_special (hall d' hd')
    rw [hcc] at h2
    exact Bool.noConfusion h2

theorem quoteIfNeeded_safe {s : Str} (hne : s ≠ [])
    (hall : ∀ c ∈ s, plainChar c = true) : quoteIfNeeded s = s := by
  unfold quoteIfNeeded
  rw [needsQuoting_safe hne hall]
  rfl

theorem digitChar_digit (n : Nat) : (digitChar n).isDigit = true := by
  unfold digitChar
  split_ifs <;> decide

theorem digitChar_toNat {n : Nat} (h : n < 10) : (digitChar n).toNat - 48 = n := by
  interval_cases n <;> decide

theorem natDigitsGo_digits :
    ∀ fuel n, ∀ c ∈ natDigitsGo fuel n, c.isDigit = true := by
  intro fuel
  induction fuel with
  | zero => intro n c hc; simp [natDigitsGo] at hc
  | succ f ih =>
    intro n c hc
    rw [natDigitsGo] at hc
    by_cases hn : n < 10
    · rw [if_pos hn] at hc
      simp at hc
      rw [hc]
      exact digitChar_digit n
    · rw [if_neg hn] at hc
      rcases List.mem_append.mp hc with h1 | h2
      · exact ih (n / 10) c h1
      · have : c = digitChar (n % 10) := by simpa using h2
        rw [this]
        exact digitChar_digit _

theorem natDigitsGo_ne_nil (fuel n : Nat) : natDigitsGo (fuel + 1) n ≠ [] := by
  rw [natDigitsGo]
  by_cases hn : n < 10
  · rw [if_pos hn]; simp
  · rw [if_neg hn]; simp

theorem digitsToNat_append_singleton (a : Str) (c : Char) :
    digitsToNat (a ++ [c]) = digitsToNat a * 10 + (c.toNat - 48) := by
  unfold digitsToNat
  rw [List.foldl_append]
  rfl

theorem digitsToNat_natDigitsGo :
    ∀ fuel n, n < fuel → digitsToNat (natDigitsGo fuel n) = n := by
  intro fuel
  induction fuel with
  | zero => intro n hn; omega
  | succ f ih =>
    intro n hn
    rw [natDigitsGo]
    by_cases h10 : n < 10
    · rw [if_pos h10]
      show digitsToNat ([] ++ [digitChar n]) = n
      rw [digitsToNat_append_singleton]
      have := digitChar_toNat h10
      simp [digitsToNat]
      omega
    · rw [if_neg h10]
      rw [digitsToNat_append_singleton]
      rw [ih (n / 10) (by omega)]
      have := digitChar_toNat (show n % 10 < 10 by omega)
      omega

theorem natToStr_spec (n : Nat) :
    digitsToNat (natToStr n) = n ∧ natToStr n ≠ [] ∧
      ∀ c ∈ natToStr n, c.isDigit = true :=
  ⟨digitsToNat_natDigitsGo (n + 1) n (Nat.lt_succ_self n),
   natDigitsGo_ne_nil n n,
   fun c hc => natDigitsGo_digits (n + 1) n c hc⟩

theorem isDigit_ne {c : Char} (h : c.isDigit = true) :
    ∀ d : Char, d.isDigit = false → c ≠ d :=
  fun _ hd hcd => absurd (hcd ▸ h) (by simp [hd])

theorem matchIntRe_digits {l : Str} (hne : l ≠ [])
    (hall : ∀ c ∈ l, c.isDigit = true) : matchIntRe l = true := by
  obtain ⟨c, t, rfl⟩ : ∃ c t, l = c :: t := by
    cases l with
    | nil => exact absurd rfl hne
    | cons c t => exact ⟨c, t, rfl⟩
  have hc := hall c (List.mem_cons_self _ _)
  rw [matchIntRe]
  rw [if_neg (isDigit_ne hc '-' (by decide))]
  rw [List.all_eq_true]
  exact hall

theorem intToStr_chars {i : Int} :
    ∀ c ∈ intToStr i, c.isDigit = true ∨ c = '-' := by
  intro c hc
  unfold intToStr at hc
  by_cases hi : i < 0
  · rw [if_pos hi] at hc
    rcases List.mem_cons.mp hc with h1 | h2
    · exact Or.inr h1
    · exact Or.inl ((natToStr_spec _).2.2 c h2)
  · rw [if_neg hi] at hc
    exact Or.inl ((natToStr_spec _).2.2 c hc)

theorem intToStr_head {i : Int} :
    ∃ c t, intToStr i = c :: t ∧ (c.isDigit = true ∨ c = '-') := by
  obtain ⟨c, t, hct⟩ : ∃ c t, intToStr i = c :: t := by
    cases hl : intToStr i with
    | nil =>
      exfalso
      unfold intToStr at hl
      by_cases hi : i < 0
      · rw [if_pos hi] at hl; exact List.noConfusion hl
      · rw [if_neg hi] at hl; exact (natToStr_spec _).2.1 hl
    | cons c t => exact ⟨c, t, rfl⟩
  exact ⟨c, t, hct, intToStr_chars c (hct ▸ List.mem_cons_self _ _)⟩

theorem matchIntRe_intToStr {i : Int} : matchIntRe (intToStr i) = true := by
  unfold intToStr
  by_cases hi : i < 0
  · rw [if_pos hi, matchIntRe, if_pos rfl]
    obtain ⟨c, t, hct⟩ : ∃ c t, natToStr i.natAbs = c :: t := by
      cases hl : natToStr i.natAbs with
      | nil => exact absurd hl (natToStr_spec _).2.1
      | cons c t => exact ⟨c, t, rfl⟩
    rw [hct]
    simp only [List.isEmpty_cons, Bool.not_false, Bool.true_and]
    rw [List.all_eq_true]
    intro c' hc'
    exact (natToStr_spec _).2.2 c' (hct ▸ hc')
  · rw [if_neg hi]
    exact matchIntRe_digits (natToStr_spec _).2.1 (natToStr_spec _).2.2

theorem stoiModel_intToStr {i : Int} : stoiModel (intToStr i) = i := by
  unfold intToStr
  by_cases hi : i < 0
  · rw [if_pos hi]
    rw [stoiModel, if_pos rfl, (natToStr_spec _).1]
    omega
  · rw [if_neg hi]
    obtain ⟨c, t, hct⟩ : ∃ c t, natToStr i.natAbs = c :: t := by
      cases hl : natToStr i.natAbs with
      | nil => exact absurd hl (natToStr_spec _).2.1
      | cons c t => exact ⟨c, t, rfl⟩
    have hc : c.isDigit = true := (natToStr_spec _).2.2 c (hct ▸ List.mem_cons_self _ _)
    rw [hct, stoiModel, if_neg (isDigit_ne hc '-' (by decide)), ← hct,
      (natToStr_spec _).1]
    omega

theorem parseNumericValue_intToStr {i : Int} (h1 : -(2 ^ 31) ≤ i)
    (h2 : i ≤ 2 ^ 31 - 1) : parseNumericValue (intToStr i) = .ok (.intv i) := by
  unfold parseNumericValue
  rw [if_pos matchIntRe_intToStr]
  simp only [stoiModel_intToStr]
  rw [if_neg (by simp only [Bool.or_eq_true, decide_eq_true_eq]; omega)]

theorem intToStr_ne_bool {i : Int} :
    intToStr i ≠ lit "true" ∧ intToStr i ≠ lit "false" := by
  obtain ⟨c, t, hct, hc⟩ := intToStr_head (i := i)
  constructor
  · apply ne_of_head?_ne
    rw [hct, show (lit "true").head? = some 't' from rfl]
    simp only [List.head?_cons, ne_eq, Option.some_inj]
    intro hcc
    rcases hc with hd | hm
    · rw [hcc] at hd; exact absurd hd (by decide)
    · rw [hcc] at hm; exact absurd hm (by decide)
  · apply ne_of_head?_ne
    rw [hct, show (lit "false").head? = some 'f' from rfl]
    simp only [List.head?_cons, ne_eq, Option.some_inj]
    intro hcc
    rcases hc with hd | hm
    · rw [hcc] at hd; exact absurd hd (by decide)
    · rw [hcc] at hm; exact absurd hm (by decide)

theorem intToStr_spacetab {i : Int} : ∀ c ∈ intToStr i, isSpaceTab c = false := by
  intro c hc
  rcases intToStr_chars c hc with hd | hm
  · unfold isSpaceTab
    simp [isDigit_ne hd ' ' (by decide), isDigit_ne hd '\t' (by decide)]
  · rw [hm]; decide

theorem parseScalar_intToStr {i : Int} (h1 : -(2 ^ 31) ≤ i)
    (h2 : i ≤ 2 ^ 31 - 1) : parseScalar (intToStr i) = .ok (.intv i) := by
  obtain ⟨c, t, hct, hc⟩ := intToStr_head (i := i)
  have hq1 : c ≠ '\x27' := by
    rcases hc with hd | hm
    · exact isDigit_ne hd '\x27' (by decide)
    · rw [hm]; decide
  have hq2 : c ≠ '"' := by
    rcases hc with hd | hm
    · exact isDigit_ne hd '"' (by decide)
    · rw [hm]; decide
  have hpre : preprocessScalarValue (intToStr i) = intToStr i := by
    apply preprocess_id (show (intToStr i).head? = some c by rw [hct]; rfl)
      (trim_eq_self_of_all intToStr_spacetab) hq1 hq2
    apply findIdxOf_eq_none
    intro d hd
    rcases intToStr_chars d hd with hdd | hdm
    · simp [isDigit_ne hdd '#' (by decide)]
    · rw [hdm]; decide
  have htp : tryParsePrimitive (intToStr i) = .ok (.intv i) := by
    unfold tryParsePrimitive
    rw [if_neg intToStr_ne_bool.1, if_neg intToStr_ne_bool.2,
      parseNumericValue_intToStr h1 h2]
  unfold parseScalar
  simp only [hpre, htp, except_bind_ok]

theorem parseScalar_safeText {s : Str} (h : safeText s = true) :
    parseScalar s = .ok (.str s) := by
  obtain ⟨hne, hall, hhd, h1, h2⟩ := safeText_spec h
  obtain ⟨c, t, rfl⟩ : ∃ c t, s = c :: t := by
    cases s with
    | nil => exact absurd rfl hne
    | cons c t => exact ⟨c, t, rfl⟩
  have hc := hall c (List.mem_cons_self _ _)
  have hd : c.isDigit = false := by simpa using hhd
  exact parseScalar_plain (show (c :: t).head? = some c from rfl)
    (trim_eq_self_of_all fun d hd' => plainChar_spacetab (hall d hd'))
    (plainChar_ne hc '\x27' (by decide)) (plainChar_ne hc '"' (by decide))
    (findIdxOf_eq_none fun d hd' => by
      simp [plainChar_ne (hall d hd') '#' (by decide)])
    h1 h2 hd (plainChar_ne hc '-' (by decide)) (plainChar_ne hc '.' (by decide))

theorem safeScalar_false {e : YamlElement}
    (hn : ekind e = 0 ∨ ekind e = 2 ∨ ekind e = 5 ∨ ekind e = 6) :
    safeScalar e = false := by
  cases e <;> first
    | rfl
    | (exfalso; revert hn; simp [ekind])

theorem scalarTok_parse {e : YamlElement} (h : safeScalar e = true) :
    parseScalar (scalarTok e) = .ok e := by
  cases e with
  | str s => exact parseScalar_safeText (by simpa [safeScalar] using h)
  | boolv b => cases b <;> rfl
  | intv i =>
    have hr : -(2 ^ 31) ≤ i ∧ i ≤ 2 ^ 31 - 1 := by
      simpa [safeScalar] using h
    exact parseScalar_intToStr hr.1 hr.2
  | nullv => simp [safeScalar] at h
  | dbl r => simp [safeScalar] at h
  | seqv xs => simp [safeScalar] at h
  | mapv m => simp [safeScalar] at h

theorem scalarTok_spec {e : YamlElement} (h : safeScalar e = true) :
    scalarTok e ≠ [] ∧ (∀ c ∈ scalarTok e, isSpaceTab c = false) ∧
      '\n' ∉ scalarTok e ∧ ':' ∉ scalarTok e ∧ ScalarTok (scalarTok e) := by
  have base : scalarTok e ≠ [] ∧ (∀ c ∈ scalarTok e, isSpaceTab c = false) ∧
      '\n' ∉ scalarTok e ∧ ':' ∉ scalarTok e ∧
      (∀ c, (scalarTok e).head? = some c →
        !(c = '|' || c = '>' || c = '&' || c = '*' || c = '[') = true) := by
    cases e with
    | str s =>
      obtain ⟨hne, hall, -, -, -⟩ := safeText_spec (by simpa [safeScalar] using h)
      refine ⟨hne, fun c hc => plainChar_spacetab (hall c hc), ?_, ?_, ?_⟩
      · intro hmem
        exact plainChar_ne (hall '\n' hmem) '\n' (by decide) rfl
      · intro hmem
        exact plainChar_ne (hall ':' hmem) ':' (by decide) rfl
      · intro c hc
        obtain ⟨t, ht⟩ : ∃ t, s = c :: t := by
          cases s with
          | nil =>
            rw [show (scalarTok (.str ([] : Str))).head? = Option.none from rfl] at hc
            exact Option.noConfusion hc
          | cons a t =>
            have h2 : some a = some c := by rw [← hc]; rfl
            exact ⟨t, by rw [Option.some_inj.mp h2]⟩
        have := hall c (ht ▸ List.mem_cons_self _ _)
        simp [plainChar_ne this '|' (by decide), plainChar_ne this '>' (by decide),
          plainChar_ne this '&' (by decide), plainChar_ne this '*' (by decide),
          plainChar_ne this '[' (by decide)]
    | boolv b =>
      cases b
      · refine ⟨by decide, by decide, by decide, by decide, ?_⟩
        intro c hc
        have h2 := hc
        rw [show (scalarTok (.boolv false)).head? = some 'f' from rfl] at h2
        have : c = 'f' := (Option.some_inj.mp h2).symm
        rw [this]; decide
      · refine ⟨by decide, by decide, by decide, by decide, ?_⟩
        intro c hc
        have h2 := hc
        rw [show (scalarTok (.boolv true)).head? = some 't' from rfl] at h2
        have : c = 't' := (Option.some_inj.mp h2).symm
        rw [this]; decide
    | intv i =>
      obtain ⟨c, t, hct, hc⟩ := intToStr_head (i := i)
      refine ⟨by rw [show scalarTok (.intv i) = intToStr i from rfl, hct]; simp,
        intToStr_spacetab, ?_, ?_, ?_⟩
      · intro hmem
        rcases intToStr_chars '\n' hmem with hd | hm
        · exact absurd hd (by decide)
        · exact absurd hm (by decide)
      · intro hmem
        rcases intToStr_chars ':' hmem with hd | hm
        · exact absurd hd (by decide)
        · exact absurd hm (by decide)
      · intro c' hc'
        rw [show scalarTok (.intv i) = intToStr i from rfl, hct] at hc'
        have hcc : c = c' := by simpa using hc'
        subst hcc
        rcases hc with hd | hm
        · simp [isDigit_ne hd '|' (by decide), isDigit_ne hd '>' (by decide),
            isDigit_ne hd '&' (by decide), isDigit_ne hd '*' (by decide),
            isDigit_ne hd '[' (by decide)]
        · rw [hm]; decide
    | nullv => simp [safeScalar] at h
    | dbl r => simp [safeScalar] at h
    | seqv xs => simp [safeScalar] at h
    | mapv m => simp [safeScalar] at h
  obtain ⟨hne, hst, hnl, hcol, hhead⟩ := base
  refine ⟨hne, hst, hnl, hcol, trim_eq_self_of_all hst, hne, ?_⟩
  cases hh : (scalarTok e).head? with
  | none => rfl
  | some c => simpa using hhead c hh

theorem printItem_safe {e : YamlElement} (h : safeScalar e = true) (ind : Nat) :
    printItem e ind = scalarTok e ++ ['\n'] := by
  cases e with
  | str s =>
    obtain ⟨hne, hall, -, -, -⟩ := safeText_spec (by simpa [safeScalar] using h)
    show quoteIfNeeded s ++ ['\n'] = s ++ ['\n']
    rw [quoteIfNeeded_safe hne hall]
  | boolv b => cases b <;> rfl
  | intv i => rfl
  | nullv => simp [safeScalar] at h
  | dbl r => simp [safeScalar] at h
  | seqv xs => simp [safeScalar] at h
  | mapv m => simp [safeScalar] at h

/-! ### Splitting the serialized text back into lines -/

theorem splitLines_append {x y : Str} (h : '\n' ∉ x) :
    splitLines (x ++ '\n' :: y) = x :: splitLines y := by
  induction x with
  | nil => rw [List.nil_append, splitLines, if_pos rfl]
  | cons c t ih =>
    have hc : c ≠ '\n' := fun hcc => h (hcc ▸ List.mem_cons_self _ _)
    rw [List.cons_append, splitLines, if_neg hc,
      ih (fun hm => h (List.mem_cons_of_mem _ hm))]

theorem newline_notin_stdLine {k tok : Str}
    (hk : ∀ c ∈ k, plainChar c = true) (ht : '\n' ∉ tok) :
    '\n' ∉ stdLine k tok := by
  unfold stdLine
  intro hmem
  rcases List.mem_append.mp hmem with h1 | h2
  · exact plainChar_ne (hk '\n' h1) '\n' (by decide) rfl
  · rcases List.mem_cons.mp h2 with h3 | h4
    · exact absurd h3 (by decide)
    · rcases List.mem_cons.mp h4 with h5 | h6
      · exact absurd h5 (by decide)
      · exact ht h6

theorem newline_notin_indLine {n : Nat} {x : Str} (h : '\n' ∉ x) :
    '\n' ∉ indLine n x := by
  unfold indLine
  intro hmem
  rcases List.mem_append.mp hmem with h1 | h2
  · have := List.eq_of_mem_replicate h1
    exact absurd this (by decide)
  · exact h h2

theorem printMap_cons_scalar {k : Str} {v : YamlElement} (rest : YamlMap) (n : Nat)
    (hv : safeScalar v = true) :
    printMap ((k, v) :: rest) n =
      List.replicate n ' ' ++ quoteIfNeeded k ++ [':', ' '] ++
        (scalarTok v ++ ['\n']) ++ printMap rest n := by
  cases v with
  | str s =>
    obtain ⟨hne, -, -, -, -⟩ := safeText_spec (by simpa [safeScalar] using hv)
    cases s with
    | nil => exact absurd rfl hne
    | cons a t =>
      show List.replicate n ' ' ++ quoteIfNeeded k ++ [':', ' '] ++
          printItem (.str (a :: t)) (n + 2) ++ printMap rest n = _
      rw [printItem_safe hv]
  | boolv b =>
    show List.replicate n ' ' ++ quoteIfNeeded k ++ [':', ' '] ++
        printItem (.boolv b) (n + 2) ++ printMap rest n = _
    rw [printItem_safe hv]
  | intv i =>
    show List.replicate n ' ' ++ quoteIfNeeded k ++ [':', ' '] ++
        printItem (.intv i) (n + 2) ++ printMap rest n = _
    rw [printItem_safe hv]
  | nullv => simp [safeScalar] at hv
  | dbl r => simp [safeScalar] at hv
  | seqv xs => simp [safeScalar] at hv
  | mapv m2 => simp [safeScalar] at hv

theorem printSeq_cons_scalar {x : YamlElement} (rest : List YamlElement) (n : Nat)
    (hx : safeScalar x = true) :
    printSeq (x :: rest) n =
      List.replicate n ' ' ++ ['-', ' '] ++ (scalarTok x ++ ['\n']) ++
        printSeq rest n := by
  rw [printSeq, printItem_safe hx]

theorem printMap_scalar_lines (n : Nat) :
    ∀ (inner : YamlMap) (s : Str),
      (∀ kv ∈ inner, safeKey kv.1 = true ∧ safeScalar kv.2 = true) →
      splitLines (printMap inner n ++ s) =
        (inner.map fun kv => indLine n (stdLine kv.1 (scalarTok kv.2))) ++
          splitLines s := by
  intro inner
  induction inner with
  | nil => intro s h; simp [printMap]
  | cons kv rest ih =>
    intro s h
    obtain ⟨k, v⟩ := kv
    obtain ⟨hk, hv⟩ := h (k, v) (List.mem_cons_self _ _)
    obtain ⟨hkne, hkall⟩ := safeKey_spec hk
    obtain ⟨htne, hts, htnl, -, -⟩ := scalarTok_spec hv
    have hline : '\n' ∉ indLine n (stdLine k (scalarTok v)) :=
      newline_notin_indLine (newline_notin_stdLine hkall htnl)
    rw [printMap_cons_scalar rest n hv, quoteIfNeeded_safe hkne hkall]
    rw [show (List.replicate n ' ' ++ k ++ [':', ' '] ++ (scalarTok v ++ ['\n']) ++
        printMap rest n) ++ s =
        indLine n (stdLine k (scalarTok v)) ++ '\n' :: (printMap rest n ++ s) by
      simp [indLine, stdLine]]
    rw [splitLines_append hline,
      ih s (fun kv hkv => h kv (List.mem_cons_of_mem _ hkv))]
    rw [List.map_cons, List.cons_append]

theorem printSeq_scalar_lines (n : Nat) :
    ∀ (xs : List YamlElement) (s : Str),
      (∀ x ∈ xs, safeScalar x = true) →
      splitLines (printSeq xs n ++ s) =
        (xs.map fun x => indLine n ('-' :: ' ' :: scalarTok x)) ++ splitLines s := by
  intro xs
  induction xs with
  | nil => intro s h; simp [printSeq]
  | cons x rest ih =>
    intro s h
    have hx := h x (List.mem_cons_self _ _)
    obtain ⟨htne, hts, htnl, -, -⟩ := scalarTok_spec hx
    have hline : '\n' ∉ indLine n ('-' :: ' ' :: scalarTok x) := by
      apply newline_notin_indLine
      intro hmem
      rcases List.mem_cons.mp hmem with h1 | h2
      · exact absurd h1 (by decide)
      · rcases List.mem_cons.mp h2 with h3 | h4
        · exact absurd h3 (by decide)
        · exact htnl h4
    rw [printSeq_cons_scalar rest n hx]
    rw [show (List.replicate n ' ' ++ ['-', ' '] ++ (scalarTok x ++ ['\n']) ++
        printSeq rest n) ++ s =
        indLine n ('-' :: ' ' :: scalarTok x) ++ '\n' :: (printSeq rest n ++ s) by
      simp [indLine]]
    rw [splitLines_append hline,
      ih s (fun x' hx' => h x' (List.mem_cons_of_mem _ hx'))]
    rw [List.map_cons, List.cons_append]

theorem splitLines_printMap_top :
    ∀ (m : YamlMap) (s : Str), (∀ kv ∈ m, SafeEntry kv) →
      splitLines (printMap m 0 ++ s) = topLines m ++ splitLines s := by
  intro m
  induction m with
  | nil => intro s h; simp [printMap, topLines]
  | cons kv rest ih =>
    intro s h
    obtain ⟨k, v⟩ := kv
    obtain ⟨hk, hdetail⟩ := h (k, v) (List.mem_cons_self _ _)
    obtain ⟨hkne, hkall⟩ := safeKey_spec hk
    have hrest := fun kv hkv => h kv (List.mem_cons_of_mem _ hkv)
    cases v with
    | mapv inner =>
      replace hdetail : inner.isEmpty = false ∧ SortedKeys inner ∧
          ∀ kv2 ∈ inner, safeKey kv2.1 = true ∧ safeScalar kv2.2 = true := hdetail
      rw [show printMap ((k, .mapv inner) :: rest) 0 =
          quoteIfNeeded k ++ [':', ' '] ++ ('\n' :: printMap inner 4) ++
            printMap rest 0 from rfl]
      rw [quoteIfNeeded_safe hkne hkall]
      rw [show (k ++ [':', ' '] ++ ('\n' :: printMap inner 4) ++ printMap rest 0) ++ s =
          stdLine k [] ++ '\n' :: (printMap inner 4 ++ (printMap rest 0 ++ s)) by
        simp [stdLine]]
      rw [splitLines_append (newline_notin_stdLine hkall (by simp))]
      rw [printMap_scalar_lines 4 inner _ hdetail.2.2]
      rw [ih s hrest]
      simp [topLines, entryLines]
    | seqv xs =>
      replace hdetail : xs.isEmpty = false ∧ ∀ x ∈ xs, safeScalar x = true := hdetail
      rw [show printMap ((k, .seqv xs) :: rest) 0 =
          quoteIfNeeded k ++ [':', ' '] ++ ('\n' :: printSeq xs 4) ++
            printMap rest 0 from rfl]
      rw [quoteIfNeeded_safe hkne hkall]
      rw [show (k ++ [':', ' '] ++ ('\n' :: printSeq xs 4) ++ printMap rest 0) ++ s =
          stdLine k [] ++ '\n' :: (printSeq xs 4 ++ (printMap rest 0 ++ s)) by
        simp [stdLine]]
      rw [splitLines_append (newline_notin_stdLine hkall (by simp))]
      rw [printSeq_scalar_lines 4 xs _ hdetail.2]
      rw [ih s hrest]
      simp [topLines, entryLines]
    | str s' =>
      replace hdetail : safeScalar (.str s') = true := hdetail
      obtain ⟨htne, hts, htnl, -, -⟩ := scalarTok_spec hdetail
      rw [printMap_cons_scalar rest 0 hdetail, quoteIfNeeded_safe hkne hkall]
      rw [show (List.replicate 0 ' ' ++ k ++ [':', ' '] ++
          (scalarTok (.str s') ++ ['\n']) ++ printMap rest 0) ++ s =
          stdLine k (scalarTok (.str s')) ++ '\n' :: (printMap rest 0 ++ s) by
        simp [stdLine]]
      rw [splitLines_append (newline_notin_stdLine hkall htnl), ih s hrest]
      simp [topLines, entryLines]
    | boolv b =>
      replace hdetail : safeScalar (.boolv b) = true := hdetail
      obtain ⟨htne, hts, htnl, -, -⟩ := scalarTok_spec hdetail
      rw [printMap_cons_scalar rest 0 hdetail, quoteIfNeeded_safe hkne hkall]
      rw [show (List.replicate 0 ' ' ++ k ++ [':', ' '] ++
          (scalarTok (.boolv b) ++ ['\n']) ++ printMap rest 0) ++ s =
          stdLine k (scalarTok (.boolv b)) ++ '\n' :: (printMap rest 0 ++ s) by
        simp [stdLine]]
      rw [splitLines_append (newline_notin_stdLine hkall htnl), ih s hrest]
      simp [topLines, entryLines]
    | intv i =>
      replace hdetail : safeScalar (.intv i) = true := hdetail
      obtain ⟨htne, hts, htnl, -, -⟩ := scalarTok_spec hdetail
      rw [printMap_cons_scalar rest 0 hdetail, quoteIfNeeded_safe hkne hkall]
      rw [show (List.replicate 0 ' ' ++ k ++ [':', ' '] ++
          (scalarTok (.intv i) ++ ['\n']) ++ printMap rest 0) ++ s =
          stdLine k (scalarTok (.intv i)) ++ '\n' :: (printMap rest 0 ++ s) by
        simp [stdLine]]
      rw [splitLines_append (newline_notin_stdLine hkall htnl), ih s hrest]
      simp [topLines, entryLines]
    | nullv =>
      replace hdetail : safeScalar .nullv = true := hdetail
      simp [safeScalar] at hdetail
    | dbl r =>
      replace hdetail : safeScalar (.dbl r) = true := hdetail
      simp [safeScalar] at hdetail

/-! ### Step lemmas for empty-value (nested block) entries and sequence
items -/

/-- One `parseMap` iteration over a `key: ` line whose nested block is a
mapping: the sub-parse result is recorded under the key and the loop resumes
at the sub-parse's cursor. -/
theorem parseMapGo_nestedMap_step (fuel : Nat) (lines : List Str)
    (idx n indent : Nat) (m : YamlMap) (ek : List Str) (A : YamlMap)
    (k : Str) (n2 : Nat) (inner : YamlMap) (idx2 : Nat) (A2 : YamlMap)
    (hidx : idx < lines.length)
    (hline : lines.get ⟨idx, hidx⟩ = indLine n (stdLine k []))
    (hind : indent ≤ n) (hk : KeyTok k) (hek : ek.contains k = false)
    (hl : idx + 1 < lines.length)
    (hnext : findFirstNotOf (lines.get ⟨idx + 1, hl⟩) = some n2)
    (hn2 : n2 > n)
    (hnd : (((lines.get ⟨idx + 1, hl⟩).drop n2).head? == some '-') = false)
    (hsub : parseMapGo fuel lines (idx + 1) n2 [] [] A = .ok (inner, idx2, A2)) :
    parseMapGo (fuel + 1) lines idx indent m ek A =
      parseMapGo fuel lines idx2 indent (mapSet m k (.mapv inner)) (k :: ek) A2 := by
  obtain ⟨hne, hws, hcol, hhash, hdash⟩ := hk
  obtain ⟨c, t, rfl⟩ : ∃ c t, k = c :: t := by
    cases k with
    | nil => exact absurd rfl hne
    | cons c t => exact ⟨c, t, rfl⟩
  have hcsig : isSpaceTab c = false := hws c (List.mem_cons_self _ _)
  have hchash : c ≠ '#' := fun hcc => hhash (by simp [hcc])
  have hcdash : c ≠ '-' := fun hcc => hdash (by simp [hcc])
  rw [parseMapGo, dif_pos hidx]
  simp only [hline]
  rw [show indLine n (stdLine (c :: t) []) =
      indLine n (c :: (t ++ ':' :: ' ' :: [])) by rw [stdLine_cons]]
  rw [findFirstNotOf_indLine n _ hcsig]
  simp only [← stdLine_cons]
  rw [show ((trim (indLine n (stdLine (c :: t) []))).head? == some '#') = false by
    rw [trim_indLine, stdLine_cons, trim_cons_head hcsig]
    simp [hchash]]
  simp only [Bool.false_eq_true, if_false]
  rw [if_neg (by omega)]
  rw [drop_indLine]
  rw [show ((stdLine (c :: t) []).head? == some '-') = false by
    rw [stdLine_cons]
    simp [hcdash]]
  simp only [Bool.false_eq_true, if_false]
  rw [validate_stdLine [] idx ⟨hne, hws, hcol, hhash, hdash⟩]
  rw [show trim ([] : Str) = ([] : Str) from rfl, except_bind_ok]
  simp only [hek, Bool.false_eq_true, if_false]
  simp only [List.isEmpty_nil, if_true]
  rw [dif_pos hl]
  simp only [hnext]
  rw [if_pos (decide_eq_true hn2)]
  simp only [hnd, Bool.false_eq_true, if_false]
  rw [hsub, except_bind_ok]

/-- One `parseMap` iteration over a `key: ` line whose nested block is a
sequence of `-` lines: the sub-parse result is recorded under the key and
the loop resumes at the sub-parse's cursor. -/
theorem parseMapGo_nestedSeq_step (fuel : Nat) (lines : List Str)
    (idx n indent : Nat) (m : YamlMap) (ek : List Str) (A : YamlMap)
    (k : Str) (n2 : Nat) (items : List YamlElement) (idx2 : Nat) (A2 : YamlMap)
    (hidx : idx < lines.length)
    (hline : lines.get ⟨idx, hidx⟩ = indLine n (stdLine k []))
    (hind : indent ≤ n) (hk : KeyTok k) (hek : ek.contains k = false)
    (hl : idx + 1 < lines.length)
    (hnext : findFirstNotOf (lines.get ⟨idx + 1, hl⟩) = some n2)
    (hn2 : n2 > n)
    (hnd : (((lines.get ⟨idx + 1, hl⟩).drop n2).head? == some '-') = true)
    (hsub : parseSeqGo fuel lines (idx + 1) n2 [] A = .ok (items, idx2, A2)) :
    parseMapGo (fuel + 1) lines idx indent m ek A =
      parseMapGo fuel lines idx2 indent (mapSet m k (.seqv items)) (k :: ek) A2 := by
  obtain ⟨hne, hws, hcol, hhash, hdash⟩ := hk
  obtain ⟨c, t, rfl⟩ : ∃ c t, k = c :: t := by
    cases k with
    | nil => exact absurd rfl hne
    | cons c t => exact ⟨c, t, rfl⟩
  have hcsig : isSpaceTab c = false := hws c (List.mem_cons_self _ _)
  have hchash : c ≠ '#' := fun hcc => hhash (by simp [hcc])
  have hcdash : c ≠ '-' := fun hcc => hdash (by simp [hcc])
  rw [parseMapGo, dif_pos hidx]
  simp only [hline]
  rw [show indLine n (stdLine (c :: t) []) =
      indLine n (c :: (t ++ ':' :: ' ' :: [])) by rw [stdLine_cons]]
  rw [findFirstNotOf_indLine n _ hcsig]
  simp only [← stdLine_cons]
  rw [show ((trim (indLine n (stdLine (c :: t) []))).head? == some '#') = false by
    rw [trim_indLine, stdLine_cons, trim_cons_head hcsig]
    simp [hchash]]
  simp only [Bool.false_eq_true, if_false]
  rw [if_neg (by omega)]
  rw [drop_indLine]
  rw [show ((stdLine (c :: t) []).head? == some '-') = false by
    rw [stdLine_cons]
    simp [hcdash]]
  simp only [Bool.false_eq_true, if_false]
  rw [validate_stdLine [] idx ⟨hne, hws, hcol, hhash, hdash⟩]
  rw [show trim ([] : Str) = ([] : Str) from rfl, except_bind_ok]
  simp only [hek, Bool.false_eq_true, if_false]
  simp only [List.isEmpty_nil, if_true]
  rw [dif_pos hl]
  simp only [hnext]
  rw [if_pos (decide_eq_true hn2)]
  simp only [hnd, if_true]
  rw [hsub, except_bind_ok]

/-- Indentation underflow stops the `parseSeq` loop without consuming the
shallower line. -/
theorem parseSeqGo_stop (fuel : Nat) (lines : List Str)
    (idx n indent : Nat) (seq : List YamlElement) (A : YamlMap)
    {c : Char} (t : Str) (hidx : idx < lines.length)
    (hline : lines.get ⟨idx, hidx⟩ = indLine n (c :: t))
    (hsig : isSpaceTab c = false) (hcom : c ≠ '#') (hlt : n < indent) :
    parseSeqGo (fuel + 1) lines idx indent seq A = .ok (seq, idx, A) := by
  rw [parseSeqGo, dif_pos hidx]
  simp only [hline]
  rw [findFirstNotOf_indLine n _ hsig]
  rw [show ((trim (indLine n (c :: t))).head? == some '#') = false by
    rw [trim_indLine, trim_cons_head hsig]
    simp [hcom]]
  simp only [Bool.false_eq_true, if_false]
  rw [if_pos hlt]

/-- One `parseSeq` iteration over a `- token` line whose token is a plain
scalar and whose successor line is not deeper: the parsed scalar is appended
to the sequence. -/
theorem parseSeqGo_scalar_step (fuel : Nat) (lines : List Str)
    (idx n indent : Nat) (seq : List YamlElement) (A : YamlMap)
    (v : Str) (e : YamlElement) (hidx : idx < lines.length)
    (hline : lines.get ⟨idx, hidx⟩ = indLine n ('-' :: ' ' :: v))
    (hind : indent ≤ n) (hv : ScalarTok v)
    (hdeep : ∀ nl, lines[idx + 1]? = some nl →
      ∀ q, findFirstNotOf nl = some q → ¬ q > n)
    (he : parseScalar v = .ok e) :
    parseSeqGo (fuel + 1) lines idx indent seq A =
      parseSeqGo fuel lines (idx + 1) indent (seq ++ [e]) A := by
  obtain ⟨htrv, hvne, hvhead⟩ := hv
  obtain ⟨d, u, rfl⟩ : ∃ d u, v = d :: u := by
    cases v with
    | nil => exact absurd rfl hvne
    | cons d u => exact ⟨d, u, rfl⟩
  simp only [List.head?_cons, Option.all_some] at hvhead
  have hvfacts : (((¬d = '|' ∧ ¬d = '>') ∧ ¬d = '&') ∧ ¬d = '*') ∧ ¬d = '[' := by
    simpa using hvhead
  obtain ⟨⟨⟨⟨-, -⟩, -⟩, -⟩, hd5⟩ := hvfacts
  rw [parseSeqGo, dif_pos hidx]
  simp only [hline]
  rw [findFirstNotOf_indLine n _ (by decide)]
  rw [show ((trim (indLine n ('-' :: ' ' :: d :: u))).head? == some '#') = false by
    rw [trim_indLine, trim_cons_head (by decide)]
    decide]
  simp only [Bool.false_eq_true, if_false]
  rw [if_neg (by omega)]
  rw [drop_indLine]
  rw [show (!(('-' :: ' ' :: d :: u).head? == some '-')) = false from rfl]
  simp only [Bool.false_eq_true, if_false]
  rw [show ('-' :: ' ' :: d :: u).drop 1 = ' ' :: d :: u from rfl]
  rw [trim_cons_space, htrv]
  have hdeepF : (match lines[idx + 1]? with
      | Option.none => false
      | some nextLine =>
        match findFirstNotOf nextLine with
        | Option.none => false
        | some q => decide (q > n)) = false := by
    cases h1 : lines[idx + 1]? with
    | none => rfl
    | some nl =>
      show (match findFirstNotOf nl with
        | Option.none => false
        | some q => decide (q > n)) = false
      cases h2 : findFirstNotOf nl with
      | none => rfl
      | some q => exact decide_eq_false (hdeep nl h1 q h2)
  rw [hdeepF]
  simp only [Bool.false_eq_true, if_false]
  rw [show (!(d :: u).isEmpty) = true from rfl]
  simp only [if_true]
  rw [isInlineSeq_false_head (show (d :: u).head? = some d from rfl) hd5]
  simp only [Bool.false_eq_true, if_false]
  rw [he, except_bind_ok]

/-! ### Suffix bookkeeping and ordered-insertion lemmas -/

theorem getElem?_of_drop_eq {l s : List Str} {idx : Nat} (h : l.drop idx = s)
    (j : Nat) : l[idx + j]? = s[j]? := by
  rw [← List.getElem?_drop, h]

theorem get_of_drop_cons {l : List Str} {idx : Nat} {a : Str} {rest : List Str}
    (h : l.drop idx = a :: rest) (hidx : idx < l.length) :
    l.get ⟨idx, hidx⟩ = a := by
  have h2 : l[idx + 0]? = (a :: rest)[0]? := by rw [← List.getElem?_drop, h]
  rw [Nat.add_zero, List.getElem?_eq_getElem hidx] at h2
  have : l[idx] = a := by simpa using h2
  exact this

theorem lt_length_of_drop_cons {l : List Str} {idx : Nat} {a : Str}
    {rest : List Str} (h : l.drop idx = a :: rest) : idx < l.length := by
  have h2 := congrArg List.length h
  rw [List.length_drop] at h2
  simp only [List.length_cons] at h2
  omega

theorem drop_succ_of_drop_cons {l : List Str} {idx : Nat} {a : Str}
    {rest : List Str} (h : l.drop idx = a :: rest) : l.drop (idx + 1) = rest := by
  rw [← List.drop_drop 1 idx l, h]
  rfl

theorem drop_add_of_drop_append {l : List Str} {idx : Nat} {a b : List Str}
    (h : l.drop idx = a ++ b) : l.drop (idx + a.length) = b := by
  rw [← List.drop_drop a.length idx l, h, List.drop_left]

theorem strLt_asymm : ∀ {a b : Str}, strLt a b = true → strLt b a = false := by
  intro a
  induction a with
  | nil =>
    intro b h
    cases b with
    | nil => rfl
    | cons d u => rfl
  | cons c t ih =>
    intro b h
    cases b with
    | nil => exact Bool.noConfusion h
    | cons d u =>
      rw [strLt] at h ⊢
      by_cases h1 : c.toNat < d.toNat
      · rw [if_neg (by omega), if_pos h1]
      · rw [if_neg h1] at h
        by_cases h2 : d.toNat < c.toNat
        · rw [if_pos h2] at h
          exact Bool.noConfusion h
        · rw [if_neg h2] at h
          rw [if_neg h2, if_neg h1]
          exact ih h

theorem strLt_ne {a b : Str} (h : strLt a b = true) : a ≠ b := by
  intro he
  rw [he, strLt_irrefl] at h
  exact Bool.noConfusion h

theorem mapSet_append {acc : YamlMap} {k : Str} {v : YamlElement}
    (h : ∀ kv ∈ acc, strLt kv.1 k = true) : mapSet acc k v = acc ++ [(k, v)] := by
  induction acc with
  | nil => rfl
  | cons kv' rest ih =>
    obtain ⟨k', v'⟩ := kv'
    have hk' := h (k', v') (List.mem_cons_self _ _)
    rw [mapSet]
    rw [if_neg (by simp [strLt_asymm hk'])]
    rw [if_neg (strLt_ne hk')]
    rw [ih (fun kv hkv => h kv (List.mem_cons_of_mem _ hkv))]
    rfl

theorem contains_cons_false {x k : Str} {ek : List Str} (h1 : x ≠ k)
    (h2 : ek.contains x = false) : (k :: ek).contains x = false := by
  simp only [List.contains_cons, Bool.or_eq_false_iff]
  exact ⟨by simpa using h1, h2⟩

theorem entryLines_ne_nil (kv : Str × YamlElement) : entryLines kv ≠ [] := by
  obtain ⟨k, v⟩ := kv
  cases v <;> simp [entryLines]

/-- The serialized lines of a non-empty safe document start with a top-level
`key: …` line: non-blank at indentation 0, non-comment, shallower than any
nested block. -/
theorem topLines_head_shape {m : YamlMap} (h : ∀ kv ∈ m, SafeEntry kv) :
    m = [] ∨ ∃ c t tl, topLines m = indLine 0 (c :: t) :: tl ∧
      isSpaceTab c = false ∧ c ≠ '#' ∧ c ≠ '-' ∧ plainChar c = true := by
  cases m with
  | nil => exact Or.inl rfl
  | cons kv rest =>
    right
    obtain ⟨k, v⟩ := kv
    obtain ⟨hk, -⟩ := h (k, v) (List.mem_cons_self _ _)
    obtain ⟨hkne, hkall⟩ := safeKey_spec hk
    obtain ⟨c, t2, rfl⟩ : ∃ c t2, k = c :: t2 := by
      cases k with
      | nil => exact absurd rfl hkne
      | cons c t2 => exact ⟨c, t2, rfl⟩
    have hc := hkall c (List.mem_cons_self _ _)
    have hfacts : isSpaceTab c = false ∧ c ≠ '#' ∧ c ≠ '-' ∧ plainChar c = true :=
      ⟨plainChar_spacetab hc, plainChar_ne hc '#' (by decide),
        plainChar_ne hc '-' (by decide), hc⟩
    cases v with
    | mapv inner =>
      exact ⟨c, t2 ++ ':' :: ' ' :: [],
        (inner.map fun kv2 => indLine 4 (stdLine kv2.1 (scalarTok kv2.2))) ++
          topLines rest,
        by simp [topLines, entryLines, indLine, stdLine], hfacts.1, hfacts.2.1,
        hfacts.2.2.1, hfacts.2.2.2⟩
    | seqv xs =>
      exact ⟨c, t2 ++ ':' :: ' ' :: [],
        (xs.map fun x => indLine 4 ('-' :: ' ' :: scalarTok x)) ++ topLines rest,
        by simp [topLines, entryLines, indLine, stdLine], hfacts.1, hfacts.2.1,
        hfacts.2.2.1, hfacts.2.2.2⟩
    | str s' =>
      exact ⟨c, t2 ++ ':' :: ' ' :: scalarTok (.str s'), topLines rest,
        by simp [topLines, entryLines, indLine, stdLine], hfacts.1, hfacts.2.1,
        hfacts.2.2.1, hfacts.2.2.2⟩
    | boolv b =>
      exact ⟨c, t2 ++ ':' :: ' ' :: scalarTok (.boolv b), topLines rest,
        by simp [topLines, entryLines, indLine, stdLine], hfacts.1, hfacts.2.1,
        hfacts.2.2.1, hfacts.2.2.2⟩
    | intv i =>
      exact ⟨c, t2 ++ ':' :: ' ' :: scalarTok (.intv i), topLines rest,
        by simp [topLines, entryLines, indLine, stdLine], hfacts.1, hfacts.2.1,
        hfacts.2.2.1, hfacts.2.2.2⟩
    | nullv =>
      exact ⟨c, t2 ++ ':' :: ' ' :: scalarTok .nullv, topLines rest,
        by simp [topLines, entryLines, indLine, stdLine], hfacts.1, hfacts.2.1,
        hfacts.2.2.1, hfacts.2.2.2⟩
    | dbl r =>
      exact ⟨c, t2 ++ ':' :: ' ' :: scalarTok (.dbl r), topLines rest,
        by simp [topLines, entryLines, indLine, stdLine], hfacts.1, hfacts.2.1,
        hfacts.2.2.1, hfacts.2.2.2⟩

/-- Consuming the serialized lines of a block sequence of safe scalars:
one loop iteration per item, stopping at the end of input or at the first
shallower line. -/
theorem c2_seq_run (lines : List Str) (n2 indent : Nat) (A : YamlMap)
    (hind : indent ≤ n2) :
    ∀ fuel (xs : List YamlElement) (idx : Nat) (seq : List YamlElement)
      (tail : List Str),
      xs.length + 1 ≤ fuel →
      lines.drop idx =
        (xs.map fun x => indLine n2 ('-' :: ' ' :: scalarTok x)) ++ tail →
      (∀ x ∈ xs, safeScalar x = true) →
      (tail = [] ∨ ∃ m' c t tl, tail = indLine m' (c :: t) :: tl ∧
        isSpaceTab c = false ∧ c ≠ '#' ∧ m' < indent) →
      parseSeqGo fuel lines idx indent seq A =
        .ok (seq ++ xs, idx + xs.length, A) := by
  intro fuel
  induction fuel with
  | zero =>
    intro xs idx seq tail hfuel
    omega
  | succ f ih =>
    intro xs idx seq tail hfuel hsuf hall htail
    cases xs with
    | nil =>
      rw [List.map_nil, List.nil_append] at hsuf
      rcases htail with rfl | ⟨m', c, t, tl, rfl, hsig, hcom, hlt⟩
      · have hlen := congrArg List.length hsuf
        rw [List.length_drop] at hlen
        simp only [List.length_nil] at hlen
        have := parseSeqGo_end f lines idx indent seq A (by omega)
        simpa using this
      · have hidx := lt_length_of_drop_cons hsuf
        have hline := get_of_drop_cons hsuf hidx
        have := parseSeqGo_stop f lines idx m' indent seq A t hidx hline hsig
          hcom hlt
        simpa using this
    | cons x rest =>
      rw [List.map_cons, List.cons_append] at hsuf
      have hidx := lt_length_of_drop_cons hsuf
      have hline := get_of_drop_cons hsuf hidx
      have hx := hall x (List.mem_cons_self _ _)
      obtain ⟨htne, hts, htnl, htcol, htok⟩ := scalarTok_spec hx
      have hdrop1 := drop_succ_of_drop_cons hsuf
      have hdeep : ∀ nl, lines[idx + 1]? = some nl →
          ∀ q, findFirstNotOf nl = some q → ¬ q > n2 := by
        intro nl hnl q hq
        have h2 : lines[idx + 1]? =
            ((rest.map fun x => indLine n2 ('-' :: ' ' :: scalarTok x)) ++ tail)[0]? := by
          rw [show idx + 1 = (idx + 1) + 0 by omega]
          exact getElem?_of_drop_eq hdrop1 0
        rw [hnl] at h2
        cases rest with
        | cons x2 rest2 =>
          rw [List.map_cons, List.cons_append] at h2
          have hnl2 : nl = indLine n2 ('-' :: ' ' :: scalarTok x2) := by
            simpa using h2
          rw [hnl2, findFirstNotOf_indLine n2 _ (by decide)] at hq
          have : q = n2 := by simpa using hq.symm
          omega
        | nil =>
          rw [List.map_nil, List.nil_append] at h2
          rcases htail with rfl | ⟨m', c, t, tl, rfl, hsig, hcom, hlt⟩
          · simp at h2
          · have hnl2 : nl = indLine m' (c :: t) := by simpa using h2
            rw [hnl2, findFirstNotOf_indLine m' _ hsig] at hq
            have : q = m' := by simpa using hq.symm
            omega
      rw [parseSeqGo_scalar_step f lines idx n2 indent seq A (scalarTok x) x hidx
        hline hind htok hdeep (scalarTok_parse hx)]
      rw [ih rest (idx + 1) (seq ++ [x]) tail
        (by simp only [List.length_cons] at hfuel; omega) hdrop1
        (fun x' hx' => hall x' (List.mem_cons_of_mem _ hx')) htail]
      have e1 : seq ++ [x] ++ rest = seq ++ x :: rest := by simp
      have e2 : idx + 1 + rest.length = idx + (x :: rest).length := by
        simp only [List.length_cons]
        omega
      rw [e1, e2]

/-- Consuming the serialized lines of a nested mapping of safe scalars:
one loop iteration per entry, rebuilding the entries in `std::map` order,
stopping at the end of input or at the first shallower line. -/
theorem c2_innerMap_run (lines : List Str) (n2 : Nat) (A : YamlMap) :
    ∀ fuel (entries : YamlMap) (idx : Nat) (acc : YamlMap) (ek : List Str)
      (tail : List Str),
      entries.length + 1 ≤ fuel →
      lines.drop idx =
        (entries.map fun kv => indLine n2 (stdLine kv.1 (scalarTok kv.2))) ++ tail →
      (∀ kv ∈ entries, safeKey kv.1 = true ∧ safeScalar kv.2 = true) →
      (∀ kv ∈ entries, ek.contains kv.1 = false) →
      (∀ kv ∈ entries, ∀ kv' ∈ acc, strLt kv'.1 kv.1 = true) →
      SortedKeys entries →
      (tail = [] ∨ ∃ m' c t tl, tail = indLine m' (c :: t) :: tl ∧
        isSpaceTab c = false ∧ c ≠ '#' ∧ m' < n2) →
      parseMapGo fuel lines idx n2 acc ek A =
        .ok (acc ++ entries, idx + entries.length, A) := by
  intro fuel
  induction fuel with
  | zero =>
    intro entries idx acc ek tail hfuel
    omega
  | succ f ih =>
    intro entries idx acc ek tail hfuel hsuf hall hek hgt hsort htail
    cases entries with
    | nil =>
      rw [List.map_nil, List.nil_append] at hsuf
      rcases htail with rfl | ⟨m', c, t, tl, rfl, hsig, hcom, hlt⟩
      · have hlen := congrArg List.length hsuf
        rw [List.length_drop] at hlen
        simp only [List.length_nil] at hlen
        have := parseMapGo_end f lines idx n2 acc ek A (by omega)
        simpa using this
      · have hidx := lt_length_of_drop_cons hsuf
        have hline := get_of_drop_cons hsuf hidx
        have := parseMapGo_stop f lines idx m' n2 acc ek A t hidx hline hsig
          hcom hlt
        simpa using this
    | cons kv rest =>
      obtain ⟨k, v⟩ := kv
      rw [List.map_cons, List.cons_append] at hsuf
      have hidx := lt_length_of_drop_cons hsuf
      have hline := get_of_drop_cons hsuf hidx
      obtain ⟨hk, hv⟩ := hall (k, v) (List.mem_cons_self _ _)
      obtain ⟨htne, hts, htnl, htcol, htok⟩ := scalarTok_spec hv
      have hdrop1 := drop_succ_of_drop_cons hsuf
      obtain ⟨hhd, hsort'⟩ := List.pairwise_cons.mp hsort
      rw [parseMapGo_scalar_step f lines idx n2 n2 acc ek A k (scalarTok v) v
        hidx hline (Nat.le_refl n2) (safeKey_KeyTok hk) htok (scalarTok_parse hv)
        (hek (k, v) (List.mem_cons_self _ _))]
      rw [mapSet_append (fun kv' hkv' => hgt (k, v) (List.mem_cons_self _ _) kv' hkv')]
      rw [ih rest (idx + 1) (acc ++ [(k, v)]) (k :: ek) tail
        (by simp only [List.length_cons] at hfuel; omega) hdrop1
        (fun kv' hkv' => hall kv' (List.mem_cons_of_mem _ hkv'))
        (fun kv' hkv' => contains_cons_false (strLt_ne (hhd kv' hkv')).symm
          (hek kv' (List.mem_cons_of_mem _ hkv')))
        (fun kv' hkv' kv2 hkv2 => by
          rcases List.mem_append.mp hkv2 with h1 | h2
          · exact hgt kv' (List.mem_cons_of_mem _ hkv') kv2 h1
          · have : kv2 = (k, v) := by simpa using h2
            rw [this]
            exact hhd kv' hkv')
        hsort' htail]
      have e1 : acc ++ [(k, v)] ++ rest = acc ++ (k, v) :: rest := by simp
      have e2 : idx + 1 + rest.length = idx + ((k, v) :: rest).length := by
        simp only [List.length_cons]
        omega
      rw [e1, e2]

/-- Consuming the serialized lines of a safe top-level document at
indentation floor 0: every entry is rebuilt in order, nested mapping and
sequence blocks included, and the cursor ends at the end of input. -/
theorem c2_top_run (lines : List Str) (A : YamlMap) :
    ∀ fuel (entries : YamlMap) (idx : Nat) (acc : YamlMap) (ek : List Str),
      lines.length - idx + 2 ≤ fuel →
      idx ≤ lines.length →
      lines.drop idx = topLines entries →
      (∀ kv ∈ entries, SafeEntry kv) →
      (∀ kv ∈ entries, ek.contains kv.1 = false) →
      (∀ kv ∈ entries, ∀ kv' ∈ acc, strLt kv'.1 kv.1 = true) →
      SortedKeys entries →
      parseMapGo fuel lines idx 0 acc ek A =
        .ok (acc ++ entries, lines.length, A) := by
  intro fuel
  induction fuel with
  | zero =>
    intro entries idx acc ek hfuel
    omega
  | succ f ih =>
    intro entries idx acc ek hfuel hidxle hsuf hall hek hgt hsort
    cases entries with
    | nil =>
      have hlen := congrArg List.length hsuf
      rw [List.length_drop] at hlen
      rw [show topLines [] = [] from rfl] at hlen
      simp only [List.length_nil] at hlen
      have heq : lines.length = idx := by omega
      have h2 : acc ++ ([] : YamlMap) = acc := by simp
      rw [parseMapGo_end f lines idx 0 acc ek A (by omega), h2, heq]
    | cons kv rest =>
      obtain ⟨k, v⟩ := kv
      obtain ⟨hk, hdetail⟩ := hall (k, v) (List.mem_cons_self _ _)
      obtain ⟨hkne, hkall⟩ := safeKey_spec hk
      obtain ⟨hhd, hsort'⟩ := List.pairwise_cons.mp hsort
      have hallrest : ∀ kv2 ∈ rest, SafeEntry kv2 :=
        fun kv2 h2 => hall kv2 (List.mem_cons_of_mem _ h2)
      have hekrest : ∀ kv2 ∈ rest, (k :: ek).contains kv2.1 = false :=
        fun kv2 h2 => contains_cons_false (strLt_ne (hhd kv2 h2)).symm
          (hek kv2 (List.mem_cons_of_mem _ h2))
      have hrestshape := topLines_head_shape hallrest
      have hsuf' : lines.drop idx = entryLines (k, v) ++ topLines rest := by
        rw [hsuf]
        simp [topLines]
      by_cases hvsc : safeScalar v = true
      · -- scalar entry
        have hent : entryLines (k, v) = [stdLine k (scalarTok v)] := by
          cases v <;> first
            | rfl
            | (exfalso; simp [safeScalar] at hvsc)
        rw [hent, List.singleton_append] at hsuf'
        have hidx := lt_length_of_drop_cons hsuf'
        have hline : lines.get ⟨idx, hidx⟩ = indLine 0 (stdLine k (scalarTok v)) :=
          get_of_drop_cons hsuf' hidx
        obtain ⟨-, -, -, -, htok⟩ := scalarTok_spec hvsc
        rw [parseMapGo_scalar_step f lines idx 0 0 acc ek A k (scalarTok v) v
          hidx hline (Nat.le_refl 0) (safeKey_KeyTok hk) htok
          (scalarTok_parse hvsc) (hek (k, v) (List.mem_cons_self _ _))]
        rw [mapSet_append
          (fun kv' hkv' => hgt (k, v) (List.mem_cons_self _ _) kv' hkv')]
        rw [ih rest (idx + 1) (acc ++ [(k, v)]) (k :: ek) (by omega) (by omega)
          (drop_succ_of_drop_cons hsuf') hallrest hekrest
          (fun kv' hkv' kv2 hkv2 => by
            rcases List.mem_append.mp hkv2 with h1 | h2
            · exact hgt kv' (List.mem_cons_of_mem _ hkv') kv2 h1
            · have he2 : kv2 = (k, v) := by simpa using h2
              rw [he2]
              exact hhd kv' hkv')
          hsort']
        rw [show acc ++ [(k, v)] ++ rest = acc ++ (k, v) :: rest by simp]
      · cases v with
        | mapv inner =>
          replace hdetail : inner.isEmpty = false ∧ SortedKeys inner ∧
              ∀ kv2 ∈ inner, safeKey kv2.1 = true ∧ safeScalar kv2.2 = true :=
            hdetail
          obtain ⟨hine, hisort, hiall⟩ := hdetail
          have hsufc : lines.drop idx = stdLine k [] ::
              ((inner.map fun kv2 => indLine 4 (stdLine kv2.1 (scalarTok kv2.2))) ++
                topLines rest) := by
            rw [hsuf']
            simp [entryLines]
          have hidx := lt_length_of_drop_cons hsufc
          have hline : lines.get ⟨idx, hidx⟩ = indLine 0 (stdLine k []) :=
            get_of_drop_cons hsufc hidx
          have hdrop1 := drop_succ_of_drop_cons hsufc
          obtain ⟨ki, vi, irest, rfl⟩ : ∃ ki vi irest, inner = (ki, vi) :: irest := by
            cases inner with
            | nil => simp at hine
            | cons p irest =>
              obtain ⟨ki, vi⟩ := p
              exact ⟨ki, vi, irest, rfl⟩
          obtain ⟨hki, hvi⟩ := hiall (ki, vi) (List.mem_cons_self _ _)
          obtain ⟨hkine, hkiall⟩ := safeKey_spec hki
          obtain ⟨ck, tk, rfl⟩ : ∃ ck tk, ki = ck :: tk := by
            cases ki with
            | nil => exact absurd rfl hkine
            | cons ck tk => exact ⟨ck, tk, rfl⟩
          have hck := hkiall ck (List.mem_cons_self _ _)
          have hdrop1c := hdrop1
          rw [List.map_cons, List.cons_append] at hdrop1c
          have hl : idx + 1 < lines.length := lt_length_of_drop_cons hdrop1c
          have hline2 := get_of_drop_cons hdrop1c hl
          have hnext : findFirstNotOf (lines.get ⟨idx + 1, hl⟩) = some 4 := by
            rw [hline2, show indLine 4 (stdLine (ck :: tk) (scalarTok vi)) =
              indLine 4 (ck :: (tk ++ ':' :: ' ' :: scalarTok vi)) by
                rw [stdLine_cons]]
            exact findFirstNotOf_indLine 4 _ (plainChar_spacetab hck)
          have hnd : (((lines.get ⟨idx + 1, hl⟩).drop 4).head? == some '-') =
              false := by
            rw [hline2, drop_indLine, stdLine_cons]
            simp [plainChar_ne hck '-' (by decide)]
          have hitail : topLines rest = [] ∨ ∃ m' c t tl,
              topLines rest = indLine m' (c :: t) :: tl ∧
                isSpaceTab c = false ∧ c ≠ '#' ∧ m' < 4 := by
            rcases hrestshape with hnil | ⟨c, t, tl, heq, hsig, hcom, -, -⟩
            · left
              rw [hnil]
              rfl
            · exact Or.inr ⟨0, c, t, tl, heq, hsig, hcom, by omega⟩
          have hlenfact := congrArg List.length hsufc
          rw [List.length_drop] at hlenfact
          simp only [List.length_cons, List.length_append, List.length_map]
            at hlenfact
          have hsub := c2_innerMap_run lines 4 A f ((ck :: tk, vi) :: irest)
            (idx + 1) [] [] (topLines rest)
            (by simp only [List.length_cons]; omega) hdrop1 hiall
            (fun kv2 h2 => rfl)
            (fun kv2 h2 kv' h' => absurd h' (List.not_mem_nil _))
            hisort hitail
          rw [List.nil_append] at hsub
          rw [parseMapGo_nestedMap_step f lines idx 0 0 acc ek A k 4
            ((ck :: tk, vi) :: irest) (idx + 1 + ((ck :: tk, vi) :: irest).length)
            A hidx hline (Nat.le_refl 0) (safeKey_KeyTok hk)
            (hek (k, .mapv ((ck :: tk, vi) :: irest)) (List.mem_cons_self _ _))
            hl hnext (by omega) hnd hsub]
          have hms : mapSet acc k (YamlElement.mapv ((ck :: tk, vi) :: irest)) =
              acc ++ [(k, YamlElement.mapv ((ck :: tk, vi) :: irest))] :=
            mapSet_append (fun kv' hkv' =>
              (hgt (k, .mapv ((ck :: tk, vi) :: irest)) (List.mem_cons_self _ _)
                kv' hkv' : strLt kv'.1 k = true))
          rw [hms]
          have hdropc : lines.drop (idx + 1 + ((ck :: tk, vi) :: irest).length) =
              topLines rest := by
            have h3 := drop_add_of_drop_append hdrop1
            simpa using h3
          rw [ih rest (idx + 1 + ((ck :: tk, vi) :: irest).length)
            (acc ++ [(k, YamlElement.mapv ((ck :: tk, vi) :: irest))]) (k :: ek)
            (by simp only [List.length_cons]; omega)
            (by simp only [List.length_cons]; omega)
            hdropc hallrest hekrest
            (fun kv' hkv' kv2 hkv2 => by
              rcases List.mem_append.mp hkv2 with h1 | h2
              · exact hgt kv' (List.mem_cons_of_mem _ hkv') kv2 h1
              · have he2 : kv2 = (k, .mapv ((ck :: tk, vi) :: irest)) := by
                  simpa using h2
                rw [he2]
                exact hhd kv' hkv')
            hsort']
          rw [show acc ++ [(k, YamlElement.mapv ((ck :: tk, vi) :: irest))] ++ rest =
            acc ++ (k, YamlElement.mapv ((ck :: tk, vi) :: irest)) :: rest by simp]
        | seqv xs =>
          replace hdetail : xs.isEmpty = false ∧ ∀ x ∈ xs, safeScalar x = true :=
            hdetail
          obtain ⟨hxne, hxall⟩ := hdetail
          have hsufc : lines.drop idx = stdLine k [] ::
              ((xs.map fun x => indLine 4 ('-' :: ' ' :: scalarTok x)) ++
                topLines rest) := by
            rw [hsuf']
            simp [entryLines]
          have hidx := lt_length_of_drop_cons hsufc
          have hline : lines.get ⟨idx, hidx⟩ = indLine 0 (stdLine k []) :=
            get_of_drop_cons hsufc hidx
          have hdrop1 := drop_succ_of_drop_cons hsufc
          obtain ⟨x0, xrest, rfl⟩ : ∃ x0 xrest, xs = x0 :: xrest := by
            cases xs with
            | nil => simp at hxne
            | cons x0 xrest => exact ⟨x0, xrest, rfl⟩
          have hdrop1c := hdrop1
          rw [List.map_cons, List.cons_append] at hdrop1c
          have hl : idx + 1 < lines.length := lt_length_of_drop_cons hdrop1c
          have hline2 := get_of_drop_cons hdrop1c hl
          have hnext : findFirstNotOf (lines.get ⟨idx + 1, hl⟩) = some 4 := by
            rw [hline2]
            exact findFirstNotOf_indLine 4 _ (by decide)
          have hnd : (((lines.get ⟨idx + 1, hl⟩).drop 4).head? == some '-') =
              true := by
            rw [hline2, drop_indLine]
            rfl
          have hitail : topLines rest = [] ∨ ∃ m' c t tl,
              topLines rest = indLine m' (c :: t) :: tl ∧
                isSpaceTab c = false ∧ c ≠ '#' ∧ m' < 4 := by
            rcases hrestshape with hnil | ⟨c, t, tl, heq, hsig, hcom, -, -⟩
            · left
              rw [hnil]
              rfl
            · exact Or.inr ⟨0, c, t, tl, heq, hsig, hcom, by omega⟩
          have hlenfact := congrArg List.length hsufc
          rw [List.length_drop] at hlenfact
          simp only [List.length_cons, List.length_append, List.length_map]
            at hlenfact
          have hsub := c2_seq_run lines 4 4 A (Nat.le_refl 4) f (x0 :: xrest)
            (idx + 1) [] (topLines rest)
            (by simp only [List.length_cons]; omega) hdrop1 hxall hitail
          rw [List.nil_append] at hsub
          rw [parseMapGo_nestedSeq_step f lines idx 0 0 acc ek A k 4
            (x0 :: xrest) (idx + 1 + (x0 :: xrest).length) A hidx hline
            (Nat.le_refl 0) (safeKey_KeyTok hk)
            (hek (k, .seqv (x0 :: xrest)) (List.mem_cons_self _ _))
            hl hnext (by omega) hnd hsub]
          have hms : mapSet acc k (YamlElement.seqv (x0 :: xrest)) =
              acc ++ [(k, YamlElement.seqv (x0 :: xrest))] :=
            mapSet_append (fun kv' hkv' =>
              (hgt (k, .seqv (x0 :: xrest)) (List.mem_cons_self _ _) kv' hkv' :
                strLt kv'.1 k = true))
          rw [hms]
          have hdropc : lines.drop (idx + 1 + (x0 :: xrest).length) =
              topLines rest := by
            have h3 := drop_add_of_drop_append hdrop1
            simpa using h3
          rw [ih rest (idx + 1 + (x0 :: xrest).length)
            (acc ++ [(k, YamlElement.seqv (x0 :: xrest))]) (k :: ek)
            (by simp only [List.length_cons]; omega)
            (by simp only [List.length_cons]; omega)
            hdropc hallrest hekrest
            (fun kv' hkv' kv2 hkv2 => by
              rcases List.mem_append.mp hkv2 with h1 | h2
              · exact hgt kv' (List.mem_cons_of_mem _ hkv') kv2 h1
              · have he2 : kv2 = (k, .seqv (x0 :: xrest)) := by simpa using h2
                rw [he2]
                exact hhd kv' hkv')
            hsort']
          rw [show acc ++ [(k, YamlElement.seqv (x0 :: xrest))] ++ rest =
            acc ++ (k, YamlElement.seqv (x0 :: xrest)) :: rest by simp]
        | str s' => exact absurd hdetail hvsc
        | boolv b => exact absurd hdetail hvsc
        | intv i => exact absurd hdetail hvsc
        | nullv => exact absurd hdetail hvsc
        | dbl r => exact absurd hdetail hvsc

theorem detectSeqRoot_plain {c : Char} {t : Str} {tl : List Str}
    (hs : isSpaceTab c = false) (hd : c ≠ '-') (hcom : c ≠ '#') :
    detectSeqRoot (indLine 0 (c :: t) :: tl) = false := by
  have hh : (trim (indLine 0 (c :: t))).head? = some c := by
    rw [trim_indLine]
    exact trim_cons_head hs
  have hne : (trim (indLine 0 (c :: t))).isEmpty = false := by
    cases he : trim (indLine 0 (c :: t)) with
    | nil =>
      rw [he] at hh
      exact Option.noConfusion hh
    | cons a b => rfl
  rw [show detectSeqRoot (indLine 0 (c :: t) :: tl) =
      (if (trim (indLine 0 (c :: t))).isEmpty then detectSeqRoot tl
       else if (trim (indLine 0 (c :: t))).head? == some '#' then detectSeqRoot tl
       else ((trim (indLine 0 (c :: t))).head? == some '-')) from rfl]
  rw [hne]
  simp only [Bool.false_eq_true, if_false]
  rw [hh]
  rw [show (some c == some '#') = false from
    beq_eq_false_iff_ne.mpr (fun hcc => hcom (Option.some.inj hcc))]
  simp only [Bool.false_eq_true, if_false]
  exact beq_eq_false_iff_ne.mpr (fun hcc => hd (Option.some.inj hcc))

/-- C2: for every safe document (non-empty root mapping in `std::map` key
order whose entries are safe scalars or one-level nested non-empty
mappings/sequences of safe scalars), parsing the printer's output rebuilds
exactly the same tree: same key set, same variant kinds, same scalar
values, and no anchors. -/
theorem c2_roundtrip {m : YamlMap} (h : SafeDoc m) :
    parseLines (splitLines (printMap m 0)) = .ok (.mapRoot m []) := by
  obtain ⟨hmne, hsort, hall⟩ := h
  have hsplit : splitLines (printMap m 0) = topLines m := by
    have h2 := splitLines_printMap_top m [] hall
    rw [List.append_nil] at h2
    rw [show splitLines [] = [] from rfl, List.append_nil] at h2
    exact h2
  rcases topLines_head_shape hall with hnil | ⟨c, t, tl, heq, hsig, hcomc, hdash, -⟩
  · rw [hnil] at hmne
    exact absurd hmne (by decide)
  have hdet : detectSeqRoot (topLines m) = false := by
    rw [heq]
    exact detectSeqRoot_plain hsig hdash hcomc
  rw [hsplit]
  unfold parseLines
  rw [hdet]
  simp only [Bool.false_eq_true, if_false]
  rw [c2_top_run (topLines m) [] (parseFuel (topLines m)) m 0 [] []
    (by unfold parseFuel; omega) (Nat.zero_le _) (List.drop_zero _) hall
    (fun kv hkv => rfl)
    (fun kv hkv kv' h' => absurd h' (List.not_mem_nil _)) hsort]
  rw [List.nil_append]
  rfl

set_option maxRecDepth 400000 in
/-- C2 counterexample to the claim as stated: the anchor-free,
one-level-nested document `\x7bm: \x7bk: Text "true"\x7d\x7d` serializes to
`m:\n    k: true\n`, and parsing that output turns the Text scalar into a
Bool — the variant kind at position `m.k` differs from the original. -/
theorem c2_counterexample :
    parseLines (splitLines
        (printMap [(lit "m", .mapv [(lit "k", .str (lit "true"))])] 0)) =
      .ok (.mapRoot [(lit "m", .mapv [(lit "k", .boolv true)])] []) ∧
    ekind (.boolv true) ≠ ekind (.str (lit "true")) :=
  ⟨by rfl, by decide⟩

set_option maxRecDepth 400000 in
/-- Witness for the amended C2 round trip at a concrete safe document with a
boolean, a nested mapping holding an integer and a text, and a nested
sequence. -/
theorem c2_witness :
    SafeDoc [(lit "a", .boolv true),
      (lit "m", .mapv [(lit "x", .intv 3), (lit "y", .str (lit "hey"))]),
      (lit "s", .seqv [.str (lit "w")])] ∧
    parseLines (splitLines (printMap [(lit "a", .boolv true),
      (lit "m", .mapv [(lit "x", .intv 3), (lit "y", .str (lit "hey"))]),
      (lit "s", .seqv [.str (lit "w")])] 0)) =
      .ok (.mapRoot [(lit "a", .boolv true),
        (lit "m", .mapv [(lit "x", .intv 3), (lit "y", .str (lit "hey"))]),
        (lit "s", .seqv [.str (lit "w")])] []) :=
  ⟨by decide, c2_roundtrip (by decide)⟩

end Yaml
